import Mathlib

/-!
# IPS patch format: decoder (`ApplyIPS`, `MeasureIPS`) and encoder (`CreateIPS`)

Shallow embedding of `EMULib/IPS.c`.

* A byte is `Fin 256` (`unsigned char`).
* An opened `RFILE*` is the list of bytes that have not been consumed yet.
* `unsigned int` arithmetic that is returned or compared (`J+N`, `++Result`) is
  reduced modulo `2^32` with `u32`.
* The caller's buffer `Data` is a `List Byte`; `none` stands for the null pointer
  (measuring mode). Stores are done with `List.set`, so the length of the buffer
  never changes; the C caller guarantees `Size ≤ Data.length`.
* The `int` variables of the encoder (`pos`, `recordIdx`, `curr_offset`, the capacities)
  are natural numbers. This is what the C code computes as long as `in_size < 2^31`:
  `pos` stays below `in_size`, and the capacity is at most `2^24` at every test of
  line 188, hence at most `2^26` at the end. Beyond that `pos++` overflows a signed
  `int`, which C leaves undefined: `CreateIPS.checked` is `CreateIPS` with that overflow
  as an outcome of its own, and `checked_eq` shows that the two agree for
  `in_size < 2^31`.
* A C string (`GetIpsFileName`) is the list of its characters, without the terminating
  NUL; a pointer into it is an index. `filestream_exists` is a parameter.
-/

namespace IPS

/-- The C type `byte` / `unsigned char` (IPS.h line 18). -/
abbrev Byte := Fin 256

/-- Line 20: `#define FILE_LIMIT 0x1000000`. -/
def FILE_LIMIT : Nat := 0x1000000

/-- Line 21: `#define RECORD_LIMIT 0xFFFF`. -/
def RECORD_LIMIT : Nat := 0xFFFF

/-- Line 22: `#define EOF_CODE 0x454f46`. -/
def EOF_CODE : Nat := 0x454f46

/-- Wrap-around of `unsigned int` (32 bits). -/
def u32 (n : Nat) : Nat := n % 2 ^ 32

/-- The conversion `x & 0xff` stored into a `byte`. -/
def lowByte (n : Nat) : Byte := ⟨n % 256, Nat.mod_lt n (by decide)⟩

/-- The five bytes `"PATCH"`. -/
def PATCH : List Byte := [0x50, 0x41, 0x54, 0x43, 0x48]

/-- The three bytes `"EOF"`. -/
def EOFMARK : List Byte := [0x45, 0x4F, 0x46]

/-- Modelled from the spec: the stream collaborator `read(buf, n) -> bytesRead`
(`rfread(buf,1,n,F)` of libretro-common, not part of IPS.c). The stream is the list of
bytes still unread; the call delivers the next `n` bytes, or all remaining bytes when
fewer than `n` are left, and advances the stream past what it delivered. The first
component is what was stored into `buf`, its length is the returned count. -/
def rfread (F : List Byte) (n : Nat) : List Byte × List Byte := (F.take n, F.drop n)

/-- Modelled from the spec: the stream collaborator `seek(offset, fromCurrent) -> success`
(`rfseek(F,n,SEEK_CUR)` of libretro-common, not part of IPS.c). A forward seek on a
regular file succeeds; a position past the end leaves nothing to read. `none` would be
the failure result `< 0`. -/
def rfseek (F : List Byte) (n : Nat) : Option (List Byte) := some (F.drop n)

/-- Store the bytes `src` at `dst[j]`, `dst[j+1]`, ... (what `memcpy(dst+j, src, n)` and a
read into `dst+j` do). -/
def memcpy : List Byte → Nat → List Byte → List Byte
  | dst, _, [] => dst
  | dst, j, b :: bs => memcpy (dst.set j b) (j + 1) bs

/-- The call `memset(dst+j, v, n)`. -/
def memset (dst : List Byte) (j : Nat) (v : Byte) (n : Nat) : List Byte :=
  memcpy dst j (List.replicate n v)

/-- Line 78: `J = Buf[2]+((unsigned int)Buf[1]<<8)+((unsigned int)Buf[0]<<16)`. -/
def hdrOffset (b0 b1 b2 : Byte) : Nat := b2.val + (b1.val <<< 8) + (b0.val <<< 16)

/-- Line 79: `N = Buf[4]+((unsigned int)Buf[3]<<8)`. -/
def hdrLength (b3 b4 : Byte) : Nat := b4.val + (b3.val <<< 8)

/-- Line 120: `N = ((unsigned int)Buf[0]<<8)+Buf[1]`. -/
def fillLength (c0 c1 : Byte) : Nat := (c0.val <<< 8) + c1.val

/-- Outcome of one pass through the loop of `ApplyIPS`: either the loop is left (`break`,
or the loop condition fails) with the final `Result` and `Data`, or the next pass starts
with the unread rest `F` of the file. -/
inductive Step where
  | done (Result : Nat) (Data : Option (List Byte))
  | more (F : List Byte) (Data : Option (List Byte)) (Result : Nat)
deriving DecidableEq

/-- Lines 76–136 of `ApplyIPS`: the loop condition `rfread(Buf,1,5,F)==5` followed by one
pass through the loop body. `F` is the unread rest of the file, `Data` the target (`none`
when measuring), `Result` the running result. -/
def ApplyIPS.step (F : List Byte) (Data : Option (List Byte)) (Size Result : Nat) : Step :=
  match rfread F 5 with
  | ([b0, b1, b2, b3, b4], F1) =>
    let J := hdrOffset b0 b1 b2
    let N := hdrLength b3 b4
    if J = 0xFFFFFF ∨ [b0, b1, b2] = EOFMARK then .done Result Data
    else if N ≠ 0 then
      match Data with
      | none =>
        let Result := if Result < u32 (J + N) then u32 (J + N) else Result
        match rfseek F1 N with
        | none => .done Result none
        | some F2 => .more F2 none Result
      | some d =>
        if u32 (J + N) > Size then
          match rfseek F1 N with
          | none => .done Result (some d)
          | some F2 => .more F2 (some d) Result
        else
          let got := (rfread F1 N).1
          let F2 := (rfread F1 N).2
          if got.length = N then .more F2 (some (memcpy d J got)) (u32 (Result + 1))
          else .done Result (some (memcpy d J got))
    else
      match rfread F1 3 with
      | ([c0, c1, c2], F2) =>
        let N := fillLength c0 c1
        match Data with
        | none => .more F2 none (if Result < u32 (J + N) then u32 (J + N) else Result)
        | some d =>
          if N = 0 ∨ u32 (J + N) > Size then .more F2 (some d) Result
          else .more F2 (some (memset d J c2 N)) (u32 (Result + 1))
      | _ => .done Result Data
  | _ => .done Result Data

/-- Lines 76–137 of `ApplyIPS`: the `for` loop. The first argument bounds the number of
passes; every pass consumes at least five bytes, so `F.length` passes are always enough
(`ApplyIPS_loop_fuel`). -/
def ApplyIPS.loop : Nat → List Byte → Option (List Byte) → Nat → Nat → Nat × Option (List Byte)
  | 0, _, Data, _, Result => (Result, Data)
  | fuel + 1, F, Data, Size, Result =>
    match ApplyIPS.step F Data Size Result with
    | .done Result Data => (Result, Data)
    | .more F Data Result => ApplyIPS.loop fuel F Data Size Result

/-- Lines 72–141 of `ApplyIPS`, on the content `F` of the file opened at line 68 (when the
name cannot be resolved or the file cannot be opened, lines 66–70 return 0 and leave `Data`
alone). The result is the returned `unsigned int` together with the final content of
`Data`. -/
def ApplyIPS (F : List Byte) (Data : Option (List Byte)) (Size : Nat) : Nat × Option (List Byte) :=
  match rfread F 5 with
  | ([p0, p1, p2, p3, p4], F1) =>
    if [p0, p1, p2, p3, p4] = PATCH then ApplyIPS.loop F1.length F1 Data Size 0 else (0, Data)
  | _ => (0, Data)

/-- Lines 27–30: `MeasureIPS` is `ApplyIPS(FileName,0,0)`. -/
def MeasureIPS (F : List Byte) : Nat := (ApplyIPS F none 0).1

/-- Lines 143–152: `write_record` appends the 3-byte offset, the 2-byte size and
`record_size` bytes of `record_data` at `ips[*ips_size...]`; `ips` is the written part
`ips[0 .. *ips_size)` of the output buffer. -/
def write_record (ips : List Byte) (curr_offset : Nat) (record_data : List Byte)
    (record_size : Nat) : List Byte :=
  ips ++ [lowByte (curr_offset >>> 16), lowByte (curr_offset >>> 8), lowByte curr_offset,
          lowByte (record_size >>> 8), lowByte record_size] ++ record_data.take record_size

/-- Line 161: the doubling loop `for(...; new_capacity<required_capacity; new_capacity<<=1)`.
The first argument bounds the number of doublings. -/
def ensure_length.grow : Nat → Nat → Nat → Nat
  | 0, new_capacity, _ => new_capacity
  | fuel + 1, new_capacity, required_capacity =>
    if new_capacity < required_capacity then
      ensure_length.grow fuel (new_capacity <<< 1) required_capacity
    else new_capacity

/-- Lines 154–167: `ensure_length` returns the new value of `*capacity`; the content of the
buffer is kept. -/
def ensure_length (required_capacity capacity : Nat) : Nat :=
  if required_capacity ≤ capacity then capacity
  else ensure_length.grow required_capacity capacity required_capacity

/-- The local variables of `CreateIPS` that live across loop iterations. `record` is
`record[0 .. recordIdx)`, `ips` is `ips[0 .. *ips_size)`. -/
structure Enc where
  record_begun : Bool
  record : List Byte
  CurIpsBufSize : Nat
  ips : List Byte
  curr_offset : Nat
deriving DecidableEq

/-- Lines 194–239: the body of the `for` loop of `CreateIPS` at position `pos`. -/
def CreateIPS.body (original_data modified_data : List Byte) (in_size pos : Nat) (s : Enc) : Enc :=
  if s.record_begun = false then
    if in_size ≤ pos ∨ modified_data.getD pos 0 ≠ original_data.getD pos 0 then
      let record : List Byte :=
        (if pos = EOF_CODE then [modified_data.getD (pos - 1) 0] else []) ++ [modified_data.getD pos 0]
      let curr_offset := if pos = EOF_CODE then pos - 1 else pos
      if curr_offset = in_size - 1 then
        { record_begun := false, record := record, curr_offset := curr_offset,
          CurIpsBufSize := ensure_length (s.ips.length + 5 + 1) s.CurIpsBufSize,
          ips := write_record s.ips curr_offset record 1 }
      else
        { s with record_begun := true, record := record, curr_offset := curr_offset }
    else s
  else
    if s.record.length = RECORD_LIMIT - 1 then
      let record := s.record ++ [modified_data.getD pos 0]
      { s with record_begun := false, record := record,
               CurIpsBufSize := ensure_length (s.ips.length + 5 + record.length) s.CurIpsBufSize,
               ips := write_record s.ips s.curr_offset record record.length }
    else if (in_size ≤ pos ∨ modified_data.getD pos 0 ≠ original_data.getD pos 0)
        ∧ pos ≠ in_size - 1 then
      { s with record := s.record ++ [modified_data.getD pos 0] }
    else
      { s with record_begun := false,
               CurIpsBufSize := ensure_length (s.ips.length + 5 + s.record.length) s.CurIpsBufSize,
               ips := write_record s.ips s.curr_offset s.record s.record.length }

/-- Lines 186–240: the loop `for(pos=0;pos<in_size;pos++)`; the first argument is the
number `in_size - pos` of iterations still to run. `none` is the `return NULL` of line 192.
`pos` is a natural number here; the source declares it `int`, and `CreateIPS.loopChecked`
is the same loop with the range of that `int`. -/
def CreateIPS.loop (original_data modified_data : List Byte) (in_size : Nat) :
    Nat → Nat → Enc → Option Enc
  | 0, _, s => some s
  | n + 1, pos, s =>
    if s.CurIpsBufSize > FILE_LIMIT then none
    else CreateIPS.loop original_data modified_data in_size n (pos + 1)
      (CreateIPS.body original_data modified_data in_size pos s)

/-- Lines 173–182: the state before the loop (`"PATCH"` written, capacity 1024). -/
def CreateIPS.init : Enc :=
  { record_begun := false, record := [], CurIpsBufSize := 1024, ips := PATCH, curr_offset := 0 }

/-- Lines 171–249: `CreateIPS`. The result is `none` for `NULL`, otherwise the bytes
`ips[0 .. *ips_size)` of the returned buffer, so that `*ips_size` is the length of the list. -/
def CreateIPS (original_data modified_data : List Byte) (in_size : Nat) : Option (List Byte) :=
  match CreateIPS.loop original_data modified_data in_size in_size 0 CreateIPS.init with
  | none => none
  | some s => some (s.ips ++ EOFMARK)

/-- The local variables of `CreateIPS` at the top of the iteration for `pos`, that is,
after the body of lines 194–239 has run for the positions `0`, ..., `pos - 1`. These are
the states that the loop goes through as long as line 188 does not return `NULL`
(`loop_stateAt`). -/
def CreateIPS.stateAt (original_data modified_data : List Byte) (in_size : Nat) : Nat → Enc
  | 0 => CreateIPS.init
  | pos + 1 =>
    CreateIPS.body original_data modified_data in_size pos
      (CreateIPS.stateAt original_data modified_data in_size pos)

/-- The largest value of the 32-bit `int` that `pos` is declared with (line 177). -/
def INT_MAX : Nat := 2 ^ 31 - 1

/-- Lines 186–240 with the range of `int pos` made explicit. In the iteration for
`pos = INT_MAX`, which runs when `in_size > INT_MAX`, the `pos++` of line 186 overflows the
`int`, for which C defines no behaviour: this is the outer `none`. Everything else is
`CreateIPS.loop`, with `some none` for the `return NULL` of line 192. -/
def CreateIPS.loopChecked (original_data modified_data : List Byte) (in_size : Nat) :
    Nat → Nat → Enc → Option (Option Enc)
  | 0, _, s => some (some s)
  | n + 1, pos, s =>
    if s.CurIpsBufSize > FILE_LIMIT then some none
    else if INT_MAX ≤ pos then none
    else CreateIPS.loopChecked original_data modified_data in_size n (pos + 1)
      (CreateIPS.body original_data modified_data in_size pos s)

/-- Lines 171–249 with the range of `int pos` made explicit: the outer `none` is the
undefined behaviour of `CreateIPS.loopChecked`; `some r` is the defined result `r`, as
`CreateIPS` gives it. -/
def CreateIPS.checked (original_data modified_data : List Byte) (in_size : Nat) :
    Option (Option (List Byte)) :=
  match CreateIPS.loopChecked original_data modified_data in_size in_size 0 CreateIPS.init with
  | none => none
  | some none => some none
  | some (some s) => some (some (s.ips ++ EOFMARK))

/-- Lines 43–44 of `GetIpsFileName`: `cur = end; while (cur > IpsFileName && *cur != '.') --cur;`
as an index into the copy of the name. The name is the list of its characters; the
terminating NUL is what is read at index `strlen`. The result is the final `cur`. -/
def GetIpsFileName.scan (IpsFileName : List Char) : Nat → Nat
  | 0 => 0
  | cur + 1 =>
    if IpsFileName.getD (cur + 1) (Char.ofNat 0) ≠ '.' then GetIpsFileName.scan IpsFileName cur
    else cur + 1

/-- Lines 37–53: `GetIpsFileName`. `filestream_exists` (libretro-common, not part of IPS.c)
is a parameter. `none` is `NULL`; `strcpy(cur+1, ...)` replaces what follows `*cur` by the
three letters. -/
def GetIpsFileName (filestream_exists : List Char → Bool) (FileName : List Char) :
    Option (List Char) :=
  let endp := FileName.length
  let cur := GetIpsFileName.scan FileName endp
  if ¬(FileName.getD cur (Char.ofNat 0) = '.' ∧ endp - cur > 3) then none
  else
    let IpsFileName := FileName.take (cur + 1) ++ ['i', 'p', 's']
    if filestream_exists IpsFileName = false then some (FileName.take (cur + 1) ++ ['I', 'P', 'S'])
    else some IpsFileName

/-! ## The on-disk format, following the format description

These definitions follow the wording of the format description (specification §3 and
§6); they are what the code is compared with. -/

/-- A record of a patch stream: a copy record carries its payload, a fill record its run
length and fill byte. -/
inductive Record where
  | copy (offset : Nat) (payload : List Byte)
  | fill (offset : Nat) (run : Nat) (value : Byte)
deriving DecidableEq

/-- The offset of a record. -/
def Record.offset : Record → Nat
  | .copy o _ => o
  | .fill o _ _ => o

/-- The number of target bytes a record covers: the payload length of a copy record, the
run length of a fill record. -/
def Record.len : Record → Nat
  | .copy _ p => p.length
  | .fill _ n _ => n

/-- The bytes a record stores at its offset. -/
def Record.bytes : Record → List Byte
  | .copy _ p => p
  | .fill _ n v => List.replicate n v

/-- The record is a copy record. -/
def Record.isCopy : Record → Bool
  | .copy _ _ => true
  | .fill _ _ _ => false

/-- A record fits the field widths: 24-bit offset, 16-bit length, and a copy record has a
non-empty payload (length field 0 announces a fill record). -/
def Record.wf : Record → Bool
  | .copy o p => decide (o < 2 ^ 24) && decide (1 ≤ p.length) && decide (p.length ≤ 0xFFFF)
  | .fill o n _ => decide (o < 2 ^ 24) && decide (n ≤ 0xFFFF)

/-- The offset of the record is one of the two end-of-stream values. -/
def Record.sentinel (r : Record) : Bool :=
  decide (r.offset = 0xFFFFFF) || decide (r.offset = 0x454F46)

/-- The 3-byte big-endian offset field. -/
def offsetField (o : Nat) : List Byte := [lowByte (o >>> 16), lowByte (o >>> 8), lowByte o]

/-- The 2-byte big-endian length field. -/
def lengthField (n : Nat) : List Byte := [lowByte (n >>> 8), lowByte n]

/-- The bytes of a record in the stream. -/
def Record.encode : Record → List Byte
  | .copy o p => offsetField o ++ lengthField p.length ++ p
  | .fill o n v => offsetField o ++ [0, 0] ++ lengthField n ++ [v]

/-- The bytes of a list of records, in order. -/
def encodeAll : List Record → List Byte
  | [] => []
  | r :: rs => r.encode ++ encodeAll rs

/-- A record overwrites the target of size `Size`: it is in bounds, and a fill record has a
run of at least 1. -/
def Record.overwrites (r : Record) (Size : Nat) : Bool :=
  decide (1 ≤ r.len) && decide (r.offset + r.len ≤ Size)

/-- Overwrite `[offset, offset+len)` of the buffer with the bytes of the record when it
overwrites, change nothing otherwise. -/
def Record.apply (r : Record) (Size : Nat) (buf : List Byte) : List Byte :=
  if r.overwrites Size then buf.take r.offset ++ r.bytes ++ buf.drop (r.offset + r.len) else buf

/-- Process the records left to right. -/
def applyAll (Size : Nat) : List Record → List Byte → List Byte
  | [], buf => buf
  | r :: rs, buf => applyAll Size rs (r.apply Size buf)

/-- The number of records that overwrite. -/
def countApplied (Size : Nat) (rs : List Record) : Nat :=
  (rs.filter fun r => r.overwrites Size).length

/-- The maximum of `offset + len` over the records, 0 for no record. -/
def maxExtent : List Record → Nat
  | [] => 0
  | r :: rs => max (r.offset + r.len) (maxExtent rs)

/-- Replay a list of stores `(offset, bytes)` on a buffer, in order. -/
def replay : List (Nat × List Byte) → List Byte → List Byte
  | [], d => d
  | w :: ws, d => replay ws (memcpy d w.1 w.2)

/-- Add `k` to an `unsigned int` by `k` increments `++Result`. -/
def bump : Nat → Nat → Nat
  | 0, r => r
  | k + 1, r => bump k (u32 (r + 1))

/-- The bytes `data[a]`, ..., `data[a+n-1]` as the encoder reads them. -/
def slice (data : List Byte) (a n : Nat) : List Byte :=
  (List.range n).map fun i => data.getD (a + i) 0

/-- What is known of the capacity `CurIpsBufSize` when `len` bytes of the output have been
written: it is a power of two, it holds the written bytes, and it is either the initial
1024 or less than twice what was needed. -/
def CapOK (cap len : Nat) : Prop :=
  (∃ j, cap = 2 ^ j) ∧ len ≤ cap ∧ (cap = 1024 ∨ cap < 2 * len)

/-- A record emitted by the encoder before position `pos`: a copy record of 1 to 0xFFFF
bytes that ends at or before `pos` and carries the bytes of the modified buffer at its
offset. -/
def EmittedOK (modified_data : List Byte) (pos : Nat) (r : Record) : Prop :=
  r.isCopy = true ∧ 1 ≤ r.len ∧ r.len ≤ 0xFFFF ∧ r.offset + r.len ≤ pos ∧
    r.bytes = slice modified_data r.offset r.len

/-- The loop invariant of `CreateIPS` at the top of the iteration for `pos`: the output is
the header followed by complete copy records, and an open record holds the modified bytes
from `curr_offset` up to `pos`. -/
def EncInv (modified_data : List Byte) (pos : Nat) (s : Enc) : Prop :=
  (∃ recs : List Record, s.ips = PATCH ++ encodeAll recs ∧
      ∀ r ∈ recs, EmittedOK modified_data pos r) ∧
  (s.record_begun = true →
      s.curr_offset + s.record.length = pos ∧ 1 ≤ s.record.length ∧
      s.record.length ≤ 0xFFFE ∧ s.record = slice modified_data s.curr_offset s.record.length)

/-- A record as it is found in a stream of records, following the format description:
its offset, the length it announces (the run length for a fill record) and the number of
its payload bytes that the stream holds (for a fill record the run length again). -/
structure Decoded where
  offset : Nat
  length : Nat
  present : Nat
deriving DecidableEq

/-- The record is complete: the stream holds all the payload bytes it announces. A copy
record with `present < length` is cut short by the end of the stream. -/
def Decoded.complete (e : Decoded) : Bool := decide (e.present = e.length)

/-- The record at the head of a stream of records, following the format description, and
the stream after it. There is none when fewer than 5 bytes are left, when the offset is an
end-of-stream value, or when a fill record lacks one of its 3 further bytes. A copy record
whose payload is cut short by the end of the stream is returned with the number of payload
bytes that are there. -/
def decodeRecord : List Byte → Option (Decoded × List Byte)
  | b0 :: b1 :: b2 :: b3 :: b4 :: F1 =>
    if hdrOffset b0 b1 b2 = 0xFFFFFF ∨ [b0, b1, b2] = EOFMARK then none
    else if hdrLength b3 b4 ≠ 0 then
      some (⟨hdrOffset b0 b1 b2, hdrLength b3 b4, (F1.take (hdrLength b3 b4)).length⟩,
        F1.drop (hdrLength b3 b4))
    else
      match F1 with
      | c0 :: c1 :: _ :: F2 =>
        some (⟨hdrOffset b0 b1 b2, fillLength c0 c1, fillLength c0 c1⟩, F2)
      | _ => none
  | _ => none

/-- The records decoded from a stream of records, in order; the first argument bounds the
number of records. -/
def decodedRecords.go : Nat → List Byte → List Decoded
  | 0, _ => []
  | fuel + 1, F =>
    match decodeRecord F with
    | none => []
    | some (e, F') => e :: decodedRecords.go fuel F'

/-- The records decoded from a patch stream: those that follow the 5 header bytes. Only the
last one can be incomplete. -/
def decodedRecords (P : List Byte) : List Decoded :=
  decodedRecords.go (P.drop 5).length (P.drop 5)

/-- The record with its offset reduced to the 24 bits that the offset field holds. -/
def Record.norm : Record → Record
  | .copy o p => .copy (o % 2 ^ 24) p
  | .fill o n v => .fill (o % 2 ^ 24) n v

/-- The loop invariant of `CreateIPS` at the top of the iteration for `pos`, with the
list `recs` of the records written so far: the output is the header followed by `recs`;
every record is a copy record that ends at or before `pos`, carries the modified bytes and
does not start at `EOF_CODE`; at most one record was written per position; an open record
holds the modified bytes from `curr_offset` up to `pos`; and, when the buffers of `in_size`
bytes agree in their last byte, every position before the open record (before `pos` when
none is open) where the buffers differ lies in a record, and no record is open once the
scan is over. -/
def ScanInv (original_data modified_data : List Byte) (in_size pos : Nat) (s : Enc)
    (recs : List Record) : Prop :=
  s.ips = PATCH ++ encodeAll recs ∧
  (∀ r ∈ recs, EmittedOK modified_data pos r ∧ r.offset ≠ EOF_CODE) ∧
  recs.length ≤ pos ∧
  (s.record_begun = true →
      s.curr_offset + s.record.length = pos ∧ 1 ≤ s.record.length ∧
      s.record.length ≤ 0xFFFE ∧ s.curr_offset ≠ EOF_CODE ∧
      s.record = slice modified_data s.curr_offset s.record.length) ∧
  (modified_data.getD (in_size - 1) 0 = original_data.getD (in_size - 1) 0 →
      (∀ i, i < (if s.record_begun = true then s.curr_offset else pos) →
        modified_data.getD i 0 ≠ original_data.getD i 0 →
        ∃ r ∈ recs, r.offset ≤ i ∧ i < r.offset + r.len) ∧
      (pos = in_size → 0 < in_size → s.record_begun = false))

/-! ## Basic facts -/

theorem hdrOffset_lt (b0 b1 b2 : Byte) : hdrOffset b0 b1 b2 < 2 ^ 24 := by
  simp only [hdrOffset, Nat.shiftLeft_eq]
  omega

theorem hdrLength_lt (b3 b4 : Byte) : hdrLength b3 b4 < 2 ^ 16 := by
  simp only [hdrLength, Nat.shiftLeft_eq]
  omega

theorem fillLength_lt (c0 c1 : Byte) : fillLength c0 c1 < 2 ^ 16 := by
  simp only [fillLength, Nat.shiftLeft_eq]
  omega

theorem u32_of_lt {n : Nat} (h : n < 2 ^ 32) : u32 n = n := Nat.mod_eq_of_lt h

theorem u32_hdr (b0 b1 b2 b3 b4 : Byte) :
    u32 (hdrOffset b0 b1 b2 + hdrLength b3 b4) = hdrOffset b0 b1 b2 + hdrLength b3 b4 := by
  have h1 := hdrOffset_lt b0 b1 b2
  have h2 := hdrLength_lt b3 b4
  exact u32_of_lt (by omega)

theorem u32_fill (b0 b1 b2 c0 c1 : Byte) :
    u32 (hdrOffset b0 b1 b2 + fillLength c0 c1) = hdrOffset b0 b1 b2 + fillLength c0 c1 := by
  have h1 := hdrOffset_lt b0 b1 b2
  have h2 := fillLength_lt c0 c1
  exact u32_of_lt (by omega)

theorem hdrOffset_lowByte {o : Nat} (h : o < 2 ^ 24) :
    hdrOffset (lowByte (o >>> 16)) (lowByte (o >>> 8)) (lowByte o) = o := by
  simp only [hdrOffset, lowByte, Nat.shiftLeft_eq, Nat.shiftRight_eq_div_pow]
  omega

theorem hdrLength_lowByte {n : Nat} (h : n < 2 ^ 16) :
    hdrLength (lowByte (n >>> 8)) (lowByte n) = n := by
  simp only [hdrLength, lowByte, Nat.shiftLeft_eq, Nat.shiftRight_eq_div_pow]
  omega

theorem fillLength_lowByte {n : Nat} (h : n < 2 ^ 16) :
    fillLength (lowByte (n >>> 8)) (lowByte n) = n := by
  simp only [fillLength, lowByte, Nat.shiftLeft_eq, Nat.shiftRight_eq_div_pow]
  omega

@[simp] theorem length_memcpy (bs : List Byte) : ∀ (d : List Byte) (j : Nat),
    (memcpy d j bs).length = d.length := by
  induction bs with
  | nil => intro d j; rfl
  | cons b bs ih => intro d j; simp [memcpy, ih]

theorem getElem?_memcpy (bs : List Byte) : ∀ (d : List Byte) (j i : Nat),
    (memcpy d j bs)[i]? =
      if j ≤ i ∧ i < j + bs.length ∧ i < d.length then bs[i - j]? else d[i]? := by
  induction bs with
  | nil => intro d j i; simp only [memcpy, List.length_nil, Nat.add_zero]; rw [if_neg (by omega)]
  | cons b bs ih =>
    intro d j i
    simp only [memcpy, ih, List.length_set, List.length_cons]
    by_cases h1 : j + 1 ≤ i
    · have : i - j = (i - (j + 1)) + 1 := by omega
      rw [this, List.getElem?_cons_succ]
      by_cases h2 : i < j + 1 + bs.length ∧ i < d.length
      · rw [if_pos ⟨h1, h2⟩, if_pos ⟨by omega, by omega, h2.2⟩]
      · rw [if_neg (by tauto), if_neg (by intro h; apply h2; omega)]
        rw [List.getElem?_set_ne (by omega)]
    · rw [if_neg (by tauto)]
      by_cases h3 : j = i
      · subst h3
        by_cases h4 : j < d.length
        · rw [if_pos ⟨le_refl _, by omega, h4⟩]
          simp [h4]
        · rw [if_neg (by tauto)]
          simp only [List.getElem?_set, if_true, if_neg h4]
          rw [List.getElem?_eq_none (by omega)]
      · rw [if_neg (by omega), List.getElem?_set_ne h3]

theorem memcpy_eq_splice (bs : List Byte) (d : List Byte) (j : Nat) (h : j + bs.length ≤ d.length) :
    memcpy d j bs = d.take j ++ bs ++ d.drop (j + bs.length) := by
  apply List.ext_getElem?
  intro i
  rw [getElem?_memcpy]
  by_cases h1 : i < j
  · rw [if_neg (by omega), List.append_assoc, List.getElem?_append_left (by simp; omega)]
    rw [List.getElem?_take_of_lt h1]
  · by_cases h2 : i < j + bs.length
    · rw [if_pos ⟨by omega, h2, by omega⟩, List.append_assoc,
        List.getElem?_append_right (by simp; omega)]
      have : (List.take j d).length = j := by simp; omega
      rw [this, List.getElem?_append_left (by omega)]
    · rw [if_neg (by omega), List.getElem?_append_right (by simp; omega)]
      have : (List.take j d ++ bs).length = j + bs.length := by simp; omega
      rw [this, List.getElem?_drop]
      congr 1; omega

/-! ## The loop of `ApplyIPS` -/

theorem step_short (F : List Byte) (h : F.length < 5) (D : Option (List Byte)) (S R : Nat) :
    ApplyIPS.step F D S R = .done R D := by
  rcases F with _ | ⟨b0, _ | ⟨b1, _ | ⟨b2, _ | ⟨b3, _ | ⟨b4, F1⟩⟩⟩⟩⟩ <;>
    first
      | (exfalso; simp only [List.length_cons] at h; omega)
      | rfl

theorem step_cons (b0 b1 b2 b3 b4 : Byte) (F1 : List Byte) (D : Option (List Byte)) (S R : Nat) :
    ApplyIPS.step (b0 :: b1 :: b2 :: b3 :: b4 :: F1) D S R =
      if hdrOffset b0 b1 b2 = 0xFFFFFF ∨ [b0, b1, b2] = EOFMARK then .done R D
      else if hdrLength b3 b4 ≠ 0 then
        match D with
        | none =>
          .more (F1.drop (hdrLength b3 b4)) none
            (if R < hdrOffset b0 b1 b2 + hdrLength b3 b4 then hdrOffset b0 b1 b2 + hdrLength b3 b4
             else R)
        | some d =>
          if hdrOffset b0 b1 b2 + hdrLength b3 b4 > S then
            .more (F1.drop (hdrLength b3 b4)) (some d) R
          else if (F1.take (hdrLength b3 b4)).length = hdrLength b3 b4 then
            .more (F1.drop (hdrLength b3 b4))
              (some (memcpy d (hdrOffset b0 b1 b2) (F1.take (hdrLength b3 b4)))) (u32 (R + 1))
          else .done R (some (memcpy d (hdrOffset b0 b1 b2) (F1.take (hdrLength b3 b4))))
      else
        match F1 with
        | c0 :: c1 :: c2 :: F2 =>
          match D with
          | none =>
            .more F2 none
              (if R < hdrOffset b0 b1 b2 + fillLength c0 c1 then
                hdrOffset b0 b1 b2 + fillLength c0 c1 else R)
          | some d =>
            if fillLength c0 c1 = 0 ∨ hdrOffset b0 b1 b2 + fillLength c0 c1 > S then
              .more F2 (some d) R
            else .more F2 (some (memset d (hdrOffset b0 b1 b2) c2 (fillLength c0 c1))) (u32 (R + 1))
        | _ => .done R D := by
  simp only [ApplyIPS.step, rfread, rfseek, List.take_succ_cons, List.take_zero, List.drop_succ_cons,
    List.drop_zero, u32_hdr]
  split_ifs <;> try rfl
  all_goals
    rcases F1 with _ | ⟨c0, _ | ⟨c1, _ | ⟨c2, F2⟩⟩⟩ <;>
      simp only [List.take_succ_cons, List.take_zero, List.drop_succ_cons, List.take_nil,
        List.drop_zero, u32_fill]

theorem memcpy_nil (d : List Byte) (j : Nat) : memcpy d j [] = d := rfl

theorem bump_zero (r : Nat) : bump 0 r = r := rfl

theorem bump_one (r : Nat) : bump 1 r = u32 (r + 1) := rfl

/-- One pass of the loop in target mode, independently of the content of the target: the
pass does one store `memcpy d J bs` that stays inside `[0, Size)` (or stores nothing), and
then either leaves the loop or goes on with a strictly shorter rest of the file. -/
theorem step_target (F : List Byte) (Size : Nat) :
    ∃ (J : Nat) (bs : List Byte), (bs = [] ∨ J + bs.length ≤ Size) ∧
      ((∀ d R, ApplyIPS.step F (some d) Size R = .done R (some (memcpy d J bs))) ∨
       (∃ F' k, F'.length + 5 ≤ F.length ∧
          ∀ d R, ApplyIPS.step F (some d) Size R = .more F' (some (memcpy d J bs)) (bump k R))) := by
  by_cases hF : F.length < 5
  · exact ⟨0, [], Or.inl rfl, Or.inl fun d R => step_short F hF _ _ _⟩
  · rcases F with _ | ⟨b0, _ | ⟨b1, _ | ⟨b2, _ | ⟨b3, _ | ⟨b4, F1⟩⟩⟩⟩⟩ <;>
      try (exfalso; simp only [List.length_cons, List.length_nil] at hF; omega)
    by_cases hT : hdrOffset b0 b1 b2 = 0xFFFFFF ∨ [b0, b1, b2] = EOFMARK
    · refine ⟨0, [], Or.inl rfl, Or.inl fun d R => ?_⟩
      rw [step_cons, if_pos hT]; rfl
    · by_cases hN : hdrLength b3 b4 ≠ 0
      · by_cases hS : hdrOffset b0 b1 b2 + hdrLength b3 b4 > Size
        · refine ⟨0, [], Or.inl rfl, Or.inr ⟨F1.drop (hdrLength b3 b4), 0, ?_, fun d R => ?_⟩⟩
          · simp only [List.length_drop, List.length_cons]; omega
          · rw [step_cons, if_neg hT, if_pos hN]
            simp only [if_pos hS]; rfl
        · have hlen : (F1.take (hdrLength b3 b4)).length ≤ hdrLength b3 b4 := by
            simp only [List.length_take]; omega
          by_cases hG : (F1.take (hdrLength b3 b4)).length = hdrLength b3 b4
          · refine ⟨hdrOffset b0 b1 b2, F1.take (hdrLength b3 b4), Or.inr (by omega),
              Or.inr ⟨F1.drop (hdrLength b3 b4), 1, ?_, fun d R => ?_⟩⟩
            · simp only [List.length_drop, List.length_cons]; omega
            · rw [step_cons, if_neg hT, if_pos hN]
              simp only [if_neg hS, if_pos hG]; rfl
          · refine ⟨hdrOffset b0 b1 b2, F1.take (hdrLength b3 b4), Or.inr (by omega),
              Or.inl fun d R => ?_⟩
            rw [step_cons, if_neg hT, if_pos hN]
            simp only [if_neg hS, if_neg hG]
      · rcases F1 with _ | ⟨c0, _ | ⟨c1, _ | ⟨c2, F2⟩⟩⟩
        · exact ⟨0, [], Or.inl rfl, Or.inl fun d R => by rw [step_cons, if_neg hT, if_neg hN]; rfl⟩
        · exact ⟨0, [], Or.inl rfl, Or.inl fun d R => by rw [step_cons, if_neg hT, if_neg hN]; rfl⟩
        · exact ⟨0, [], Or.inl rfl, Or.inl fun d R => by rw [step_cons, if_neg hT, if_neg hN]; rfl⟩
        · by_cases hS : fillLength c0 c1 = 0 ∨ hdrOffset b0 b1 b2 + fillLength c0 c1 > Size
          · refine ⟨0, [], Or.inl rfl, Or.inr ⟨F2, 0, ?_, fun d R => ?_⟩⟩
            · simp only [List.length_cons]; omega
            · rw [step_cons, if_neg hT, if_neg hN]
              simp only [if_pos hS]; rfl
          · refine ⟨hdrOffset b0 b1 b2, List.replicate (fillLength c0 c1) c2, Or.inr ?_,
              Or.inr ⟨F2, 1, ?_, fun d R => ?_⟩⟩
            · simp only [List.length_replicate]; omega
            · simp only [List.length_cons]; omega
            · rw [step_cons, if_neg hT, if_neg hN]
              simp only [if_neg hS]; rfl

/-- One pass of the loop consumes at least five bytes whenever the loop goes on. -/
theorem step_more_length (F : List Byte) (D : Option (List Byte)) (S R : Nat)
    (F' : List Byte) (D' : Option (List Byte)) (R' : Nat)
    (h : ApplyIPS.step F D S R = .more F' D' R') : F'.length + 5 ≤ F.length := by
  by_cases hF : F.length < 5
  · rw [step_short F hF] at h; cases h
  · rcases F with _ | ⟨b0, _ | ⟨b1, _ | ⟨b2, _ | ⟨b3, _ | ⟨b4, F1⟩⟩⟩⟩⟩ <;>
      try (exfalso; simp only [List.length_cons, List.length_nil] at hF; omega)
    rw [step_cons] at h
    by_cases hT : hdrOffset b0 b1 b2 = 0xFFFFFF ∨ [b0, b1, b2] = EOFMARK
    · rw [if_pos hT] at h; cases h
    · rw [if_neg hT] at h
      by_cases hN : hdrLength b3 b4 ≠ 0
      · rw [if_pos hN] at h
        have hd : (F1.drop (hdrLength b3 b4)).length + 5 ≤
            (b0 :: b1 :: b2 :: b3 :: b4 :: F1).length := by
          simp only [List.length_drop, List.length_cons]; omega
        cases D with
        | none => simp only at h; cases h; exact hd
        | some d =>
          simp only at h
          by_cases hS : hdrOffset b0 b1 b2 + hdrLength b3 b4 > S
          · rw [if_pos hS] at h; cases h; exact hd
          · rw [if_neg hS] at h
            by_cases hG : (F1.take (hdrLength b3 b4)).length = hdrLength b3 b4
            · rw [if_pos hG] at h; cases h; exact hd
            · rw [if_neg hG] at h; cases h
      · rw [if_neg hN] at h
        rcases F1 with _ | ⟨c0, _ | ⟨c1, _ | ⟨c2, F2⟩⟩⟩
        · simp only at h; cases h
        · simp only at h; cases h
        · simp only at h; cases h
        simp only at h
        have hd : F2.length + 5 ≤
            (b0 :: b1 :: b2 :: b3 :: b4 :: c0 :: c1 :: c2 :: F2).length := by
          simp only [List.length_cons]; omega
        cases D with
        | none => simp only at h; cases h; exact hd
        | some d =>
          simp only at h
          by_cases hS : fillLength c0 c1 = 0 ∨ hdrOffset b0 b1 b2 + fillLength c0 c1 > S
          · rw [if_pos hS] at h; cases h; exact hd
          · rw [if_neg hS] at h; cases h; exact hd

theorem ApplyIPS_loop_succ (fuel : Nat) (F : List Byte) (D : Option (List Byte)) (S R : Nat) :
    ApplyIPS.loop (fuel + 1) F D S R =
      match ApplyIPS.step F D S R with
      | .done R' D' => (R', D')
      | .more F' D' R' => ApplyIPS.loop fuel F' D' S R' := rfl

/-- The bound on the number of passes is never reached: any two bounds that are at least
the length of the unread file give the same result. -/
theorem loop_fuel_eq : ∀ (fuel₁ fuel₂ : Nat) (F : List Byte) (D : Option (List Byte)) (S R : Nat),
    F.length ≤ fuel₁ → F.length ≤ fuel₂ →
      ApplyIPS.loop fuel₁ F D S R = ApplyIPS.loop fuel₂ F D S R := by
  intro fuel₁
  induction fuel₁ with
  | zero =>
    intro fuel₂ F D S R h1 _
    have hF : F = [] := List.length_eq_zero.mp (by omega)
    subst hF
    cases fuel₂ with
    | zero => rfl
    | succ n => rw [ApplyIPS_loop_succ, step_short [] (by simp)]; rfl
  | succ n ih =>
    intro fuel₂ F D S R h1 h2
    cases fuel₂ with
    | zero =>
      have hF : F = [] := List.length_eq_zero.mp (by omega)
      subst hF
      rw [ApplyIPS_loop_succ, step_short [] (by simp)]; rfl
    | succ m =>
      rw [ApplyIPS_loop_succ, ApplyIPS_loop_succ]
      cases hs : ApplyIPS.step F D S R with
      | done R' D' => rfl
      | more F' D' R' =>
        have := step_more_length F D S R F' D' R' hs
        exact ih m F' D' S R' (by omega) (by omega)

theorem ApplyIPS_loop_fuel (fuel : Nat) (F : List Byte) (D : Option (List Byte)) (S R : Nat)
    (h : F.length ≤ fuel) : ApplyIPS.loop fuel F D S R = ApplyIPS.loop F.length F D S R :=
  loop_fuel_eq fuel F.length F D S R h (le_refl _)

theorem loop_of_done {F : List Byte} {D : Option (List Byte)} {S R : Nat} {R' : Nat}
    {D' : Option (List Byte)} (h : ApplyIPS.step F D S R = .done R' D') :
    ApplyIPS.loop F.length F D S R = (R', D') := by
  rw [loop_fuel_eq F.length (F.length + 1) F D S R (le_refl _) (by omega), ApplyIPS_loop_succ, h]

theorem loop_of_more {F : List Byte} {D : Option (List Byte)} {S R : Nat} {F' : List Byte}
    {R' : Nat} {D' : Option (List Byte)} (h : ApplyIPS.step F D S R = .more F' D' R') :
    ApplyIPS.loop F.length F D S R = ApplyIPS.loop F'.length F' D' S R' := by
  rw [loop_fuel_eq F.length (F.length + 1) F D S R (le_refl _) (by omega), ApplyIPS_loop_succ, h]
  exact ApplyIPS_loop_fuel _ _ _ _ _ (by have := step_more_length F D S R F' D' R' h; omega)

theorem ApplyIPS_patch (F : List Byte) (D : Option (List Byte)) (S : Nat) :
    ApplyIPS (PATCH ++ F) D S = ApplyIPS.loop F.length F D S 0 := rfl

theorem bump_add : ∀ (a b r : Nat), bump b (bump a r) = bump (a + b) r := by
  intro a
  induction a with
  | zero => intro b r; simp [bump]
  | succ n ih =>
    intro b r
    have : n + 1 + b = (n + b) + 1 := by omega
    rw [this]
    simp only [bump]
    exact ih b _

/-- In target mode the whole loop is a fixed list of stores, all inside `[0, Size)`, and a
fixed number of increments of `Result`; neither depends on the content of the target. -/
theorem loop_target : ∀ (fuel : Nat) (F : List Byte) (Size : Nat),
    ∃ (ws : List (Nat × List Byte)) (k : Nat),
      (∀ w ∈ ws, w.2 = [] ∨ w.1 + w.2.length ≤ Size) ∧
      ∀ d R, ApplyIPS.loop fuel F (some d) Size R = (bump k R, some (replay ws d)) := by
  intro fuel
  induction fuel with
  | zero => intro F Size; exact ⟨[], 0, by simp, fun d R => rfl⟩
  | succ n ih =>
    intro F Size
    obtain ⟨J, bs, hb, hstep⟩ := step_target F Size
    rcases hstep with hdone | ⟨F', k, _, hmore⟩
    · refine ⟨[(J, bs)], 0, ?_, fun d R => ?_⟩
      · intro w hw
        simp only [List.mem_singleton] at hw
        subst hw; exact hb
      · rw [ApplyIPS_loop_succ, hdone]; rfl
    · obtain ⟨ws, k', hws, hloop⟩ := ih F' Size
      refine ⟨(J, bs) :: ws, k + k', ?_, fun d R => ?_⟩
      · intro w hw
        rcases List.mem_cons.mp hw with h | h
        · subst h; exact hb
        · exact hws w h
      · rw [ApplyIPS_loop_succ, hmore]
        simp only [hloop, bump_add]
        rfl

@[simp] theorem length_replay : ∀ (ws : List (Nat × List Byte)) (d : List Byte),
    (replay ws d).length = d.length := by
  intro ws
  induction ws with
  | nil => intro d; rfl
  | cons w ws ih => intro d; simp [replay, ih]

theorem getElem?_replay_of_ge (Size : Nat) : ∀ (ws : List (Nat × List Byte)) (d : List Byte),
    (∀ w ∈ ws, w.2 = [] ∨ w.1 + w.2.length ≤ Size) → ∀ i, Size ≤ i →
      (replay ws d)[i]? = d[i]? := by
  intro ws
  induction ws with
  | nil => intro d _ i _; rfl
  | cons w ws ih =>
    intro d h i hi
    simp only [replay]
    rw [ih _ (fun w' hw' => h w' (List.mem_cons_of_mem _ hw')) i hi, getElem?_memcpy]
    rcases h w (List.mem_cons_self _ _) with h0 | h0
    · rw [h0]; simp only [List.length_nil, Nat.add_zero]; rw [if_neg (by omega)]
    · rw [if_neg (by omega)]

theorem replay_two : ∀ (ws : List (Nat × List Byte)) (d₁ d₂ : List Byte),
    d₁.length = d₂.length → ∀ i : Nat,
      ((replay ws d₁)[i]? = d₁[i]? ∧ (replay ws d₂)[i]? = d₂[i]?) ∨
        (replay ws d₁)[i]? = (replay ws d₂)[i]? := by
  intro ws
  induction ws with
  | nil => intro d₁ d₂ _ i; exact Or.inl ⟨rfl, rfl⟩
  | cons w ws ih =>
    intro d₁ d₂ hlen i
    simp only [replay]
    rcases ih (memcpy d₁ w.1 w.2) (memcpy d₂ w.1 w.2) (by simp [hlen]) i with ⟨h1, h2⟩ | h
    · rw [h1, h2, getElem?_memcpy, getElem?_memcpy, hlen]
      by_cases hc : w.1 ≤ i ∧ i < w.1 + w.2.length ∧ i < d₂.length
      · rw [if_pos hc, if_pos hc]; exact Or.inr rfl
      · rw [if_neg hc, if_neg hc]; exact Or.inl ⟨rfl, rfl⟩
    · exact Or.inr h

theorem replay_idem (ws : List (Nat × List Byte)) (d : List Byte) :
    replay ws (replay ws d) = replay ws d := by
  apply List.ext_getElem?
  intro i
  rcases replay_two ws d (replay ws d) (by simp) i with ⟨h1, h2⟩ | h
  · rw [h2]
  · exact h.symm

theorem ApplyIPS_cases (P : List Byte) :
    (∃ F, P = PATCH ++ F) ∨ (∀ D S, ApplyIPS P D S = (0, D)) := by
  rcases P with _ | ⟨p0, _ | ⟨p1, _ | ⟨p2, _ | ⟨p3, _ | ⟨p4, F1⟩⟩⟩⟩⟩
  · exact Or.inr fun D S => rfl
  · exact Or.inr fun D S => rfl
  · exact Or.inr fun D S => rfl
  · exact Or.inr fun D S => rfl
  · exact Or.inr fun D S => rfl
  · by_cases h : [p0, p1, p2, p3, p4] = PATCH
    · refine Or.inl ⟨F1, ?_⟩
      rw [← h]; rfl
    · refine Or.inr fun D S => ?_
      show (if [p0, p1, p2, p3, p4] = PATCH then _ else _) = _
      rw [if_neg h]

/-- The whole of `ApplyIPS` in target mode as stores and increments. -/
theorem ApplyIPS_target (P : List Byte) (Size : Nat) :
    ∃ (ws : List (Nat × List Byte)) (k : Nat),
      (∀ w ∈ ws, w.2 = [] ∨ w.1 + w.2.length ≤ Size) ∧
      ∀ d, ApplyIPS P (some d) Size = (bump k 0, some (replay ws d)) := by
  rcases ApplyIPS_cases P with ⟨F, rfl⟩ | h
  · obtain ⟨ws, k, hws, hloop⟩ := loop_target F.length F Size
    exact ⟨ws, k, hws, fun d => by rw [ApplyIPS_patch, hloop]⟩
  · exact ⟨[], 0, by simp, fun d => by rw [h]; rfl⟩

theorem bump_eq : ∀ (k r : Nat), r < 2 ^ 32 → bump k r = (r + k) % 2 ^ 32 := by
  intro k
  induction k with
  | zero => intro r h; simp only [bump, Nat.add_zero]; exact (Nat.mod_eq_of_lt h).symm
  | succ n ih =>
    intro r h
    simp only [bump]
    rw [ih (u32 (r + 1)) (Nat.mod_lt _ (by norm_num))]
    simp only [u32]
    omega

theorem bump_zero_eq (k : Nat) : bump k 0 = k % 2 ^ 32 := by
  rw [bump_eq k 0 (by norm_num), Nat.zero_add]

theorem hdr_not_sentinel {o : Nat} (h : o < 2 ^ 24) (hs : ¬(o = 0xFFFFFF ∨ o = 0x454F46)) :
    ¬(hdrOffset (lowByte (o >>> 16)) (lowByte (o >>> 8)) (lowByte o) = 0xFFFFFF ∨
      [lowByte (o >>> 16), lowByte (o >>> 8), lowByte o] = EOFMARK) := by
  rw [hdrOffset_lowByte h]
  rintro (h1 | h2)
  · exact hs (Or.inl h1)
  · apply hs; right
    have h3 : hdrOffset (lowByte (o >>> 16)) (lowByte (o >>> 8)) (lowByte o)
        = hdrOffset 0x45 0x4F 0x46 := by
      simp only [EOFMARK, List.cons.injEq, and_true] at h2
      rw [h2.1, h2.2.1, h2.2.2]
    rw [hdrOffset_lowByte h] at h3
    rw [h3]; rfl

theorem hdr_sentinel {o : Nat} (h : o < 2 ^ 24) (hs : o = 0xFFFFFF ∨ o = 0x454F46) :
    hdrOffset (lowByte (o >>> 16)) (lowByte (o >>> 8)) (lowByte o) = 0xFFFFFF ∨
      [lowByte (o >>> 16), lowByte (o >>> 8), lowByte o] = EOFMARK := by
  rcases hs with h1 | h2
  · left; rw [hdrOffset_lowByte h]; exact h1
  · right; subst h2; decide

theorem Record.wf_offset {r : Record} (h : r.wf = true) : r.offset < 2 ^ 24 := by
  cases r <;> simp only [Record.wf, Bool.and_eq_true, decide_eq_true_eq] at h <;>
    simp only [Record.offset] <;> omega

theorem Record.wf_len {r : Record} (h : r.wf = true) : r.len < 2 ^ 16 := by
  cases r <;> simp only [Record.wf, Bool.and_eq_true, decide_eq_true_eq] at h <;>
    simp only [Record.len] <;> omega

theorem Record.length_bytes (r : Record) : r.bytes.length = r.len := by
  cases r <;> simp [Record.bytes, Record.len]

theorem Record.sentinel_iff (r : Record) :
    r.sentinel = true ↔ (r.offset = 0xFFFFFF ∨ r.offset = 0x454F46) := by
  simp [Record.sentinel]

theorem Record.overwrites_iff (r : Record) (Size : Nat) :
    r.overwrites Size = true ↔ (1 ≤ r.len ∧ r.offset + r.len ≤ Size) := by
  simp [Record.overwrites]

/-- The header of a record whose offset is an end-of-stream value leaves the loop. -/
theorem step_sentinel (r : Record) (hw : r.wf = true) (hs : r.sentinel = true)
    (rest : List Byte) (D : Option (List Byte)) (S R : Nat) :
    ApplyIPS.step (r.encode ++ rest) D S R = .done R D := by
  have ho := Record.wf_offset hw
  rw [Record.sentinel_iff] at hs
  cases r with
  | copy o p =>
    simp only [Record.offset] at ho hs
    simp only [Record.encode, offsetField, lengthField, List.cons_append, List.nil_append,
      List.append_assoc]
    rw [step_cons, if_pos (hdr_sentinel ho hs)]
  | fill o n v =>
    simp only [Record.offset] at ho hs
    simp only [Record.encode, offsetField, lengthField, List.cons_append, List.nil_append,
      List.append_assoc]
    rw [step_cons, if_pos (hdr_sentinel ho hs)]

/-- One pass over a complete record in measuring mode. -/
theorem step_record_measure (r : Record) (hw : r.wf = true) (hs : r.sentinel = false)
    (rest : List Byte) (S R : Nat) :
    ApplyIPS.step (r.encode ++ rest) none S R = .more rest none (max R (r.offset + r.len)) := by
  have ho := Record.wf_offset hw
  have hl := Record.wf_len hw
  have hs' : ¬(r.offset = 0xFFFFFF ∨ r.offset = 0x454F46) := by
    rw [← Record.sentinel_iff, hs]; simp
  have hmax : ∀ a b : Nat, (if a < b then b else a) = max a b := by
    intro a b; split_ifs <;> omega
  cases r with
  | copy o p =>
    simp only [Record.wf, Bool.and_eq_true, decide_eq_true_eq] at hw
    simp only [Record.offset, Record.len] at ho hl hs' ⊢
    simp only [Record.encode, offsetField, lengthField, List.cons_append, List.nil_append,
      List.append_assoc]
    rw [step_cons, if_neg (hdr_not_sentinel ho hs'), hdrLength_lowByte hl, hdrOffset_lowByte ho,
      if_pos (by omega)]
    simp only [List.drop_left, hmax]
  | fill o n v =>
    simp only [Record.offset, Record.len] at ho hl hs' ⊢
    simp only [Record.encode, offsetField, lengthField, List.cons_append, List.nil_append,
      List.append_assoc]
    rw [step_cons, if_neg (hdr_not_sentinel ho hs'), hdrOffset_lowByte ho,
      if_neg (by simp [hdrLength])]
    simp only [fillLength_lowByte hl, hmax]

/-- One pass over a complete record in target mode. -/
theorem step_record_target (r : Record) (hw : r.wf = true) (hs : r.sentinel = false)
    (rest : List Byte) (d : List Byte) (S R : Nat) (hd : S ≤ d.length) :
    ApplyIPS.step (r.encode ++ rest) (some d) S R =
      .more rest (some (r.apply S d)) (if r.overwrites S then u32 (R + 1) else R) := by
  have ho := Record.wf_offset hw
  have hl := Record.wf_len hw
  have hs' : ¬(r.offset = 0xFFFFFF ∨ r.offset = 0x454F46) := by
    rw [← Record.sentinel_iff, hs]; simp
  cases r with
  | copy o p =>
    simp only [Record.wf, Bool.and_eq_true, decide_eq_true_eq] at hw
    simp only [Record.offset, Record.len] at ho hl hs'
    simp only [Record.encode, offsetField, lengthField, List.cons_append, List.nil_append,
      List.append_assoc]
    rw [step_cons, if_neg (hdr_not_sentinel ho hs'), hdrLength_lowByte hl, hdrOffset_lowByte ho,
      if_pos (by omega)]
    simp only [List.drop_left, List.take_left, if_true]
    by_cases hb : o + p.length > S
    · have hov : (Record.copy o p).overwrites S = false := by
        rw [← Bool.not_eq_true, Record.overwrites_iff]
        simp only [Record.offset, Record.len]; omega
      simp only [if_pos hb, Record.apply, hov, Bool.false_eq_true, if_false]
    · have hov : (Record.copy o p).overwrites S = true := by
        rw [Record.overwrites_iff]
        simp only [Record.offset, Record.len]; omega
      simp only [if_neg hb, Record.apply, hov, if_true, Record.offset, Record.len, Record.bytes]
      rw [memcpy_eq_splice p d o (by omega)]
  | fill o n v =>
    simp only [Record.offset, Record.len] at ho hl hs'
    simp only [Record.encode, offsetField, lengthField, List.cons_append, List.nil_append,
      List.append_assoc]
    rw [step_cons, if_neg (hdr_not_sentinel ho hs'), hdrOffset_lowByte ho,
      if_neg (by simp [hdrLength])]
    simp only [fillLength_lowByte hl]
    by_cases hb : n = 0 ∨ o + n > S
    · have hov : (Record.fill o n v).overwrites S = false := by
        rw [← Bool.not_eq_true, Record.overwrites_iff]
        simp only [Record.offset, Record.len]; omega
      simp only [if_pos hb, Record.apply, hov, Bool.false_eq_true, if_false]
    · have hov : (Record.fill o n v).overwrites S = true := by
        rw [Record.overwrites_iff]
        simp only [Record.offset, Record.len]; omega
      simp only [if_neg hb, Record.apply, hov, if_true, Record.offset, Record.len, Record.bytes,
        memset]
      rw [memcpy_eq_splice _ d o (by simp; omega)]
      simp

theorem encodeAll_append (xs ys : List Record) :
    encodeAll (xs ++ ys) = encodeAll xs ++ encodeAll ys := by
  induction xs with
  | nil => rfl
  | cons r rs ih => simp [encodeAll, ih]

theorem Record.length_apply (r : Record) {Size : Nat} {d : List Byte} (hd : Size ≤ d.length) :
    (r.apply Size d).length = d.length := by
  unfold Record.apply
  split_ifs with hov
  · rw [Record.overwrites_iff] at hov
    simp only [List.length_append, List.length_take, List.length_drop, Record.length_bytes]
    omega
  · rfl

theorem Record.apply_of_not_overwrites (r : Record) {Size : Nat} (d : List Byte)
    (h : r.overwrites Size = false) : r.apply Size d = d := by
  simp [Record.apply, h]

/-- The loop over complete records, none of which is an end-of-stream header, in target
mode: the records are processed left to right and the loop goes on after the last one. -/
theorem loop_records_target (Size : Nat) : ∀ (rs : List Record) (rest d : List Byte) (R : Nat),
    (∀ r ∈ rs, r.wf = true ∧ r.sentinel = false) → Size ≤ d.length →
    ApplyIPS.loop (encodeAll rs ++ rest).length (encodeAll rs ++ rest) (some d) Size R =
      ApplyIPS.loop rest.length rest (some (applyAll Size rs d)) Size
        (bump (countApplied Size rs) R) := by
  intro rs
  induction rs with
  | nil => intro rest d R _ _; rfl
  | cons r rs ih =>
    intro rest d R h hd
    obtain ⟨hw, hs⟩ := h r (List.mem_cons_self _ _)
    have hstep := step_record_target r hw hs (encodeAll rs ++ rest) d Size R hd
    simp only [encodeAll, List.append_assoc]
    rw [loop_of_more hstep]
    have hd' : Size ≤ (r.apply Size d).length := by rw [Record.length_apply r hd]; exact hd
    rw [ih rest _ _ (fun r' hr' => h r' (List.mem_cons_of_mem _ hr')) hd']
    simp only [applyAll, countApplied, List.filter_cons]
    by_cases hov : r.overwrites Size = true
    · simp only [hov, if_true, List.length_cons]
      rw [← bump_one, bump_add, Nat.add_comm]
    · simp only [hov, Bool.false_eq_true, if_false]

/-- The loop over complete records, none of which is an end-of-stream header, in measuring
mode. -/
theorem loop_records_measure (Size : Nat) : ∀ (rs : List Record) (rest : List Byte) (R : Nat),
    (∀ r ∈ rs, r.wf = true ∧ r.sentinel = false) →
    ApplyIPS.loop (encodeAll rs ++ rest).length (encodeAll rs ++ rest) none Size R =
      ApplyIPS.loop rest.length rest none Size (max R (maxExtent rs)) := by
  intro rs
  induction rs with
  | nil => intro rest R _; simp [encodeAll, maxExtent]
  | cons r rs ih =>
    intro rest R h
    obtain ⟨hw, hs⟩ := h r (List.mem_cons_self _ _)
    have hstep := step_record_measure r hw hs (encodeAll rs ++ rest) Size R
    simp only [encodeAll, List.append_assoc]
    rw [loop_of_more hstep, ih rest _ (fun r' hr' => h r' (List.mem_cons_of_mem _ hr'))]
    simp only [maxExtent, max_assoc]

theorem loop_trailer (D : Option (List Byte)) (S R : Nat) :
    ApplyIPS.loop EOFMARK.length EOFMARK D S R = (R, D) :=
  loop_of_done (step_short EOFMARK (by decide) D S R)

theorem maxExtent_le_iff (S : Nat) : ∀ rs : List Record,
    maxExtent rs ≤ S ↔ ∀ r ∈ rs, r.offset + r.len ≤ S := by
  intro rs
  induction rs with
  | nil => simp [maxExtent]
  | cons r rs ih => simp [maxExtent, ih]

/-- `ApplyIPS` on a stream made of the header, complete records without end-of-stream
offsets, and the trailer. -/
theorem ApplyIPS_records_target (rs : List Record) (B : List Byte) (Size : Nat)
    (hrs : ∀ r ∈ rs, r.wf = true ∧ r.sentinel = false) (hB : Size ≤ B.length) :
    ApplyIPS (PATCH ++ encodeAll rs ++ EOFMARK) (some B) Size =
      (countApplied Size rs % 2 ^ 32, some (applyAll Size rs B)) := by
  rw [List.append_assoc, ApplyIPS_patch, loop_records_target Size rs EOFMARK B 0 hrs hB,
    loop_trailer, bump_zero_eq]

theorem MeasureIPS_records (rs : List Record)
    (hrs : ∀ r ∈ rs, r.wf = true ∧ r.sentinel = false) :
    MeasureIPS (PATCH ++ encodeAll rs ++ EOFMARK) = maxExtent rs := by
  unfold MeasureIPS
  rw [List.append_assoc, ApplyIPS_patch, loop_records_measure 0 rs EOFMARK 0 hrs, loop_trailer]
  simp

/-- A record that does not overwrite can be taken out of the stream. -/
theorem loop_skip (Size : Nat) (r₀ : Record) (hw₀ : r₀.wf = true) (hs₀ : r₀.sentinel = false)
    (hov : r₀.overwrites Size = false) (rest : List Byte) :
    ∀ (pre : List Record) (d : List Byte) (R : Nat), (∀ r ∈ pre, r.wf = true) → Size ≤ d.length →
      ApplyIPS.loop (encodeAll pre ++ r₀.encode ++ rest).length
          (encodeAll pre ++ r₀.encode ++ rest) (some d) Size R =
        ApplyIPS.loop (encodeAll pre ++ rest).length (encodeAll pre ++ rest) (some d) Size R := by
  intro pre
  induction pre with
  | nil =>
    intro d R _ hd
    have hstep := step_record_target r₀ hw₀ hs₀ rest d Size R hd
    rw [Record.apply_of_not_overwrites r₀ d hov, hov] at hstep
    simp only [encodeAll, List.nil_append]
    rw [loop_of_more hstep]
    rfl
  | cons p ps ih =>
    intro d R hpre hd
    have hwp := hpre p (List.mem_cons_self _ _)
    simp only [encodeAll, List.append_assoc]
    by_cases hsp : p.sentinel = true
    · rw [loop_of_done (step_sentinel p hwp hsp _ _ _ _),
        loop_of_done (step_sentinel p hwp hsp _ _ _ _)]
    · have hsp' : p.sentinel = false := by simpa using hsp
      rw [loop_of_more (step_record_target p hwp hsp' _ d Size R hd),
        loop_of_more (step_record_target p hwp hsp' _ d Size R hd)]
      have := ih (p.apply Size d) (if p.overwrites Size then u32 (R + 1) else R)
        (fun r hr => hpre r (List.mem_cons_of_mem _ hr))
        (by rw [Record.length_apply p hd]; exact hd)
      simpa only [List.append_assoc] using this

/-- The loop on a stream that ends inside a record, after the 5-byte record header. -/
theorem loop_truncated (r : Record) (hw : r.wf = true) (hs : r.sentinel = false) (m : Nat)
    (hm : 5 ≤ m ∧ m < r.encode.length) (d : List Byte) (Size R : Nat) (hd : Size ≤ d.length) :
    ApplyIPS.loop (r.encode.take m).length (r.encode.take m) (some d) Size R =
      (R, some (if r.isCopy = true ∧ r.offset + r.len ≤ Size then
          d.take r.offset ++ r.bytes.take (m - 5) ++ d.drop (r.offset + (m - 5)) else d)) := by
  have ho := Record.wf_offset hw
  have hl := Record.wf_len hw
  have hs' : ¬(r.offset = 0xFFFFFF ∨ r.offset = 0x454F46) := by
    rw [← Record.sentinel_iff, hs]; simp
  obtain ⟨k, rfl⟩ : ∃ k, m = 5 + k := ⟨m - 5, by omega⟩
  cases r with
  | copy o p =>
    simp only [Record.wf, Bool.and_eq_true, decide_eq_true_eq] at hw
    simp only [Record.offset, Record.len] at ho hl hs'
    simp only [Record.encode, offsetField, lengthField, List.cons_append, List.nil_append,
      List.append_assoc, List.length_cons, Record.isCopy, Record.offset, Record.len,
      Record.bytes, true_and] at hm ⊢
    have hk : k < p.length := by omega
    have htake : ∀ (a b c e f : Byte) (l : List Byte),
        (a :: b :: c :: e :: f :: l).take (5 + k) = a :: b :: c :: e :: f :: l.take k := by
      intro a b c e f l
      rw [Nat.add_comm]; rfl
    rw [htake]
    simp only [Nat.add_sub_cancel_left]
    by_cases hb : o + p.length > Size
    · have hstep : ApplyIPS.step (lowByte (o >>> 16) :: lowByte (o >>> 8) :: lowByte o ::
          lowByte (p.length >>> 8) :: lowByte p.length :: List.take k p) (some d) Size R
          = .more [] (some d) R := by
        rw [step_cons, if_neg (hdr_not_sentinel ho hs'), hdrLength_lowByte hl,
          hdrOffset_lowByte ho, if_pos (by omega)]
        simp only [if_pos hb]
        rw [List.drop_eq_nil_of_le (by simp only [List.length_take]; omega)]
      rw [loop_of_more hstep, if_neg (by omega)]
      exact loop_of_done (step_short [] (by simp) _ _ _)
    · have hstep : ApplyIPS.step (lowByte (o >>> 16) :: lowByte (o >>> 8) :: lowByte o ::
          lowByte (p.length >>> 8) :: lowByte p.length :: List.take k p) (some d) Size R
          = .done R (some (memcpy d o (p.take k))) := by
        rw [step_cons, if_neg (hdr_not_sentinel ho hs'), hdrLength_lowByte hl,
          hdrOffset_lowByte ho, if_pos (by omega)]
        have h1 : (List.take p.length (List.take k p)) = List.take k p := by
          rw [List.take_take]; congr 1; omega
        have h2 : ¬ (List.take k p).length = p.length := by
          simp only [List.length_take]; omega
        simp only [if_neg hb, h1, if_neg h2]
      rw [loop_of_done hstep, if_pos (by omega),
        memcpy_eq_splice _ d o (by simp only [List.length_take]; omega)]
      have h3 : (List.take k p).length = k := by simp only [List.length_take]; omega
      rw [h3, List.append_assoc]
  | fill o n v =>
    simp only [Record.offset, Record.len] at ho hl hs'
    simp only [Record.encode, offsetField, lengthField, List.cons_append, List.nil_append,
      List.append_assoc, List.length_cons, List.length_nil, Record.isCopy, Bool.false_eq_true,
      false_and, if_false] at hm ⊢
    have hk : k = 0 ∨ k = 1 ∨ k = 2 := by omega
    have hstep : ∀ l : List Byte, l.length < 3 →
        ApplyIPS.step (lowByte (o >>> 16) :: lowByte (o >>> 8) :: lowByte o :: 0 :: 0 :: l)
          (some d) Size R = .done R (some d) := by
      intro l hl3
      rw [step_cons, if_neg (hdr_not_sentinel ho hs'), if_neg (by simp [hdrLength])]
      rcases l with _ | ⟨c0, _ | ⟨c1, _ | ⟨c2, F2⟩⟩⟩ <;>
        first
          | rfl
          | (simp only [List.length_cons] at hl3; omega)
    rcases hk with rfl | rfl | rfl
    · exact loop_of_done (hstep [] (by simp))
    · exact loop_of_done (hstep [_] (by simp))
    · exact loop_of_done (hstep [_, _] (by simp))

/-! ## The encoder -/

theorem grow_spec (required : Nat) : ∀ (fuel cap : Nat), (∃ j, cap = 2 ^ j) →
    required ≤ cap * 2 ^ fuel →
    (∃ j, ensure_length.grow fuel cap required = 2 ^ j) ∧
      required ≤ ensure_length.grow fuel cap required ∧
      (ensure_length.grow fuel cap required = cap ∨
        ensure_length.grow fuel cap required < 2 * required) := by
  intro fuel
  induction fuel with
  | zero =>
    intro cap hp h
    have e : ensure_length.grow 0 cap required = cap := rfl
    rw [e]
    exact ⟨hp, by omega, Or.inl rfl⟩
  | succ n ih =>
    intro cap hp h
    simp only [ensure_length.grow]
    split_ifs with hlt
    · have h2 : cap <<< 1 = 2 * cap := by rw [Nat.shiftLeft_eq]; omega
      rw [h2]
      obtain ⟨j, hj⟩ := hp
      have h3 : required ≤ 2 * cap * 2 ^ n := by
        rw [pow_succ] at h
        calc required ≤ cap * (2 ^ n * 2) := h
          _ = 2 * cap * 2 ^ n := by ring
      obtain ⟨hp', hle, hor⟩ := ih (2 * cap) ⟨j + 1, by rw [hj, pow_succ]; ring⟩ h3
      refine ⟨hp', hle, Or.inr ?_⟩
      rcases hor with h4 | h4
      · rw [h4]; omega
      · exact h4
    · exact ⟨hp, by omega, Or.inl rfl⟩

theorem CapOK_ensure_length {cap len required : Nat} (h : CapOK cap len) (hr : len ≤ required) :
    CapOK (ensure_length required cap) required := by
  obtain ⟨hp, hle, hor⟩ := h
  unfold ensure_length
  split_ifs with hc
  · exact ⟨hp, hc, by omega⟩
  · have hcap : 1 ≤ cap := by
      obtain ⟨j, hj⟩ := hp
      rw [hj]; exact Nat.one_le_two_pow
    have hfuel : required ≤ cap * 2 ^ required := by
      have := Nat.lt_two_pow required
      calc required ≤ 1 * 2 ^ required := by omega
        _ ≤ cap * 2 ^ required := Nat.mul_le_mul_right _ hcap
    obtain ⟨hp', hle', hor'⟩ := grow_spec required required cap hp hfuel
    refine ⟨hp', hle', Or.inr ?_⟩
    rcases hor' with h4 | h4
    · rw [h4] at hle'; omega
    · exact h4

theorem CapOK_le_limit {cap len : Nat} (h : CapOK cap len) (hl : len ≤ FILE_LIMIT) :
    cap ≤ FILE_LIMIT := by
  obtain ⟨⟨j, hj⟩, _, hor⟩ := h
  unfold FILE_LIMIT at *
  rcases hor with h1 | h1
  · omega
  · have h2 : cap < 2 ^ 25 := by omega
    rw [hj] at h2 ⊢
    have h3 : j < 25 := (Nat.pow_lt_pow_iff_right (by norm_num)).mp h2
    calc 2 ^ j ≤ 2 ^ 24 := Nat.pow_le_pow_right (by norm_num) (by omega)
      _ = 0x1000000 := by norm_num

theorem CapOK_init : CapOK CreateIPS.init.CurIpsBufSize CreateIPS.init.ips.length :=
  ⟨⟨10, by rfl⟩, by decide, Or.inl rfl⟩

theorem CreateIPS_loop_zero (O M : List Byte) (L pos : Nat) (s : Enc) :
    CreateIPS.loop O M L 0 pos s = some s := rfl

theorem CreateIPS_loop_succ (O M : List Byte) (L n pos : Nat) (s : Enc) :
    CreateIPS.loop O M L (n + 1) pos s =
      if s.CurIpsBufSize > FILE_LIMIT then none
      else CreateIPS.loop O M L n (pos + 1) (CreateIPS.body O M L pos s) := rfl

theorem CreateIPS_loop_step (O M : List Byte) (L n pos : Nat) (s : Enc)
    (h : s.CurIpsBufSize ≤ FILE_LIMIT) :
    CreateIPS.loop O M L (n + 1) pos s =
      CreateIPS.loop O M L n (pos + 1) (CreateIPS.body O M L pos s) := by
  rw [CreateIPS_loop_succ, if_neg (by omega)]

theorem length_write_record (ips : List Byte) (off : Nat) (record : List Byte) :
    (write_record ips off record record.length).length = ips.length + 5 + record.length := by
  simp only [write_record, List.length_append, List.length_cons, List.length_nil,
    List.take_length]

theorem write_record_eq (ips : List Byte) (off : Nat) (record : List Byte) :
    write_record ips off record record.length = ips ++ (Record.copy off record).encode := by
  simp [write_record, Record.encode, offsetField, lengthField]

theorem body_idle (O M : List Byte) (L pos : Nat) (s : Enc) (hb : s.record_begun = false)
    (hp : pos < L) (he : M.getD pos 0 = O.getD pos 0) : CreateIPS.body O M L pos s = s := by
  unfold CreateIPS.body
  rw [if_pos hb, if_neg (by rintro (h | h); omega; exact h he)]

theorem body_start (O M : List Byte) (L pos : Nat) (s : Enc) (hb : s.record_begun = false)
    (hne : M.getD pos 0 ≠ O.getD pos 0) (h1 : pos ≠ EOF_CODE) (h2 : pos ≠ L - 1) :
    CreateIPS.body O M L pos s =
      { s with record_begun := true, record := [M.getD pos 0], curr_offset := pos } := by
  unfold CreateIPS.body
  rw [if_pos hb, if_pos (Or.inr hne)]
  simp only [if_neg h1, List.nil_append, if_neg h2]

theorem body_start_last (O M : List Byte) (L pos : Nat) (s : Enc) (hb : s.record_begun = false)
    (hne : M.getD pos 0 ≠ O.getD pos 0) (h1 : pos ≠ EOF_CODE) (h2 : pos = L - 1) :
    CreateIPS.body O M L pos s =
      { record_begun := false, record := [M.getD pos 0], curr_offset := pos,
        CurIpsBufSize := ensure_length (s.ips.length + 5 + 1) s.CurIpsBufSize,
        ips := write_record s.ips pos [M.getD pos 0] 1 } := by
  unfold CreateIPS.body
  rw [if_pos hb, if_pos (Or.inr hne)]
  simp only [if_neg h1, List.nil_append, if_pos h2]

theorem body_start_eof (O M : List Byte) (L pos : Nat) (s : Enc) (hb : s.record_begun = false)
    (hp : pos < L) (hne : M.getD pos 0 ≠ O.getD pos 0) (h1 : pos = EOF_CODE) :
    CreateIPS.body O M L pos s =
      { s with record_begun := true, record := [M.getD (pos - 1) 0, M.getD pos 0],
               curr_offset := pos - 1 } := by
  unfold CreateIPS.body
  have h3 : pos - 1 ≠ L - 1 := by unfold EOF_CODE at h1; omega
  rw [if_pos hb, if_pos (Or.inr hne)]
  simp only [if_pos h1, List.singleton_append]
  rw [if_neg h3]

theorem body_cap (O M : List Byte) (L pos : Nat) (s : Enc) (hb : s.record_begun = true)
    (hl : s.record.length = RECORD_LIMIT - 1) :
    CreateIPS.body O M L pos s =
      { s with record_begun := false, record := s.record ++ [M.getD pos 0],
               CurIpsBufSize :=
                 ensure_length (s.ips.length + 5 + (s.record ++ [M.getD pos 0]).length) s.CurIpsBufSize,
               ips := write_record s.ips s.curr_offset (s.record ++ [M.getD pos 0])
                 (s.record ++ [M.getD pos 0]).length } := by
  unfold CreateIPS.body
  rw [if_neg (by rw [hb]; simp), if_pos hl]

theorem body_continue (O M : List Byte) (L pos : Nat) (s : Enc) (hb : s.record_begun = true)
    (hl : s.record.length ≠ RECORD_LIMIT - 1)
    (hne : M.getD pos 0 ≠ O.getD pos 0) (h2 : pos ≠ L - 1) :
    CreateIPS.body O M L pos s = { s with record := s.record ++ [M.getD pos 0] } := by
  unfold CreateIPS.body
  rw [if_neg (by rw [hb]; simp), if_neg hl, if_pos ⟨Or.inr hne, h2⟩]

theorem body_close (O M : List Byte) (L pos : Nat) (s : Enc) (hb : s.record_begun = true)
    (hl : s.record.length ≠ RECORD_LIMIT - 1) (hp : pos < L)
    (hc : M.getD pos 0 = O.getD pos 0 ∨ pos = L - 1) :
    CreateIPS.body O M L pos s =
      { s with record_begun := false,
               CurIpsBufSize := ensure_length (s.ips.length + 5 + s.record.length) s.CurIpsBufSize,
               ips := write_record s.ips s.curr_offset s.record s.record.length } := by
  unfold CreateIPS.body
  rw [if_neg (by rw [hb]; simp), if_neg hl, if_neg]
  rintro ⟨h | h, h3⟩
  · omega
  · rcases hc with hc | hc
    · exact h hc
    · exact h3 hc

theorem slice_succ (M : List Byte) (a n : Nat) :
    slice M a (n + 1) = slice M a n ++ [M.getD (a + n) 0] := by
  simp [slice, List.range_succ]

theorem slice_one (M : List Byte) (a : Nat) : slice M a 1 = [M.getD a 0] := by
  have h : List.range 1 = [0] := rfl
  simp only [slice, h, List.map_cons, List.map_nil, Nat.add_zero]

theorem EmittedOK.mono {M : List Byte} {pos pos' : Nat} {r : Record} (h : EmittedOK M pos r)
    (hp : pos ≤ pos') : EmittedOK M pos' r :=
  ⟨h.1, h.2.1, h.2.2.1, by have := h.2.2.2.1; omega, h.2.2.2.2⟩

theorem encodeAll_snoc (rs : List Record) (r : Record) :
    encodeAll (rs ++ [r]) = encodeAll rs ++ r.encode := by
  rw [encodeAll_append]; simp [encodeAll]

/-- Writing the record `record` at offset `off` keeps the shape of the output. -/
theorem EncInv_write {M : List Byte} {pos : Nat} {s : Enc} (off : Nat) (record : List Byte)
    (hs : ∃ recs : List Record, s.ips = PATCH ++ encodeAll recs ∧ ∀ r ∈ recs, EmittedOK M pos r)
    (hr : EmittedOK M (pos + 1) (Record.copy off record)) :
    ∃ recs : List Record, write_record s.ips off record record.length = PATCH ++ encodeAll recs ∧
      ∀ r ∈ recs, EmittedOK M (pos + 1) r := by
  obtain ⟨recs, hips, hrecs⟩ := hs
  refine ⟨recs ++ [Record.copy off record], ?_, ?_⟩
  · rw [write_record_eq, hips, encodeAll_snoc, List.append_assoc]
  · intro r hr'
    rcases List.mem_append.mp hr' with h | h
    · exact (hrecs r h).mono (by omega)
    · rw [List.mem_singleton.mp h]; exact hr

/-- One iteration of the loop of `CreateIPS` keeps the invariant. -/
theorem body_inv (O M : List Byte) (L pos : Nat) (s : Enc) (hp : pos < L)
    (h : EncInv M pos s) : EncInv M (pos + 1) (CreateIPS.body O M L pos s) := by
  obtain ⟨hrecs, hopen⟩ := h
  have hrecs' : ∃ recs : List Record, s.ips = PATCH ++ encodeAll recs ∧
      ∀ r ∈ recs, EmittedOK M (pos + 1) r := by
    obtain ⟨recs, h1, h2⟩ := hrecs
    exact ⟨recs, h1, fun r hr => (h2 r hr).mono (by omega)⟩
  cases hb : s.record_begun with
  | false =>
    by_cases he : M.getD pos 0 = O.getD pos 0
    · rw [body_idle O M L pos s hb hp he]
      exact ⟨hrecs', fun h => by rw [hb] at h; cases h⟩
    · by_cases h1 : pos = EOF_CODE
      · rw [body_start_eof O M L pos s hb hp he h1]
        refine ⟨hrecs', fun _ => ?_⟩
        have h0 : 1 ≤ pos := by unfold EOF_CODE at h1; omega
        refine ⟨by simp only [List.length_cons, List.length_nil]; omega, by simp, by simp, ?_⟩
        simp only [List.length_cons, List.length_nil]
        rw [slice_succ, slice_one]
        have : pos - 1 + 1 = pos := by omega
        simp [this]
      · by_cases h2 : pos = L - 1
        · rw [body_start_last O M L pos s hb he h1 h2]
          refine ⟨?_, fun h => by cases h⟩
          have := EncInv_write (s := s) pos [M.getD pos 0] hrecs
            ⟨rfl, by simp [Record.len], by simp [Record.len], by simp [Record.offset, Record.len],
              by simp [Record.bytes, Record.len, Record.offset, slice_one]⟩
          simpa using this
        · rw [body_start O M L pos s hb he h1 h2]
          refine ⟨hrecs', fun _ => ?_⟩
          exact ⟨by simp, by simp, by simp, by simp [slice_one]⟩
  | true =>
    obtain ⟨ho, hl1, hl2, hsl⟩ := hopen hb
    have hnew : s.record ++ [M.getD pos 0] = slice M s.curr_offset (s.record.length + 1) := by
      rw [slice_succ, ← hsl, ho]
    by_cases hl : s.record.length = RECORD_LIMIT - 1
    · rw [body_cap O M L pos s hb hl]
      refine ⟨?_, fun h => by cases h⟩
      unfold RECORD_LIMIT at hl
      exact EncInv_write (s := s) s.curr_offset (s.record ++ [M.getD pos 0]) hrecs
        ⟨rfl, by simp [Record.len], by simp [Record.len]; omega,
          by simp [Record.offset, Record.len]; omega,
          by simp only [Record.bytes, Record.len, Record.offset, List.length_append,
               List.length_cons, List.length_nil]; exact hnew⟩
    · unfold RECORD_LIMIT at hl
      by_cases hc : M.getD pos 0 = O.getD pos 0 ∨ pos = L - 1
      · rw [body_close O M L pos s hb hl hp hc]
        refine ⟨?_, fun h => by cases h⟩
        exact EncInv_write (s := s) s.curr_offset s.record hrecs
          ⟨rfl, by simpa [Record.len] using hl1, by simp only [Record.len]; omega,
            by simp only [Record.offset, Record.len]; omega,
            by simpa only [Record.bytes, Record.len, Record.offset] using hsl⟩
      · rw [body_continue O M L pos s hb hl (fun h => hc (Or.inl h)) (fun h => hc (Or.inr h))]
        refine ⟨hrecs', fun _ => ?_⟩
        refine ⟨by simp only [List.length_append, List.length_cons, List.length_nil]; omega,
          by simp, by simp only [List.length_append, List.length_cons, List.length_nil]; omega, ?_⟩
        simp only [List.length_append, List.length_cons, List.length_nil]
        exact hnew

theorem loop_inv (O M : List Byte) (L : Nat) : ∀ (n pos : Nat) (s s' : Enc),
    pos + n = L → EncInv M pos s → CreateIPS.loop O M L n pos s = some s' → EncInv M L s' := by
  intro n
  induction n with
  | zero =>
    intro pos s s' hL h hs
    rw [CreateIPS_loop_zero] at hs
    cases hs
    rw [← hL]; exact h
  | succ n ih =>
    intro pos s s' hL h hs
    rw [CreateIPS_loop_succ] at hs
    split_ifs at hs
    exact ih (pos + 1) _ s' (by omega) (body_inv O M L pos s (by omega) h) hs

theorem EncInv_init (M : List Byte) : EncInv M 0 CreateIPS.init :=
  ⟨⟨[], rfl, by simp⟩, fun h => by cases h⟩

/-- A patch returned by `CreateIPS` is the header, complete copy records that lie inside
`[0, in_size)` and carry the modified bytes, and the trailer. -/
theorem CreateIPS_shape (O M : List Byte) (L : Nat) (p : List Byte)
    (h : CreateIPS O M L = some p) :
    ∃ recs : List Record, p = PATCH ++ encodeAll recs ++ EOFMARK ∧
      ∀ r ∈ recs, EmittedOK M L r := by
  unfold CreateIPS at h
  cases hl : CreateIPS.loop O M L L 0 CreateIPS.init with
  | none => rw [hl] at h; cases h
  | some s =>
    rw [hl] at h
    simp only [Option.some.injEq] at h
    obtain ⟨⟨recs, hips, hrecs⟩, _⟩ := loop_inv O M L L 0 _ s (by omega) (EncInv_init M) hl
    exact ⟨recs, by rw [← h, hips], hrecs⟩

/-- Positions where the two buffers agree are passed without any change of state while no
record is open. -/
theorem loop_skip_equal (O M : List Byte) (L : Nat) : ∀ (k n pos : Nat) (s : Enc),
    s.record_begun = false → s.CurIpsBufSize ≤ FILE_LIMIT →
    (∀ i, pos ≤ i → i < pos + k → M.getD i 0 = O.getD i 0) → pos + k ≤ L →
    CreateIPS.loop O M L (k + n) pos s = CreateIPS.loop O M L n (pos + k) s := by
  intro k
  induction k with
  | zero => intro n pos s _ _ _ _; simp
  | succ k ih =>
    intro n pos s hb hc he hL
    have e1 : k + 1 + n = (k + n) + 1 := by omega
    have e2 : pos + (k + 1) = (pos + 1) + k := by omega
    rw [e1, CreateIPS_loop_step O M L _ pos s hc,
      body_idle O M L pos s hb (by omega) (he pos (le_refl _) (by omega)), e2]
    exact ih n (pos + 1) s hb hc (fun i h1 h2 => he i (by omega) (by omega)) (by omega)

/-- While the buffers differ, an open record below the cap grows by one byte per
position, as long as the last position is not reached. -/
theorem loop_continue (O M : List Byte) (L : Nat) : ∀ (k n pos : Nat) (s : Enc),
    s.record_begun = true → s.CurIpsBufSize ≤ FILE_LIMIT →
    s.record.length + k ≤ RECORD_LIMIT - 1 →
    (∀ i, pos ≤ i → i < pos + k → M.getD i 0 ≠ O.getD i 0) → pos + k < L →
    ∃ s', CreateIPS.loop O M L (k + n) pos s = CreateIPS.loop O M L n (pos + k) s' ∧
      s'.record_begun = true ∧ s'.record.length = s.record.length + k ∧ s'.ips = s.ips ∧
      s'.CurIpsBufSize = s.CurIpsBufSize ∧ s'.curr_offset = s.curr_offset := by
  intro k
  induction k with
  | zero => intro n pos s hb _ _ _ _; exact ⟨s, by simp, hb, rfl, rfl, rfl, rfl⟩
  | succ k ih =>
    intro n pos s hb hc hl hne hL
    have e1 : k + 1 + n = (k + n) + 1 := by omega
    have e2 : pos + (k + 1) = (pos + 1) + k := by omega
    rw [e1, CreateIPS_loop_step O M L _ pos s hc,
      body_continue O M L pos s hb (by omega) (hne pos (le_refl _) (by omega)) (by omega), e2]
    obtain ⟨s', h1, h2, h3, h4, h5, h6⟩ := ih n (pos + 1)
      { s with record := s.record ++ [M.getD pos 0] } hb hc
      (by simp only [List.length_append, List.length_cons, List.length_nil]; omega)
      (fun i h1 h2 => hne i (by omega) (by omega)) (by omega)
    refine ⟨s', h1, h2, ?_, h4, h5, h6⟩
    rw [h3]; simp only [List.length_append, List.length_cons, List.length_nil]; omega

/-- Over `0xFFFF` positions where the buffers differ, starting with no open record: one
record of `0xFFFF` bytes is written. -/
theorem loop_full_record (O M : List Byte) (L n pos : Nat) (s : Enc)
    (hb : s.record_begun = false) (hc : s.CurIpsBufSize ≤ FILE_LIMIT)
    (hne : ∀ i, pos ≤ i → i < pos + 0xFFFF → M.getD i 0 ≠ O.getD i 0)
    (h1 : pos ≠ EOF_CODE) (hL : pos + 0xFFFF ≤ L) :
    ∃ s', CreateIPS.loop O M L (0xFFFF + n) pos s = CreateIPS.loop O M L n (pos + 0xFFFF) s' ∧
      s'.record_begun = false ∧ s'.ips.length = s.ips.length + 0x10004 ∧
      s'.CurIpsBufSize = ensure_length (s.ips.length + 0x10004) s.CurIpsBufSize := by
  suffices key : ∀ p', p' = pos + 0xFFFF →
      ∃ s', CreateIPS.loop O M L (0xFFFF + n) pos s = CreateIPS.loop O M L n p' s' ∧
        s'.record_begun = false ∧ s'.ips.length = s.ips.length + 0x10004 ∧
        s'.CurIpsBufSize = ensure_length (s.ips.length + 0x10004) s.CurIpsBufSize from key _ rfl
  intro p' hp'
  have e1 : 0xFFFF + n = (0xFFFD + (n + 1)) + 1 := by omega
  rw [e1, CreateIPS_loop_step O M L _ pos s hc,
    body_start O M L pos s hb (hne pos (le_refl _) (by omega)) h1 (by omega)]
  have hone : (Enc.mk true [M.getD pos 0] s.CurIpsBufSize s.ips pos).record.length = 1 := rfl
  obtain ⟨s₁, g1, g2, g3, g4, g5, _⟩ := loop_continue O M L 0xFFFD (n + 1) (pos + 1)
    { s with record_begun := true, record := [M.getD pos 0], curr_offset := pos } rfl hc
    (by unfold RECORD_LIMIT; rw [hone])
    (fun i h1 h2 => hne i (by omega) (by omega)) (by omega)
  rw [g1]
  have g4' : s₁.ips = s.ips := g4
  have g5' : s₁.CurIpsBufSize = s.CurIpsBufSize := g5
  have hc₁ : s₁.CurIpsBufSize ≤ FILE_LIMIT := by rw [g5']; exact hc
  have hl₁ : s₁.record.length = RECORD_LIMIT - 1 := by
    rw [g3, hone]; unfold RECORD_LIMIT; omega
  rw [CreateIPS_loop_step O M L _ _ s₁ hc₁, body_cap O M L _ s₁ g2 hl₁]
  have e2 : pos + 1 + 0xFFFD + 1 = p' := by omega
  have e3 : s₁.ips.length + 5 + (s₁.record ++ [M.getD (pos + 1 + 0xFFFD) 0]).length
      = s.ips.length + 0x10004 := by
    rw [List.length_append, hl₁, g4', List.length_singleton]
    unfold RECORD_LIMIT
    omega
  rw [e2]
  refine ⟨_, rfl, rfl, ?_, ?_⟩
  · show (write_record s₁.ips s₁.curr_offset (s₁.record ++ [M.getD (pos + 1 + 0xFFFD) 0])
      (s₁.record ++ [M.getD (pos + 1 + 0xFFFD) 0]).length).length = _
    rw [length_write_record, e3]
  · show ensure_length (s₁.ips.length + 5 + (s₁.record ++ [M.getD (pos + 1 + 0xFFFD) 0]).length)
      s₁.CurIpsBufSize = _
    rw [e3, g5']

/-- Buffers that differ everywhere: after `q` full records the output holds
`5 + q * 0x10004` bytes, and as long as that is at most 16 MiB the loop has not returned
`NULL`. -/
theorem loop_all_differ (O M : List Byte) (L : Nat)
    (hne : ∀ i, i < L → M.getD i 0 ≠ O.getD i 0) : ∀ (q n : Nat),
    q * 0xFFFF ≤ L → 5 + (q - 1) * 0x10004 ≤ FILE_LIMIT → q * 0xFFFF ≤ EOF_CODE ∨ q ≤ 256 →
    ∃ s', CreateIPS.loop O M L (q * 0xFFFF + n) 0 CreateIPS.init =
        CreateIPS.loop O M L n (q * 0xFFFF) s' ∧
      s'.record_begun = false ∧ s'.ips.length = 5 + q * 0x10004 ∧
      CapOK s'.CurIpsBufSize s'.ips.length := by
  intro q
  induction q with
  | zero =>
    intro n _ _ _
    exact ⟨CreateIPS.init, by simp, rfl, rfl, CapOK_init⟩
  | succ q ih =>
    intro n hL hlim hq
    have hq' : q ≤ 255 := by unfold EOF_CODE at hq; omega
    obtain ⟨s₀, f1, f2, f3, f4⟩ := ih (0xFFFF + n) (by omega)
      (by unfold FILE_LIMIT at *; omega) (Or.inr (by omega))
    have e1 : (q + 1) * 0xFFFF + n = q * 0xFFFF + (0xFFFF + n) := by ring
    have e2 : (q + 1) * 0xFFFF = q * 0xFFFF + 0xFFFF := by ring
    have hlen : s₀.ips.length ≤ FILE_LIMIT := by
      rw [f3]; simpa using hlim
    obtain ⟨s₁, g1, g2, g3, g4⟩ := loop_full_record O M L n (q * 0xFFFF) s₀ f2
      (CapOK_le_limit f4 hlen) (fun i _ h2 => hne i (by omega))
      (by unfold EOF_CODE; omega) (by omega)
    refine ⟨s₁, ?_, g2, ?_, ?_⟩
    · rw [e1, f1, g1, e2]
    · rw [g3, f3]; ring
    · rw [g4, g3]
      exact CapOK_ensure_length f4 (by omega)

/-- `CreateIPS` on two buffers of `256 * 0xFFFF` bytes that differ everywhere returns a
patch of `5 + 256 * 0x10004 + 3` bytes. -/
theorem CreateIPS_all_differ (O M : List Byte) (L : Nat) (hL : L = 256 * 0xFFFF)
    (hne : ∀ i, i < L → M.getD i 0 ≠ O.getD i 0) :
    ∃ p, CreateIPS O M L = some p ∧ p.length = 5 + 256 * 0x10004 + 3 := by
  obtain ⟨s, h1, _, h3, _⟩ := loop_all_differ O M L hne 256 0 (by omega)
    (by unfold FILE_LIMIT; norm_num) (Or.inr (le_refl _))
  have e : 256 * 0xFFFF + 0 = L := by omega
  rw [e, CreateIPS_loop_zero] at h1
  refine ⟨s.ips ++ EOFMARK, ?_, ?_⟩
  · unfold CreateIPS
    rw [h1]
  · rw [List.length_append, h3]; rfl

/-- `CreateIPS` on two buffers that differ in their last byte only returns one record of
one byte at the last offset. -/
theorem CreateIPS_last_byte (O M : List Byte) (a : Nat)
    (heq : ∀ i, i < a → M.getD i 0 = O.getD i 0) (hne : M.getD a 0 ≠ O.getD a 0)
    (h1 : a ≠ EOF_CODE) :
    CreateIPS O M (a + 1) = some (PATCH ++ (Record.copy a [M.getD a 0]).encode ++ EOFMARK) := by
  unfold CreateIPS
  have hc : CreateIPS.init.CurIpsBufSize ≤ FILE_LIMIT := by decide
  rw [loop_skip_equal O M (a + 1) a 1 0 CreateIPS.init rfl hc
    (fun i _ h2 => heq i (by omega)) (by omega), Nat.zero_add,
    CreateIPS_loop_step O M _ 0 a _ hc, CreateIPS_loop_zero,
    body_start_last O M (a + 1) a _ rfl hne h1 (by omega)]
  simp only
  rw [show (1 : Nat) = [M.getD a 0].length from rfl, write_record_eq]
  rfl

theorem countApplied_replicate (S : Nat) (r : Record) (h : r.overwrites S = true) :
    ∀ n : Nat, countApplied S (List.replicate n r) = n := by
  intro n
  induction n with
  | zero => rfl
  | succ n ih =>
    simp only [countApplied] at ih
    simp only [countApplied, List.replicate_succ, List.filter_cons, h, if_true, List.length_cons, ih]

theorem countApplied_of_maxExtent_le (S : Nat) : ∀ rs : List Record, maxExtent rs ≤ S →
    countApplied S rs = (rs.filter fun r => decide (1 ≤ r.len)).length := by
  intro rs h
  rw [maxExtent_le_iff] at h
  unfold countApplied
  congr 1
  apply List.filter_congr
  intro r hr
  have := h r hr
  simp [Record.overwrites, this]

/-! ## Properties of the decoder -/

/-- C2, as stated, fails on a stream of `2^32` one-byte fill records: every record
overwrites, so `2^32` records overwrite, but the `unsigned int` result has wrapped to 0. -/
theorem C2_counterexample :
    (∀ r ∈ List.replicate (2 ^ 32) (Record.fill 0 1 7), r.wf = true ∧ r.sentinel = false) ∧
    (ApplyIPS (PATCH ++ encodeAll (List.replicate (2 ^ 32) (Record.fill 0 1 7)) ++ EOFMARK)
        (some [0]) 1).1 = 0 ∧
    countApplied 1 (List.replicate (2 ^ 32) (Record.fill 0 1 7)) = 2 ^ 32 := by
  have hrs : ∀ r ∈ List.replicate (2 ^ 32) (Record.fill 0 1 7),
      r.wf = true ∧ r.sentinel = false := by
    intro r hr
    rw [List.eq_of_mem_replicate hr]
    exact ⟨rfl, rfl⟩
  have hc := countApplied_replicate 1 (Record.fill 0 1 7) rfl (2 ^ 32)
  refine ⟨hrs, ?_, hc⟩
  rw [ApplyIPS_records_target _ [0] 1 hrs (Nat.le_refl 1), hc]
  exact Nat.mod_self _

/-- C2 (decoder semantics), amended: on a stream made of `"PATCH"`, complete records none
of whose offset is 0xFFFFFF or 0x454F46, and `"EOF"`, with a target of at least `Size`
bytes, `ApplyIPS` leaves the buffer equal to the result of processing the records left to
right (a record in bounds with at least one byte overwrites its range, every other record
changes nothing), and returns the number of records that overwrote reduced modulo `2^32`. -/
theorem C2_decoder_semantics (rs : List Record) (B : List Byte) (Size : Nat)
    (hrs : ∀ r ∈ rs, r.wf = true ∧ r.sentinel = false) (hB : Size ≤ B.length) :
    ApplyIPS (PATCH ++ encodeAll rs ++ EOFMARK) (some B) Size =
      (countApplied Size rs % 2 ^ 32, some (applyAll Size rs B)) :=
  ApplyIPS_records_target rs B Size hrs hB

/-- C2 at a concrete stream: a copy record, a fill record that overlaps it, and a record
that is out of bounds. -/
theorem C2_decoder_semantics_witness :
    ApplyIPS (PATCH ++ encodeAll [.copy 1 [0xFF, 0xFE], .fill 2 2 7, .copy 3 [1, 2]] ++ EOFMARK)
        (some [0, 0, 0, 0]) 4 = (2, some [0, 0xFF, 7, 7]) := by
  have h := C2_decoder_semantics [.copy 1 [0xFF, 0xFE], .fill 2 2 7, .copy 3 [1, 2]]
    [0, 0, 0, 0] 4 (by decide) (by decide)
  rw [h]
  decide

/-- C3 (bounds safety): whatever the stream, what `ApplyIPS` does to the target is a list
of stores `(offset, bytes)` each of which ends at or before `Size`; the resulting buffer
has the same length and every byte at an index `≥ Size` is unchanged; and the sums `J+N`
compared with `Size` (lines 94 and 126) do not wrap in 32-bit arithmetic, for any header
bytes. -/
theorem C3_bounds_safety (P B : List Byte) (Size : Nat) :
    (∃ ws : List (Nat × List Byte),
        (∀ w ∈ ws, w.2 = [] ∨ w.1 + w.2.length ≤ Size) ∧
        (ApplyIPS P (some B) Size).2 = some (replay ws B) ∧
        (replay ws B).length = B.length ∧
        ∀ i : Nat, Size ≤ i → (replay ws B)[i]? = B[i]?) ∧
    (∀ b0 b1 b2 b3 b4 : Byte, hdrOffset b0 b1 b2 + hdrLength b3 b4 < 2 ^ 32 ∧
        u32 (hdrOffset b0 b1 b2 + hdrLength b3 b4) = hdrOffset b0 b1 b2 + hdrLength b3 b4) ∧
    (∀ b0 b1 b2 c0 c1 : Byte, hdrOffset b0 b1 b2 + fillLength c0 c1 < 2 ^ 32 ∧
        u32 (hdrOffset b0 b1 b2 + fillLength c0 c1) = hdrOffset b0 b1 b2 + fillLength c0 c1) := by
  refine ⟨?_, ?_, ?_⟩
  · obtain ⟨ws, k, hws, h⟩ := ApplyIPS_target P Size
    refine ⟨ws, hws, by rw [h], length_replay ws B, fun i hi => ?_⟩
    exact getElem?_replay_of_ge Size ws B hws i hi
  · intro b0 b1 b2 b3 b4
    have h1 := hdrOffset_lt b0 b1 b2
    have h2 := hdrLength_lt b3 b4
    exact ⟨by omega, u32_hdr b0 b1 b2 b3 b4⟩
  · intro b0 b1 b2 c0 c1
    have h1 := hdrOffset_lt b0 b1 b2
    have h2 := fillLength_lt c0 c1
    exact ⟨by omega, u32_fill b0 b1 b2 c0 c1⟩

/-- Every record is applied exactly when the target holds the largest `offset+len`, as
long as no record has length 0. -/
theorem countApplied_eq_length_iff (S : Nat) (rs : List Record) (h1 : ∀ r ∈ rs, 1 ≤ r.len) :
    countApplied S rs = rs.length ↔ maxExtent rs ≤ S := by
  unfold countApplied
  rw [List.filter_length_eq_length, maxExtent_le_iff]
  constructor
  · intro h r hr
    exact ((Record.overwrites_iff r S).mp (h r hr)).2
  · intro h r hr
    exact (Record.overwrites_iff r S).mpr ⟨h1 r hr, h r hr⟩

theorem countApplied_le_length (S : Nat) (rs : List Record) : countApplied S rs ≤ rs.length :=
  List.length_filter_le _ _

/-- C4, as stated, fails in two ways. When a record has the offset 0xFFFFFF (first stream:
the header, two complete records and the trailer), the maximum of offset+length is
0x1000000 and `MeasureIPS` returns 0, because the loop stops at the first record header.
When a fill record has run length 0 (second stream: the header, a fill record at offset
100 with run 0 and the trailer), `MeasureIPS` returns 100, but `ApplyIPS` skips that record
at every size, at 100 as at 0, so 100 is not the smallest size at which nothing is
skipped. -/
theorem C4_counterexample :
    (MeasureIPS (PATCH ++ encodeAll [.copy 0xFFFFFF [1], .copy 0 [7]] ++ EOFMARK) = 0 ∧
      maxExtent [.copy 0xFFFFFF [1], .copy 0 [7]] = 0x1000000 ∧
      (∀ r ∈ [Record.copy 0xFFFFFF [1], Record.copy 0 [7]], r.wf = true)) ∧
    (MeasureIPS (PATCH ++ encodeAll [.fill 100 0 7] ++ EOFMARK) = 100 ∧
      (∀ r ∈ [Record.fill 100 0 7], r.wf = true ∧ r.sentinel = false) ∧
      ApplyIPS (PATCH ++ encodeAll [.fill 100 0 7] ++ EOFMARK) (some (List.replicate 100 0)) 100
        = (0, some (List.replicate 100 0)) ∧
      ApplyIPS (PATCH ++ encodeAll [.fill 100 0 7] ++ EOFMARK) (some (List.replicate 0 0)) 0
        = (0, some (List.replicate 0 0)) ∧
      countApplied 100 [.fill 100 0 7] = 0 ∧ countApplied 0 [.fill 100 0 7] = 0) := by
  decide

/-- C4 (measurement consistency), amended: on a stream made of `"PATCH"`, complete records
none of whose offset is 0xFFFFFF or 0x454F46, and `"EOF"`, `MeasureIPS` returns the
maximum of offset+length over the records (a fill record counts with its run length, 0
for no record). When moreover no fill record has run length 0, this is the smallest size
`S` at which `ApplyIPS` on the zeroed buffer of `S` bytes skips no record: at every `S`
`ApplyIPS` returns the number of records that are in bounds (modulo `2^32`) and leaves the
buffer as those records make it, and every record is in bounds exactly when
`MeasureIPS ≤ S`; so for fewer than `2^32` records the returned count is the number of
records exactly when `MeasureIPS ≤ S`, and one record at least is skipped at every
smaller `S`. -/
theorem C4_measure (rs : List Record) (hrs : ∀ r ∈ rs, r.wf = true ∧ r.sentinel = false) :
    MeasureIPS (PATCH ++ encodeAll rs ++ EOFMARK) = maxExtent rs ∧
    ((∀ r ∈ rs, 1 ≤ r.len) → ∀ S : Nat,
      ApplyIPS (PATCH ++ encodeAll rs ++ EOFMARK) (some (List.replicate S 0)) S =
        (countApplied S rs % 2 ^ 32, some (applyAll S rs (List.replicate S 0))) ∧
      (countApplied S rs = rs.length ↔ MeasureIPS (PATCH ++ encodeAll rs ++ EOFMARK) ≤ S) ∧
      (rs.length < 2 ^ 32 →
        ((ApplyIPS (PATCH ++ encodeAll rs ++ EOFMARK) (some (List.replicate S 0)) S).1 = rs.length
          ↔ MeasureIPS (PATCH ++ encodeAll rs ++ EOFMARK) ≤ S) ∧
        (S < MeasureIPS (PATCH ++ encodeAll rs ++ EOFMARK) →
          (ApplyIPS (PATCH ++ encodeAll rs ++ EOFMARK) (some (List.replicate S 0)) S).1
            < rs.length))) := by
  have hm := MeasureIPS_records rs hrs
  rw [hm]
  refine ⟨rfl, fun h1 S => ?_⟩
  have ha := ApplyIPS_records_target rs (List.replicate S 0) S hrs (by simp)
  have hiff := countApplied_eq_length_iff S rs h1
  have hle := countApplied_le_length S rs
  refine ⟨ha, hiff, fun hlt => ?_⟩
  rw [ha]
  have hmod : countApplied S rs % 2 ^ 32 = countApplied S rs := Nat.mod_eq_of_lt (by omega)
  simp only [hmod]
  refine ⟨hiff, fun hS => ?_⟩
  have : countApplied S rs ≠ rs.length := fun hc => by
    have := hiff.mp hc
    omega
  omega

/-- C4 at a concrete stream of a copy record and a fill record: `MeasureIPS` returns 7, at
size 7 both records are applied, at size 6 only one. -/
theorem C4_measure_witness :
    MeasureIPS (PATCH ++ encodeAll [.copy 1 [0xFF, 0xFE], .fill 2 5 7] ++ EOFMARK) = 7 ∧
    ApplyIPS (PATCH ++ encodeAll [.copy 1 [0xFF, 0xFE], .fill 2 5 7] ++ EOFMARK)
      (some (List.replicate 7 0)) 7 = (2, some [0, 0xFF, 7, 7, 7, 7, 7]) ∧
    ApplyIPS (PATCH ++ encodeAll [.copy 1 [0xFF, 0xFE], .fill 2 5 7] ++ EOFMARK)
      (some (List.replicate 6 0)) 6 = (1, some [0, 0xFF, 0xFE, 0, 0, 0]) :=
  ⟨(C4_measure [.copy 1 [0xFF, 0xFE], .fill 2 5 7] (by decide)).1.trans (by decide),
   (((C4_measure [.copy 1 [0xFF, 0xFE], .fill 2 5 7] (by decide)).2 (by decide) 7).1).trans
     (by decide),
   (((C4_measure [.copy 1 [0xFF, 0xFE], .fill 2 5 7] (by decide)).2 (by decide) 6).1).trans
     (by decide)⟩

/-- C5 (idempotence): applying a stream to the buffer that results from applying it gives
the same buffer and the same returned value as applying it once. -/
theorem C5_idempotent (P B : List Byte) (Size : Nat) :
    ApplyIPS P (ApplyIPS P (some B) Size).2 Size = ApplyIPS P (some B) Size := by
  obtain ⟨ws, k, _, h⟩ := ApplyIPS_target P Size
  rw [h B]
  simp only
  rw [h (replay ws B), replay_idem]

/-- C6, as stated, fails on a stream that ends inside the payload of an in-bounds copy
record: the payload byte that is present has been stored in the target. -/
theorem C6_counterexample :
    ApplyIPS (PATCH ++ encodeAll [] ++ (Record.copy 0 [9, 9]).encode.take 6) (some [0, 0]) 2
      = (0, some [9, 0]) ∧ applyAll 2 [] [0, 0] = [0, 0] := by
  decide

/-- C6 (truncation), amended: when the stream ends inside a record, after its 5-byte
header, and the complete records before it have no offset 0xFFFFFF or 0x454F46 (nor has
the truncated one), `ApplyIPS` returns the applied count of the complete records (modulo
`2^32`); a truncated fill record and a truncated out-of-bounds copy record leave the target
as it is after the complete records; a truncated in-bounds copy record has the payload
bytes that are present stored at its offset, the rest of the target being as it is after
the complete records. -/
theorem C6_truncation (pre : List Record) (r : Record) (m : Nat) (B : List Byte) (Size : Nat)
    (hpre : ∀ r ∈ pre, r.wf = true ∧ r.sentinel = false)
    (hr : r.wf = true ∧ r.sentinel = false)
    (hm : 5 ≤ m ∧ m < r.encode.length) (hB : Size ≤ B.length) :
    ApplyIPS (PATCH ++ encodeAll pre ++ r.encode.take m) (some B) Size =
      (countApplied Size pre % 2 ^ 32,
       some (if r.isCopy = true ∧ r.offset + r.len ≤ Size then
          (applyAll Size pre B).take r.offset ++ r.bytes.take (m - 5)
            ++ (applyAll Size pre B).drop (r.offset + (m - 5))
        else applyAll Size pre B)) := by
  have hlen : ∀ (rs : List Record) (d : List Byte), Size ≤ d.length →
      Size ≤ (applyAll Size rs d).length := by
    intro rs
    induction rs with
    | nil => intro d hd; exact hd
    | cons x xs ih => intro d hd; exact ih _ (by rw [Record.length_apply x hd]; exact hd)
  rw [List.append_assoc, ApplyIPS_patch, loop_records_target Size pre _ B 0 hpre hB,
    loop_truncated r hr.1 hr.2 m hm _ Size _ (hlen pre B hB), bump_zero_eq]

/-- C6 at a concrete stream: one complete record, then an in-bounds copy record of three
bytes cut after its first payload byte. -/
theorem C6_truncation_witness :
    ApplyIPS (PATCH ++ encodeAll [.copy 1 [5]] ++ (Record.copy 0 [9, 9, 9]).encode.take 6)
      (some [0, 0, 0]) 3 = (1, some [9, 5, 0]) := by
  have h := C6_truncation [.copy 1 [5]] (.copy 0 [9, 9, 9]) 6 [0, 0, 0] 3 (by decide) (by decide)
    (by decide) (by decide)
  rw [h]
  decide

/-- C7 (malformed header): a stream shorter than 5 bytes, or whose first 5 bytes are not
`"PATCH"`, makes `ApplyIPS` return 0 with the target unchanged, and `MeasureIPS` return 0. -/
theorem C7_malformed_header (P : List Byte) (D : Option (List Byte)) (Size : Nat)
    (h : P.length < 5 ∨ P.take 5 ≠ PATCH) :
    ApplyIPS P D Size = (0, D) ∧ MeasureIPS P = 0 := by
  rcases ApplyIPS_cases P with ⟨F, rfl⟩ | h0
  · exfalso
    rcases h with h | h
    · simp only [PATCH, List.cons_append, List.nil_append, List.length_cons] at h
      omega
    · exact h (by simp [PATCH])
  · exact ⟨h0 D Size, by unfold MeasureIPS; rw [h0]⟩

/-- C7 at a concrete stream whose header is `"PATCX"`, followed by a record. -/
theorem C7_malformed_header_witness :
    ApplyIPS [0x50, 0x41, 0x54, 0x43, 0x58, 0, 0, 0, 0, 1, 7] (some [1, 2]) 2 = (0, some [1, 2]) ∧
    MeasureIPS [0x50, 0x41, 0x54, 0x43, 0x58, 0, 0, 0, 0, 1, 7] = 0 :=
  C7_malformed_header [0x50, 0x41, 0x54, 0x43, 0x58, 0, 0, 0, 0, 1, 7] (some [1, 2]) 2
    (Or.inr (by decide))

/-- C8, as stated, fails for a record `R` whose offset is 0xFFFFFF: `R` is a complete copy
record with offset+length > Size, the loop stops at its header, and without `R` the record
that follows is applied. -/
theorem C8_counterexample :
    (Record.copy 0xFFFFFF [1]).offset + (Record.copy 0xFFFFFF [1]).len > 1 ∧
    ApplyIPS (PATCH ++ encodeAll [] ++ (Record.copy 0xFFFFFF [1]).encode
        ++ (encodeAll [.copy 0 [7]] ++ EOFMARK)) (some [0]) 1 = (0, some [0]) ∧
    ApplyIPS (PATCH ++ encodeAll [] ++ (encodeAll [.copy 0 [7]] ++ EOFMARK)) (some [0]) 1
      = (1, some [7]) := by
  decide

/-- C8 (skipped records are neutral), amended: a complete record `R` that follows complete
records, whose offset is neither 0xFFFFFF nor 0x454F46, and that is out of bounds or has
length 0, can be removed from the stream without changing the final buffer or the returned
value, whatever follows it. -/
theorem C8_skipped_neutral (pre : List Record) (R : Record) (rest B : List Byte) (Size : Nat)
    (hpre : ∀ r ∈ pre, r.wf = true) (hR : R.wf = true ∧ R.sentinel = false)
    (hskip : R.offset + R.len > Size ∨ R.len = 0) (hB : Size ≤ B.length) :
    ApplyIPS (PATCH ++ encodeAll pre ++ R.encode ++ rest) (some B) Size =
      ApplyIPS (PATCH ++ encodeAll pre ++ rest) (some B) Size := by
  have hov : R.overwrites Size = false := by
    rw [← Bool.not_eq_true, Record.overwrites_iff]; omega
  rw [List.append_assoc, List.append_assoc, List.append_assoc, ApplyIPS_patch, ApplyIPS_patch,
    ← List.append_assoc]
  exact loop_skip Size R hR.1 hR.2 hov rest pre B 0 hpre hB

/-- C8 at a concrete stream: a fill record of run 0 between two copy records. -/
theorem C8_skipped_neutral_witness :
    ApplyIPS (PATCH ++ encodeAll [.copy 0 [5]] ++ (Record.fill 1 0 7).encode
        ++ (encodeAll [.copy 1 [6]] ++ EOFMARK)) (some [0, 0]) 2 =
      ApplyIPS (PATCH ++ encodeAll [.copy 0 [5]] ++ (encodeAll [.copy 1 [6]] ++ EOFMARK))
        (some [0, 0]) 2 :=
  C8_skipped_neutral [.copy 0 [5]] (.fill 1 0 7) (encodeAll [.copy 1 [6]] ++ EOFMARK) [0, 0] 2
    (by decide) (by decide) (by decide) (by decide)

theorem getD_replicate_lt (n i : Nat) (a d : Byte) (h : i < n) :
    (List.replicate n a).getD i d = a := by
  rw [List.getD_eq_getElem?_getD, List.getElem?_replicate, if_pos h]
  rfl

theorem getD_replicate_self (n i : Nat) (a : Byte) : (List.replicate n a).getD i a = a := by
  rw [List.getD_eq_getElem?_getD, List.getElem?_replicate]
  split_ifs <;> rfl

theorem getD_replicate_append_lt (n i : Nat) (a d : Byte) (l : List Byte) (h : i < n) :
    (List.replicate n a ++ l).getD i d = a := by
  rw [List.getD_eq_getElem?_getD, List.getElem?_append_left (by rw [List.length_replicate]; exact h),
    List.getElem?_replicate, if_pos h]
  rfl

theorem getD_replicate_append_self (n : Nat) (a b d : Byte) :
    (List.replicate n a ++ [b]).getD n d = b := by
  rw [List.getD_eq_getElem?_getD,
    List.getElem?_append_right (by rw [List.length_replicate]), List.length_replicate,
    Nat.sub_self]
  rfl

/-! ## Properties of the encoder -/

/-- C1 (round trip) at the failing input `O = [0,0]`, `M = [1,1]`: `CreateIPS` returns a
patch with the single record (offset 0, payload `[1]`), the last differing byte is not in
it, and `ApplyIPS` of that patch on a copy of `O` gives `[1,0]`, not `M`. -/
theorem C1_failing_input :
    CreateIPS [0, 0] [1, 1] 2 = some (PATCH ++ encodeAll [.copy 0 [1]] ++ EOFMARK) ∧
    ApplyIPS (PATCH ++ encodeAll [.copy 0 [1]] ++ EOFMARK) (some [0, 0]) 2 = (1, some [1, 0]) := by
  decide

/-- C9 (size ceiling) at the failing input of two buffers of `0xFFFF00` bytes that differ
everywhere: `CreateIPS` returns a patch (not `NULL`) of `0x1000408` bytes, more than
`FILE_LIMIT = 0x1000000`. -/
theorem C9_failing_input :
    ∃ p, CreateIPS (List.replicate 0xFFFF00 0) (List.replicate 0xFFFF00 1) 0xFFFF00 = some p ∧
      p.length = 0x1000408 ∧ FILE_LIMIT < p.length := by
  obtain ⟨p, h1, h2⟩ := CreateIPS_all_differ (List.replicate 0xFFFF00 0) (List.replicate 0xFFFF00 1)
    0xFFFF00 (by norm_num) (fun i hi => by
      rw [getD_replicate_lt _ _ _ _ hi, getD_replicate_self]
      decide)
  refine ⟨p, h1, h2, ?_⟩
  rw [h2]
  decide

/-- C10, as stated, fails for buffers of `0x1000000` bytes that differ in their last byte:
the patch returned by `CreateIPS` holds one record, whose offset field is `FF FF FF`. -/
theorem C10_counterexample :
    (List.replicate 0x1000000 (0 : Byte)).length = (List.replicate 0xFFFFFF (0 : Byte) ++ [1]).length ∧
    CreateIPS (List.replicate 0x1000000 0) (List.replicate 0xFFFFFF 0 ++ [1]) 0x1000000 =
      some (PATCH ++ encodeAll [.copy 0xFFFFFF [1]] ++ EOFMARK) ∧
    offsetField (Record.copy 0xFFFFFF [1]).offset = [0xFF, 0xFF, 0xFF] := by
  refine ⟨?_, ?_, by decide⟩
  · rw [List.length_append, List.length_replicate, List.length_replicate]
    rfl
  · have h := CreateIPS_last_byte (List.replicate 0x1000000 0) (List.replicate 0xFFFFFF 0 ++ [1])
      0xFFFFFF
      (fun i hi => by rw [getD_replicate_append_lt _ _ _ _ _ hi, getD_replicate_self])
      (by rw [getD_replicate_append_self, getD_replicate_self]; decide)
      (by decide)
    rw [getD_replicate_append_self] at h
    exact h

/-- C10 (sentinel avoidance), amended: for buffers of at most `0xFFFFFF` bytes, a patch
returned by `CreateIPS` is `"PATCH"`, complete copy records and `"EOF"`, and no record has
the offset `0xFFFFFF`, that is, the offset field `FF FF FF`. -/
theorem C10_no_sentinel_offset (O M : List Byte) (L : Nat) (p : List Byte)
    (hL : L ≤ 0xFFFFFF) (h : CreateIPS O M L = some p) :
    ∃ recs : List Record, p = PATCH ++ encodeAll recs ++ EOFMARK ∧
      ∀ r ∈ recs, r.isCopy = true ∧ r.wf = true ∧ r.offset ≠ 0xFFFFFF ∧
        offsetField r.offset ≠ [0xFF, 0xFF, 0xFF] := by
  obtain ⟨recs, hp, hrecs⟩ := CreateIPS_shape O M L p h
  refine ⟨recs, hp, fun r hr => ?_⟩
  obtain ⟨hc, h1, h2, h3, _⟩ := hrecs r hr
  have ho : r.offset < 2 ^ 24 := by omega
  refine ⟨hc, ?_, by omega, ?_⟩
  · cases r with
    | copy o q =>
      simp only [Record.offset, Record.len] at *
      simp only [Record.wf, Bool.and_eq_true, decide_eq_true_eq]
      omega
    | fill o n v => cases hc
  · intro hf
    have h4 := hdrOffset_lowByte ho
    simp only [offsetField, List.cons.injEq, and_true] at hf
    rw [hf.1, hf.2.1, hf.2.2] at h4
    have h5 : hdrOffset 0xFF 0xFF 0xFF = 0xFFFFFF := by decide
    omega

/-- C10 at the concrete buffers `[0,0,0,0]` and `[0,0xFF,0xFF,0]`. -/
theorem C10_no_sentinel_offset_witness :
    ∃ recs : List Record,
      ([0x50, 0x41, 0x54, 0x43, 0x48, 0, 0, 1, 0, 2, 0xFF, 0xFF, 0x45, 0x4F, 0x46] : List Byte)
        = PATCH ++ encodeAll recs ++ EOFMARK ∧
      ∀ r ∈ recs, r.isCopy = true ∧ r.wf = true ∧ r.offset ≠ 0xFFFFFF ∧
        offsetField r.offset ≠ [0xFF, 0xFF, 0xFF] :=
  C10_no_sentinel_offset [0, 0, 0, 0] [0, 0xFF, 0xFF, 0] 4 _ (by decide) (by decide)

/-! ## Further properties of the decoder -/

/-- A header with an end-of-stream offset ends the loop whatever follows it: the result is
that of the stream cut before the header. -/
theorem loop_terminator (Size : Nat) (o0 o1 o2 : Byte) (tail : List Byte)
    (ht : hdrOffset o0 o1 o2 = 0xFFFFFF ∨ [o0, o1, o2] = EOFMARK) :
    ∀ (pre : List Record) (d : List Byte) (R : Nat), (∀ r ∈ pre, r.wf = true) → Size ≤ d.length →
      ApplyIPS.loop (encodeAll pre ++ o0 :: o1 :: o2 :: tail).length
          (encodeAll pre ++ o0 :: o1 :: o2 :: tail) (some d) Size R =
        ApplyIPS.loop (encodeAll pre).length (encodeAll pre) (some d) Size R := by
  intro pre
  induction pre with
  | nil =>
    intro d R _ _
    simp only [encodeAll, List.nil_append]
    rw [loop_of_done (step_short [] (by simp) (some d) Size R)]
    rcases tail with _ | ⟨t0, _ | ⟨t1, tail⟩⟩
    · exact loop_of_done (step_short _ (by simp) _ _ _)
    · exact loop_of_done (step_short _ (by simp) _ _ _)
    · apply loop_of_done
      rw [step_cons, if_pos ht]
  | cons p ps ih =>
    intro d R hpre hd
    have hwp := hpre p (List.mem_cons_self _ _)
    simp only [encodeAll, List.append_assoc]
    by_cases hsp : p.sentinel = true
    · have h2 := step_sentinel p hwp hsp (encodeAll ps ++ []) (some d) Size R
      rw [List.append_nil] at h2
      rw [loop_of_done (step_sentinel p hwp hsp _ _ _ _), loop_of_done h2]
    · have hsp' : p.sentinel = false := by simpa using hsp
      have h2 := step_record_target p hwp hsp' (encodeAll ps ++ []) d Size R hd
      rw [List.append_nil] at h2
      rw [loop_of_more (step_record_target p hwp hsp' _ d Size R hd), loop_of_more h2]
      exact ih (p.apply Size d) _ (fun r hr => hpre r (List.mem_cons_of_mem _ hr))
        (by rw [Record.length_apply p hd]; exact hd)

theorem ApplyIPS_trailer (D : Option (List Byte)) (Size : Nat) :
    ApplyIPS (PATCH ++ EOFMARK) D Size = (0, D) := by
  rw [ApplyIPS_patch, loop_trailer]

/-- C11 (concrete encoding): for `O = [0,0,0,0]` and `M = [0,0xFF,0xFF,0]`, `CreateIPS`
returns exactly the 15 bytes `"PATCH"`, `00 00 01`, `00 02`, `FF FF`, `"EOF"`, that is one
record with offset 1 and payload `[0xFF,0xFF]`, and `ApplyIPS` of that patch on a 4-byte
zero buffer returns 1 and leaves the buffer equal to `M`. -/
theorem C11_concrete_encoding :
    CreateIPS [0, 0, 0, 0] [0, 0xFF, 0xFF, 0] 4 =
      some [0x50, 0x41, 0x54, 0x43, 0x48, 0, 0, 1, 0, 2, 0xFF, 0xFF, 0x45, 0x4F, 0x46] ∧
    ([0x50, 0x41, 0x54, 0x43, 0x48, 0, 0, 1, 0, 2, 0xFF, 0xFF, 0x45, 0x4F, 0x46] : List Byte)
      = PATCH ++ encodeAll [.copy 1 [0xFF, 0xFF]] ++ EOFMARK ∧
    ApplyIPS [0x50, 0x41, 0x54, 0x43, 0x48, 0, 0, 1, 0, 2, 0xFF, 0xFF, 0x45, 0x4F, 0x46]
      (some [0, 0, 0, 0]) 4 = (1, some [0, 0xFF, 0xFF, 0]) := by
  decide

/-- C12 (terminator): when a record header that follows `"PATCH"` and complete records has
the offset 0xFFFFFF or the offset bytes `"EOF"`, `ApplyIPS` gives the result of the stream
cut before that header, whatever bytes follow the three offset bytes; when the header
comes right after `"PATCH"`, `ApplyIPS` returns 0 and leaves the target unchanged. -/
theorem C12_terminator (pre : List Record) (o0 o1 o2 : Byte) (tail B : List Byte) (Size : Nat)
    (hpre : ∀ r ∈ pre, r.wf = true)
    (ht : hdrOffset o0 o1 o2 = 0xFFFFFF ∨ [o0, o1, o2] = EOFMARK) (hB : Size ≤ B.length) :
    ApplyIPS (PATCH ++ encodeAll pre ++ o0 :: o1 :: o2 :: tail) (some B) Size =
      ApplyIPS (PATCH ++ encodeAll pre) (some B) Size ∧
    ApplyIPS (PATCH ++ o0 :: o1 :: o2 :: tail) (some B) Size = (0, some B) := by
  constructor
  · rw [List.append_assoc, ApplyIPS_patch, ApplyIPS_patch]
    exact loop_terminator Size o0 o1 o2 tail ht pre B 0 hpre hB
  · have h := loop_terminator Size o0 o1 o2 tail ht [] B 0 (by simp) hB
    simp only [encodeAll, List.nil_append] at h
    rw [ApplyIPS_patch, h]
    exact loop_of_done (step_short [] (by simp) _ _ _)

/-- C12 at a concrete stream: a copy record, then a header with offset 0xFFFFFF followed by
another record. -/
theorem C12_terminator_witness :
    ApplyIPS (PATCH ++ encodeAll [.copy 0 [5]] ++ 0xFF :: 0xFF :: 0xFF :: [0, 1, 9, 0, 0, 1, 0, 1, 7])
        (some [0, 0]) 2 = ApplyIPS (PATCH ++ encodeAll [.copy 0 [5]]) (some [0, 0]) 2 ∧
    ApplyIPS (PATCH ++ 0xFF :: 0xFF :: 0xFF :: [0, 1, 9, 0, 0, 1, 0, 1, 7]) (some [0, 0]) 2
      = (0, some [0, 0]) :=
  C12_terminator [.copy 0 [5]] 0xFF 0xFF 0xFF [0, 1, 9, 0, 0, 1, 0, 1, 7] [0, 0] 2
    (by decide) (by decide) (by decide)

theorem loopChecked_zero (O M : List Byte) (L pos : Nat) (s : Enc) :
    CreateIPS.loopChecked O M L 0 pos s = some (some s) := rfl

theorem loopChecked_succ (O M : List Byte) (L n pos : Nat) (s : Enc) :
    CreateIPS.loopChecked O M L (n + 1) pos s =
      if s.CurIpsBufSize > FILE_LIMIT then some none
      else if INT_MAX ≤ pos then none
      else CreateIPS.loopChecked O M L n (pos + 1) (CreateIPS.body O M L pos s) := rfl

/-- As long as `pos` stays within the range of `int`, the loop with the range made
explicit is `CreateIPS.loop`. -/
theorem loopChecked_eq (O M : List Byte) (L : Nat) : ∀ (n pos : Nat) (s : Enc),
    pos + n ≤ INT_MAX →
    CreateIPS.loopChecked O M L n pos s = some (CreateIPS.loop O M L n pos s) := by
  intro n
  induction n with
  | zero => intro pos s _; rfl
  | succ n ih =>
    intro pos s h
    rw [loopChecked_succ, CreateIPS_loop_succ]
    by_cases hc : s.CurIpsBufSize > FILE_LIMIT
    · rw [if_pos hc, if_pos hc]
    · rw [if_neg hc, if_neg hc, if_neg (by omega), ih (pos + 1) _ (by omega)]

/-- For `in_size ≤ INT_MAX`, that is, `in_size < 2^31`, `CreateIPS` is what the C code
computes. -/
theorem checked_eq (O M : List Byte) (L : Nat) (hL : L ≤ INT_MAX) :
    CreateIPS.checked O M L = some (CreateIPS O M L) := by
  unfold CreateIPS.checked CreateIPS
  rw [loopChecked_eq O M L L 0 CreateIPS.init (by omega)]
  cases CreateIPS.loop O M L L 0 CreateIPS.init <;> rfl

/-- Over positions where the buffers agree, with no open record, nothing happens. -/
theorem loopChecked_skip_equal (O M : List Byte) (L : Nat) : ∀ (k n pos : Nat) (s : Enc),
    s.record_begun = false → s.CurIpsBufSize ≤ FILE_LIMIT →
    (∀ i, pos ≤ i → i < pos + k → M.getD i 0 = O.getD i 0) → pos + k ≤ L →
    pos + k ≤ INT_MAX →
    CreateIPS.loopChecked O M L (k + n) pos s = CreateIPS.loopChecked O M L n (pos + k) s := by
  intro k
  induction k with
  | zero => intro n pos s _ _ _ _ _; simp
  | succ k ih =>
    intro n pos s hb hc he hL hI
    have e : k + 1 + n = (k + n) + 1 := by omega
    rw [e, loopChecked_succ, if_neg (by omega), if_neg (by omega),
      body_idle O M L pos s hb (by omega) (he pos (le_refl _) (by omega)),
      ih n (pos + 1) s hb hc (fun i h1 h2 => he i (by omega) (by omega)) (by omega) (by omega)]
    congr 1
    omega

/-- For identical buffers of more than `INT_MAX` bytes the loop counter overflows. -/
theorem checked_equal_overflow (O : List Byte) (L : Nat) (hL : INT_MAX < L) :
    CreateIPS.checked O O L = none := by
  unfold CreateIPS.checked
  have e : L = INT_MAX + ((L - INT_MAX - 1) + 1) := by omega
  have h := loopChecked_skip_equal O O L INT_MAX ((L - INT_MAX - 1) + 1) 0 CreateIPS.init rfl
    (by decide) (fun _ _ _ => rfl) (by omega) (by omega)
  rw [← e, Nat.zero_add, loopChecked_succ, if_neg (by decide), if_pos (le_refl _)] at h
  rw [h]

/-- C18, as stated, fails for a buffer of `2^31` bytes: the loop counter `pos` is an
`int`, and the `pos++` that ends the iteration for `pos = 2^31 - 1` overflows it, so that
C defines no result; the call does not succeed with `"PATCHEOF"`. -/
theorem C18_counterexample :
    (List.replicate (2 ^ 31) (0 : Byte)).length = 2 ^ 31 ∧
    CreateIPS.checked (List.replicate (2 ^ 31) 0) (List.replicate (2 ^ 31) 0) (2 ^ 31) = none ∧
    CreateIPS.checked (List.replicate (2 ^ 31) 0) (List.replicate (2 ^ 31) 0) (2 ^ 31)
      ≠ some (some (PATCH ++ EOFMARK)) := by
  have h := checked_equal_overflow (List.replicate (2 ^ 31) 0) (2 ^ 31) (by decide)
  refine ⟨List.length_replicate _ _, h, ?_⟩
  rw [h]
  exact fun hc => by cases hc

/-- C18 (identity patch), amended: for every buffer `O` and every length `L < 2^31`,
`CreateIPS(O, O, L)` succeeds (the loop counter does not overflow, and the result is not
`NULL`) and returns the 8 bytes `"PATCHEOF"`, and `ApplyIPS` of that patch returns 0 and
leaves any target unchanged. -/
theorem C18_identity_patch (O : List Byte) (L : Nat) (D : Option (List Byte)) (Size : Nat)
    (hL : L < 2 ^ 31) :
    CreateIPS.checked O O L = some (some (PATCH ++ EOFMARK)) ∧
    CreateIPS O O L = some (PATCH ++ EOFMARK) ∧ (PATCH ++ EOFMARK).length = 8 ∧
    ApplyIPS (PATCH ++ EOFMARK) D Size = (0, D) := by
  have hc : CreateIPS O O L = some (PATCH ++ EOFMARK) := by
    unfold CreateIPS
    have h := loop_skip_equal O O L L 0 0 CreateIPS.init rfl (by decide) (fun _ _ _ => rfl)
      (by omega)
    rw [Nat.add_zero, Nat.zero_add, CreateIPS_loop_zero] at h
    rw [h]
    rfl
  refine ⟨?_, hc, rfl, ApplyIPS_trailer D Size⟩
  rw [checked_eq O O L (by unfold INT_MAX; omega), hc]

/-- C18 at the buffer `[1, 2, 3]` and the target `[7, 7]`. -/
theorem C18_identity_patch_witness :
    CreateIPS.checked [1, 2, 3] [1, 2, 3] 3 = some (some (PATCH ++ EOFMARK)) ∧
    CreateIPS [1, 2, 3] [1, 2, 3] 3 = some (PATCH ++ EOFMARK) ∧ (PATCH ++ EOFMARK).length = 8 ∧
    ApplyIPS (PATCH ++ EOFMARK) (some [7, 7]) 2 = (0, some [7, 7]) :=
  C18_identity_patch [1, 2, 3] 3 (some [7, 7]) 2 (by decide)

/-! ## `GetIpsFileName` -/

theorem getD_at_dot (pre ext : List Char) :
    (pre ++ '.' :: ext).getD pre.length (Char.ofNat 0) = '.' := by
  rw [List.getD_eq_getElem?_getD, List.getElem?_append_right (Nat.le_refl _), Nat.sub_self,
    List.getElem?_cons_zero, Option.getD_some]

theorem scan_le (name : List Char) : ∀ cur, GetIpsFileName.scan name cur ≤ cur := by
  intro cur
  induction cur with
  | zero => exact Nat.le_refl _
  | succ n ih =>
    simp only [GetIpsFileName.scan]
    split_ifs
    · omega
    · exact Nat.le_refl _

/-- Without a `'.'` below `cur`, the scan ends at index 0. -/
theorem scan_no_dot (name : List Char) (h : ∀ i, name.getD i (Char.ofNat 0) ≠ '.') :
    ∀ cur, GetIpsFileName.scan name cur = 0 := by
  intro cur
  induction cur with
  | zero => rfl
  | succ n ih =>
    simp only [GetIpsFileName.scan]
    rw [if_pos (h _)]
    exact ih

/-- With the last `'.'` at index `pre.length`, the scan from any index at or after it ends
at that index. -/
theorem scan_last_dot (pre ext : List Char) (hext : '.' ∉ ext) :
    ∀ j, j ≤ ext.length + 1 →
      GetIpsFileName.scan (pre ++ '.' :: ext) (pre.length + j) = pre.length := by
  have hdot : (pre ++ '.' :: ext).getD pre.length (Char.ofNat 0) = '.' := by
    exact getD_at_dot pre ext
  intro j
  induction j with
  | zero =>
    intro _
    rw [Nat.add_zero]
    cases hp : pre.length with
    | zero => rfl
    | succ m =>
      simp only [GetIpsFileName.scan]
      rw [← hp, if_neg (by rw [hdot]; simp)]
  | succ j ih =>
    intro hj
    have e : pre.length + (j + 1) = (pre.length + j) + 1 := by omega
    rw [e]
    simp only [GetIpsFileName.scan]
    rw [if_pos, ih (by omega)]
    rw [List.getD_eq_getElem?_getD, List.getElem?_append_right (by omega)]
    have e2 : pre.length + j + 1 - pre.length = j + 1 := by omega
    rw [e2, List.getElem?_cons_succ]
    by_cases hj2 : j < ext.length
    · rw [List.getElem?_eq_getElem hj2]
      simp only [Option.getD_some]
      intro hc
      exact hext (hc ▸ List.getElem_mem hj2)
    · rw [List.getElem?_eq_none (by omega)]
      decide

theorem getD_ne_dot_of_not_mem (name : List Char) (h : '.' ∉ name) :
    ∀ i, name.getD i (Char.ofNat 0) ≠ '.' := by
  intro i
  rw [List.getD_eq_getElem?_getD]
  by_cases hi : i < name.length
  · rw [List.getElem?_eq_getElem hi]
    simp only [Option.getD_some]
    intro hc
    exact h (hc ▸ List.getElem_mem hi)
  · rw [List.getElem?_eq_none (by omega)]
    decide

/-- A name that contains a `'.'` splits at its last `'.'`. -/
theorem exists_last_dot (name : List Char) (h : '.' ∈ name) :
    ∃ pre ext : List Char, name = pre ++ '.' :: ext ∧ '.' ∉ ext := by
  obtain ⟨as, bs, h1, h2⟩ := List.eq_append_cons_of_mem (List.mem_reverse.mpr h)
  refine ⟨bs.reverse, as.reverse, ?_, fun hc => h2 (List.mem_reverse.mp hc)⟩
  have := congrArg List.reverse h1
  simpa using this

/-- C17 (filename resolution): `GetIpsFileName` returns no result for a name without
`'.'`; for a name whose last `'.'` is followed by `ext`, it returns no result when `ext`
has fewer than 3 characters, and otherwise the name up to and including that `'.'`
followed by `"ips"` when a file of that name exists and by `"IPS"` when it does not; and
every name that contains a `'.'` is of that form. -/
theorem C17_filename (filestream_exists : List Char → Bool) :
    (∀ name : List Char, '.' ∉ name → GetIpsFileName filestream_exists name = none) ∧
    (∀ pre ext : List Char, '.' ∉ ext →
      GetIpsFileName filestream_exists (pre ++ '.' :: ext) =
        if ext.length < 3 then none
        else if filestream_exists (pre ++ ['.', 'i', 'p', 's']) = true then
          some (pre ++ ['.', 'i', 'p', 's'])
        else some (pre ++ ['.', 'I', 'P', 'S'])) ∧
    (∀ name : List Char, '.' ∈ name →
      ∃ pre ext : List Char, name = pre ++ '.' :: ext ∧ '.' ∉ ext) := by
  refine ⟨?_, ?_, exists_last_dot⟩
  · intro name h
    have hnd := getD_ne_dot_of_not_mem name h
    unfold GetIpsFileName
    simp only
    rw [if_pos]
    intro hc
    exact hnd _ hc.1
  · intro pre ext hext
    have hscan : GetIpsFileName.scan (pre ++ '.' :: ext) (pre ++ '.' :: ext).length
        = pre.length := by
      have := scan_last_dot pre ext hext (ext.length + 1) (Nat.le_refl _)
      rw [← this]
      congr 1
      simp only [List.length_append, List.length_cons]
    have hdot : (pre ++ '.' :: ext).getD pre.length (Char.ofNat 0) = '.' := by
      exact getD_at_dot pre ext
    have htake : (pre ++ '.' :: ext).take (pre.length + 1) = pre ++ ['.'] := by
      rw [List.take_append_eq_append_take]
      simp
    unfold GetIpsFileName
    simp only [hscan, hdot, htake, true_and]
    have hlen : (pre ++ '.' :: ext).length - pre.length = ext.length + 1 := by
      simp only [List.length_append, List.length_cons]; omega
    rw [hlen]
    by_cases h3 : ext.length < 3
    · rw [if_pos (by omega), if_pos h3]
    · rw [if_neg (by omega), if_neg h3]
      simp only [List.append_assoc, List.singleton_append]
      cases filestream_exists (pre ++ ['.', 'i', 'p', 's']) <;> simp

/-- C17 at the concrete names `"game"` (no result) and `"a.b/game.rom"` with an existing
`"a.b/game.ips"`. -/
theorem C17_filename_witness :
    GetIpsFileName (fun _ => true) ['g', 'a', 'm', 'e'] = none ∧
    GetIpsFileName (fun _ => true) (['a', '.', 'b', '/', 'g', 'a', 'm', 'e'] ++ '.' :: ['r', 'o', 'm'])
      = some (['a', '.', 'b', '/', 'g', 'a', 'm', 'e'] ++ ['.', 'i', 'p', 's']) :=
  ⟨(C17_filename (fun _ => true)).1 _ (by decide),
   ((C17_filename (fun _ => true)).2.1 ['a', '.', 'b', '/', 'g', 'a', 'm', 'e'] ['r', 'o', 'm']
      (by decide)).trans (by decide)⟩

/-! ## The frame of `ApplyIPS` -/

theorem decodeRecord_short (F : List Byte) (h : F.length < 5) : decodeRecord F = none := by
  rcases F with _ | ⟨b0, _ | ⟨b1, _ | ⟨b2, _ | ⟨b3, _ | ⟨b4, F1⟩⟩⟩⟩⟩ <;>
    first
      | (exfalso; simp only [List.length_cons] at h; omega)
      | rfl

theorem decodeRecord_cons (b0 b1 b2 b3 b4 : Byte) (F1 : List Byte) :
    decodeRecord (b0 :: b1 :: b2 :: b3 :: b4 :: F1) =
      if hdrOffset b0 b1 b2 = 0xFFFFFF ∨ [b0, b1, b2] = EOFMARK then none
      else if hdrLength b3 b4 ≠ 0 then
        some (⟨hdrOffset b0 b1 b2, hdrLength b3 b4, (F1.take (hdrLength b3 b4)).length⟩,
          F1.drop (hdrLength b3 b4))
      else
        match F1 with
        | c0 :: c1 :: _ :: F2 =>
          some (⟨hdrOffset b0 b1 b2, fillLength c0 c1, fillLength c0 c1⟩, F2)
        | _ => none := rfl

/-- One pass of the loop in target mode against the record at the head of the stream:
without a record the pass leaves the loop and the target as it is; with a record the pass
changes no byte outside the payload bytes present, `[offset, offset+present)`, changes
nothing at all when `offset+length > Size`, leaves the loop when the record is incomplete
and otherwise goes on with the stream after the record. -/
theorem step_frame (F : List Byte) (d : List Byte) (Size R : Nat) :
    (decodeRecord F = none ∧ ApplyIPS.step F (some d) Size R = .done R (some d)) ∨
    (∃ e F' d', decodeRecord F = some (e, F') ∧
      (ApplyIPS.step F (some d) Size R = .done R (some d') ∨
        ∃ R', ApplyIPS.step F (some d) Size R = .more F' (some d') R') ∧
      ∀ i : Nat, (e.offset + e.length ≤ Size → ¬(e.offset ≤ i ∧ i < e.offset + e.present)) →
        d'[i]? = d[i]?) := by
  by_cases hF : F.length < 5
  · exact Or.inl ⟨decodeRecord_short F hF, step_short F hF _ _ _⟩
  · rcases F with _ | ⟨b0, _ | ⟨b1, _ | ⟨b2, _ | ⟨b3, _ | ⟨b4, F1⟩⟩⟩⟩⟩ <;>
      try (exfalso; simp only [List.length_cons, List.length_nil] at hF; omega)
    rw [decodeRecord_cons, step_cons]
    by_cases hT : hdrOffset b0 b1 b2 = 0xFFFFFF ∨ [b0, b1, b2] = EOFMARK
    · rw [if_pos hT, if_pos hT]
      exact Or.inl ⟨rfl, rfl⟩
    · rw [if_neg hT, if_neg hT]
      by_cases hN : hdrLength b3 b4 ≠ 0
      · rw [if_pos hN, if_pos hN]
        right
        by_cases hS : hdrOffset b0 b1 b2 + hdrLength b3 b4 > Size
        · refine ⟨_, _, d, rfl, Or.inr ⟨R, ?_⟩, fun _ _ => rfl⟩
          simp only [if_pos hS]
        · by_cases hG : (F1.take (hdrLength b3 b4)).length = hdrLength b3 b4
          · refine ⟨_, _, memcpy d (hdrOffset b0 b1 b2) (F1.take (hdrLength b3 b4)), rfl,
              Or.inr ⟨u32 (R + 1), ?_⟩, fun i hi => ?_⟩
            · simp only [if_neg hS, if_pos hG]
            · rw [getElem?_memcpy, if_neg]
              intro hc
              exact hi (Nat.le_of_not_gt hS) ⟨hc.1, hc.2.1⟩
          · refine ⟨_, _, memcpy d (hdrOffset b0 b1 b2) (F1.take (hdrLength b3 b4)), rfl,
              Or.inl ?_, fun i hi => ?_⟩
            · simp only [if_neg hS, if_neg hG]
            · rw [getElem?_memcpy, if_neg]
              intro hc
              exact hi (Nat.le_of_not_gt hS) ⟨hc.1, hc.2.1⟩
      · rw [if_neg hN, if_neg hN]
        rcases F1 with _ | ⟨c0, _ | ⟨c1, _ | ⟨c2, F2⟩⟩⟩
        · exact Or.inl ⟨rfl, rfl⟩
        · exact Or.inl ⟨rfl, rfl⟩
        · exact Or.inl ⟨rfl, rfl⟩
        · right
          simp only
          by_cases hS : fillLength c0 c1 = 0 ∨ hdrOffset b0 b1 b2 + fillLength c0 c1 > Size
          · refine ⟨_, _, d, rfl, Or.inr ⟨R, ?_⟩, fun _ _ => rfl⟩
            rw [if_pos hS]
          · refine ⟨_, _, memset d (hdrOffset b0 b1 b2) c2 (fillLength c0 c1), rfl,
              Or.inr ⟨u32 (R + 1), ?_⟩, fun i hi => ?_⟩
            · rw [if_neg hS]
            · unfold memset
              rw [getElem?_memcpy, if_neg]
              intro hc
              rw [List.length_replicate] at hc
              exact hi (Nat.le_of_not_gt (fun h => hS (Or.inr h))) ⟨hc.1, hc.2.1⟩

/-- The loop in target mode changes no byte outside the payload bytes present of the
in-bounds records decoded from the stream. -/
theorem loop_frame (Size : Nat) : ∀ (fuel : Nat) (F d : List Byte) (R : Nat),
    ∃ d', (ApplyIPS.loop fuel F (some d) Size R).2 = some d' ∧
      ∀ i : Nat, (∀ e ∈ decodedRecords.go fuel F, e.offset + e.length ≤ Size →
          ¬(e.offset ≤ i ∧ i < e.offset + e.present)) →
        d'[i]? = d[i]? := by
  intro fuel
  induction fuel with
  | zero => intro F d R; exact ⟨d, rfl, fun _ _ => rfl⟩
  | succ n ih =>
    intro F d R
    rw [ApplyIPS_loop_succ]
    rcases step_frame F d Size R with ⟨_, hs⟩ | ⟨e, F', d', hh, hs, hfr⟩
    · rw [hs]; exact ⟨d, rfl, fun _ _ => rfl⟩
    · have hgo : decodedRecords.go (n + 1) F = e :: decodedRecords.go n F' := by
        simp only [decodedRecords.go, hh]
      rcases hs with hs | ⟨R', hs⟩
      · rw [hs]
        refine ⟨d', rfl, fun i hi => hfr i ?_⟩
        exact hi e (by rw [hgo]; exact List.mem_cons_self _ _)
      · rw [hs]
        obtain ⟨d'', h1, h2⟩ := ih F' d' R'
        refine ⟨d'', h1, fun i hi => ?_⟩
        rw [h2 i (fun r hr => hi r (by rw [hgo]; exact List.mem_cons_of_mem _ hr))]
        exact hfr i (hi e (by rw [hgo]; exact List.mem_cons_self _ _))

theorem decodedRecords_example :
    decodedRecords (PATCH ++ encodeAll [.copy 1 [0xFF, 0xFE], .fill 2 2 7, .copy 9 [1]] ++ EOFMARK)
      = [⟨1, 2, 2⟩, ⟨2, 2, 2⟩, ⟨9, 1, 1⟩] := by
  decide

/-- C13, as stated, fails on a stream that ends inside the payload of an in-bounds copy
record: the stream `"PATCH"`, offset 0, length 2, one payload byte 9 holds no complete
record, so position 0 lies in no range of a complete in-bounds record, yet `ApplyIPS` on
the target `[0, 0]` stores 9 there. -/
theorem C13_counterexample :
    decodedRecords (PATCH ++ [0, 0, 0, 0, 2, 9]) = [⟨0, 2, 1⟩] ∧
    (∀ e ∈ decodedRecords (PATCH ++ [0, 0, 0, 0, 2, 9]), e.complete = true →
      e.offset + e.length ≤ 2 → ¬(e.offset ≤ 0 ∧ 0 < e.offset + e.length)) ∧
    ApplyIPS (PATCH ++ [0, 0, 0, 0, 2, 9]) (some [0, 0]) 2 = (0, some [9, 0]) ∧
    ([9, 0] : List Byte)[0]? ≠ ([0, 0] : List Byte)[0]? := by
  decide

/-- C13 (frame), amended: whatever the stream, a target byte at a position that lies
neither in the range `[offset, offset+length)` of a complete record decoded from the
stream with `offset+length ≤ Size`, nor among the payload bytes present,
`[offset, offset+present)`, of a copy record with `offset+length ≤ Size` that the end of
the stream cuts short, has the same value after `ApplyIPS` as before. (For a complete
record `present = length`, so both cases read `[offset, offset+present)`.) -/
theorem C13_frame (P B : List Byte) (Size : Nat) :
    ∃ B', (ApplyIPS P (some B) Size).2 = some B' ∧
      ∀ i : Nat, (∀ e ∈ decodedRecords P, e.offset + e.length ≤ Size →
          ¬(e.offset ≤ i ∧ i < e.offset + (if e.complete then e.length else e.present))) →
        B'[i]? = B[i]? := by
  rcases ApplyIPS_cases P with ⟨F, rfl⟩ | h
  · rw [ApplyIPS_patch]
    have hd : decodedRecords (PATCH ++ F) = decodedRecords.go F.length F := by
      unfold decodedRecords
      have : (PATCH ++ F).drop 5 = F := rfl
      rw [this]
    rw [hd]
    obtain ⟨d', h1, h2⟩ := loop_frame Size F.length F B 0
    refine ⟨d', h1, fun i hi => h2 i (fun e he hb => ?_)⟩
    have h3 := hi e he hb
    by_cases hc : e.complete = true
    · rw [if_pos hc] at h3
      have h4 : e.present = e.length := of_decide_eq_true hc
      rw [h4]
      exact h3
    · rw [if_neg hc] at h3
      exact h3
  · rw [h]
    exact ⟨B, rfl, fun _ _ => rfl⟩

/-! ## The records of a patch returned by `CreateIPS` -/

theorem offsetField_mod (o : Nat) : offsetField (o % 2 ^ 24) = offsetField o := by
  simp only [offsetField, lowByte, Nat.shiftRight_eq_div_pow, List.cons.injEq, Fin.mk.injEq,
    and_true]
  omega

theorem Record.encode_norm (r : Record) : r.norm.encode = r.encode := by
  cases r <;> simp only [Record.norm, Record.encode, offsetField_mod]

theorem encodeAll_map_norm : ∀ rs : List Record, encodeAll (rs.map Record.norm) = encodeAll rs := by
  intro rs
  induction rs with
  | nil => rfl
  | cons r rs ih => simp only [List.map_cons, encodeAll, ih, Record.encode_norm]

/-- A patch returned by `CreateIPS` is the header, complete copy records whose fields hold
their offset and length and that lie inside `[0, in_size)`, and the trailer. -/
theorem CreateIPS_shape_wf (O M : List Byte) (L : Nat) (p : List Byte)
    (h : CreateIPS O M L = some p) :
    ∃ recs : List Record, p = PATCH ++ encodeAll recs ++ EOFMARK ∧
      ∀ r ∈ recs, r.isCopy = true ∧ r.wf = true ∧ r.offset + r.len ≤ L := by
  obtain ⟨recs, hp, hrecs⟩ := CreateIPS_shape O M L p h
  refine ⟨recs.map Record.norm, by rw [encodeAll_map_norm]; exact hp, fun r hr => ?_⟩
  obtain ⟨r₀, hr₀, rfl⟩ := List.mem_map.mp hr
  obtain ⟨hc, h1, h2, h3, _⟩ := hrecs r₀ hr₀
  cases r₀ with
  | copy o q =>
    simp only [Record.offset, Record.len] at h1 h2 h3
    have hm : o % 2 ^ 24 < 2 ^ 24 := Nat.mod_lt _ (by norm_num)
    have hle : o % 2 ^ 24 ≤ o := Nat.mod_le _ _
    refine ⟨rfl, ?_, ?_⟩
    · simp only [Record.norm, Record.wf, Bool.and_eq_true, decide_eq_true_eq]
      omega
    · simp only [Record.norm, Record.offset, Record.len]
      omega
  | fill o n v => cases hc

theorem countApplied_all (S : Nat) : ∀ rs : List Record, (∀ r ∈ rs, r.overwrites S = true) →
    countApplied S rs = rs.length := by
  intro rs h
  unfold countApplied
  rw [List.filter_eq_self.mpr h]

/-- The loop in target mode over complete records followed by the trailer: the records
before the first one with an end-of-stream offset are processed. -/
theorem loop_records_stop (Size : Nat) : ∀ (rs : List Record) (d : List Byte) (R : Nat),
    (∀ r ∈ rs, r.wf = true) → Size ≤ d.length →
    ApplyIPS.loop (encodeAll rs ++ EOFMARK).length (encodeAll rs ++ EOFMARK) (some d) Size R =
      (bump (countApplied Size (rs.takeWhile fun r => !r.sentinel)) R,
       some (applyAll Size (rs.takeWhile fun r => !r.sentinel) d)) := by
  intro rs
  induction rs with
  | nil => intro d R _ _; exact loop_trailer _ _ _
  | cons r rs ih =>
    intro d R h hd
    have hw := h r (List.mem_cons_self _ _)
    simp only [encodeAll, List.append_assoc]
    by_cases hs : r.sentinel = true
    · rw [loop_of_done (step_sentinel r hw hs _ _ _ _)]
      simp [List.takeWhile, hs, countApplied, applyAll, bump]
    · have hs' : r.sentinel = false := by simpa using hs
      rw [loop_of_more (step_record_target r hw hs' _ d Size R hd),
        ih _ _ (fun r' hr' => h r' (List.mem_cons_of_mem _ hr'))
          (by rw [Record.length_apply r hd]; exact hd)]
      simp only [List.takeWhile, hs', Bool.not_false, applyAll, countApplied, List.filter_cons]
      by_cases hov : r.overwrites Size = true
      · simp only [hov, if_true, List.length_cons]
        rw [← bump_one, bump_add, Nat.add_comm]
      · simp only [hov, Bool.false_eq_true, if_false]

/-- The loop in measuring mode over complete records followed by the trailer. -/
theorem loop_records_stop_measure (Size : Nat) : ∀ (rs : List Record) (R : Nat),
    (∀ r ∈ rs, r.wf = true) →
    ApplyIPS.loop (encodeAll rs ++ EOFMARK).length (encodeAll rs ++ EOFMARK) none Size R =
      (max R (maxExtent (rs.takeWhile fun r => !r.sentinel)), none) := by
  intro rs
  induction rs with
  | nil => intro R _; rw [show encodeAll [] ++ EOFMARK = EOFMARK from rfl, loop_trailer]; simp [maxExtent]
  | cons r rs ih =>
    intro R h
    have hw := h r (List.mem_cons_self _ _)
    simp only [encodeAll, List.append_assoc]
    by_cases hs : r.sentinel = true
    · rw [loop_of_done (step_sentinel r hw hs _ _ _ _)]
      simp [List.takeWhile, hs, maxExtent]
    · have hs' : r.sentinel = false := by simpa using hs
      rw [loop_of_more (step_record_measure r hw hs' _ Size R),
        ih _ (fun r' hr' => h r' (List.mem_cons_of_mem _ hr'))]
      simp only [List.takeWhile, hs', Bool.not_false, maxExtent, max_assoc]

/-- C14 (encoder output shape): a patch returned by `CreateIPS` is `"PATCH"`, then records
each made of a 3-byte big-endian offset, a 2-byte big-endian length `n` with
`1 ≤ n ≤ 0xFFFF` and exactly `n` payload bytes, then `"EOF"`; the length field of a record
is never `00 00`, so no record is a fill record. -/
theorem C14_output_shape (O M : List Byte) (L : Nat) (p : List Byte)
    (h : CreateIPS O M L = some p) :
    ∃ recs : List Record, p = PATCH ++ encodeAll recs ++ EOFMARK ∧
      ∀ r ∈ recs, ∃ (o : Nat) (payload : List Byte),
        r = .copy o payload ∧
        r.encode = offsetField o ++ lengthField payload.length ++ payload ∧
        hdrOffset (lowByte (o >>> 16)) (lowByte (o >>> 8)) (lowByte o) = o ∧
        hdrLength (lowByte (payload.length >>> 8)) (lowByte payload.length) = payload.length ∧
        1 ≤ payload.length ∧ payload.length ≤ 0xFFFF ∧
        lengthField payload.length ≠ [0, 0] := by
  obtain ⟨recs, hp, hrecs⟩ := CreateIPS_shape_wf O M L p h
  refine ⟨recs, hp, fun r hr => ?_⟩
  obtain ⟨hc, hw, _⟩ := hrecs r hr
  cases r with
  | copy o q =>
    simp only [Record.wf, Bool.and_eq_true, decide_eq_true_eq] at hw
    have hl : hdrLength (lowByte (q.length >>> 8)) (lowByte q.length) = q.length :=
      hdrLength_lowByte (by omega)
    refine ⟨o, q, rfl, rfl, hdrOffset_lowByte hw.1.1, hl, hw.1.2, hw.2, ?_⟩
    intro hf
    simp only [lengthField, List.cons.injEq, and_true] at hf
    rw [hf.1, hf.2] at hl
    have h0 : hdrLength 0 0 = 0 := by decide
    omega
  | fill o n v => cases hc

/-- C14 at the concrete buffers `[0,0,0,0]` and `[0,0xFF,0xFF,0]`. -/
theorem C14_output_shape_witness :
    ∃ recs : List Record,
      ([0x50, 0x41, 0x54, 0x43, 0x48, 0, 0, 1, 0, 2, 0xFF, 0xFF, 0x45, 0x4F, 0x46] : List Byte)
        = PATCH ++ encodeAll recs ++ EOFMARK ∧
      ∀ r ∈ recs, ∃ (o : Nat) (payload : List Byte),
        r = .copy o payload ∧
        r.encode = offsetField o ++ lengthField payload.length ++ payload ∧
        hdrOffset (lowByte (o >>> 16)) (lowByte (o >>> 8)) (lowByte o) = o ∧
        hdrLength (lowByte (payload.length >>> 8)) (lowByte payload.length) = payload.length ∧
        1 ≤ payload.length ∧ payload.length ≤ 0xFFFF ∧
        lengthField payload.length ≠ [0, 0] :=
  C14_output_shape [0, 0, 0, 0] [0, 0xFF, 0xFF, 0] 4 _ (by decide)

/-- C20 (encoder records stay in range): a patch returned by `CreateIPS` for buffers of
length `L` is made of records with `offset + length ≤ L`; `MeasureIPS` of the patch is at
most `L`; and `ApplyIPS` with `Size = L` applies every record it decodes (those before
the first offset 0xFFFFFF or 0x454F46, if any): none is skipped as out of bounds, and
the returned value is their number modulo `2^32`. -/
theorem C20_in_range (O M : List Byte) (L : Nat) (p B : List Byte)
    (h : CreateIPS O M L = some p) (hB : L ≤ B.length) :
    ∃ recs : List Record, p = PATCH ++ encodeAll recs ++ EOFMARK ∧
      (∀ r ∈ recs, r.wf = true ∧ r.offset + r.len ≤ L ∧ r.overwrites L = true) ∧
      MeasureIPS p ≤ L ∧
      ApplyIPS p (some B) L =
        ((recs.takeWhile fun r => !r.sentinel).length % 2 ^ 32,
         some (applyAll L (recs.takeWhile fun r => !r.sentinel) B)) := by
  obtain ⟨recs, hp, hrecs⟩ := CreateIPS_shape_wf O M L p h
  have hover : ∀ r ∈ recs, r.overwrites L = true := by
    intro r hr
    obtain ⟨hc, hw, hl⟩ := hrecs r hr
    rw [Record.overwrites_iff]
    refine ⟨?_, hl⟩
    cases r with
    | copy o q =>
      simp only [Record.wf, Bool.and_eq_true, decide_eq_true_eq] at hw
      exact hw.1.2
    | fill o n v => cases hc
  have hwf : ∀ r ∈ recs, r.wf = true := fun r hr => (hrecs r hr).2.1
  have htw : ∀ r ∈ recs.takeWhile (fun r => !r.sentinel), r ∈ recs :=
    fun r hr => (List.takeWhile_sublist _).subset hr
  refine ⟨recs, hp, fun r hr => ⟨hwf r hr, (hrecs r hr).2.2, hover r hr⟩, ?_, ?_⟩
  · rw [hp]
    unfold MeasureIPS
    rw [List.append_assoc, ApplyIPS_patch, loop_records_stop_measure 0 recs 0 hwf]
    simp only [Nat.zero_le, max_eq_right]
    rw [maxExtent_le_iff]
    exact fun r hr => (hrecs r (htw r hr)).2.2
  · rw [hp, List.append_assoc, ApplyIPS_patch, loop_records_stop L recs B 0 hwf hB,
      bump_zero_eq, countApplied_all L _ (fun r hr => hover r (htw r hr))]

/-- C20 at the concrete buffers `[0,0,0,0]` and `[0,0xFF,0xFF,0]`. -/
theorem C20_in_range_witness :
    ∃ recs : List Record,
      ([0x50, 0x41, 0x54, 0x43, 0x48, 0, 0, 1, 0, 2, 0xFF, 0xFF, 0x45, 0x4F, 0x46] : List Byte)
        = PATCH ++ encodeAll recs ++ EOFMARK ∧
      (∀ r ∈ recs, r.wf = true ∧ r.offset + r.len ≤ 4 ∧ r.overwrites 4 = true) ∧
      MeasureIPS [0x50, 0x41, 0x54, 0x43, 0x48, 0, 0, 1, 0, 2, 0xFF, 0xFF, 0x45, 0x4F, 0x46] ≤ 4 ∧
      ApplyIPS [0x50, 0x41, 0x54, 0x43, 0x48, 0, 0, 1, 0, 2, 0xFF, 0xFF, 0x45, 0x4F, 0x46]
          (some [0, 0, 0, 0]) 4 =
        ((recs.takeWhile fun r => !r.sentinel).length % 2 ^ 32,
         some (applyAll 4 (recs.takeWhile fun r => !r.sentinel) [0, 0, 0, 0])) :=
  C20_in_range [0, 0, 0, 0] [0, 0xFF, 0xFF, 0] 4 _ [0, 0, 0, 0] (by decide) (by decide)

/-! ## The scan of `CreateIPS`, with the records it writes -/

theorem ScanInv_init (O M : List Byte) (L : Nat) : ScanInv O M L 0 CreateIPS.init [] := by
  refine ⟨rfl, by simp, by simp, (fun h => by cases h), fun _ => ⟨?_, ?_⟩⟩
  · intro i hi
    simp only [CreateIPS.init] at hi
    exact absurd hi (by simp)
  · intro _ _; rfl

/-- The invariant after an iteration that writes nothing and leaves no record open or
leaves the open record as described. -/
theorem ScanInv_emit {O M : List Byte} {L pos : Nat} {s : Enc} {recs : List Record}
    (h : ScanInv O M L pos s recs) (off : Nat) (record : List Byte) (s' : Enc)
    (hips : s'.ips = write_record s.ips off record record.length)
    (hb : s'.record_begun = false)
    (hr : EmittedOK M (pos + 1) (Record.copy off record)) (hoff : off ≠ EOF_CODE)
    (hcov : M.getD (L - 1) 0 = O.getD (L - 1) 0 →
      ∀ i, i < pos + 1 → M.getD i 0 ≠ O.getD i 0 →
        (i < (if s.record_begun = true then s.curr_offset else pos)) ∨
          (off ≤ i ∧ i < off + record.length)) :
    ScanInv O M L (pos + 1) s' (recs ++ [Record.copy off record]) := by
  obtain ⟨h1, h2, h3, _, h5⟩ := h
  refine ⟨?_, ?_, ?_, (fun hc => by rw [hb] at hc; cases hc), fun hfin => ⟨?_, fun _ _ => hb⟩⟩
  · rw [hips, write_record_eq, h1, encodeAll_snoc, List.append_assoc]
  · intro r hr'
    rcases List.mem_append.mp hr' with hm | hm
    · exact ⟨(h2 r hm).1.mono (by omega), (h2 r hm).2⟩
    · rw [List.mem_singleton.mp hm]; exact ⟨hr, hoff⟩
  · simp only [List.length_append, List.length_cons, List.length_nil]; omega
  · intro i hi hne
    rw [hb] at hi
    simp only [Bool.false_eq_true, if_false] at hi
    rcases hcov hfin i hi hne with hold | hnew
    · obtain ⟨r, hr', hc⟩ := (h5 hfin).1 i hold hne
      exact ⟨r, List.mem_append_left _ hr', hc⟩
    · exact ⟨Record.copy off record, List.mem_append_right _ (List.mem_singleton.mpr rfl), hnew⟩

/-- One iteration of the loop of `CreateIPS` keeps the invariant, for some list of
records that extends the previous one by at most one record. -/
theorem body_scan (O M : List Byte) (L pos : Nat) (s : Enc) (recs : List Record) (hp : pos < L)
    (h : ScanInv O M L pos s recs) :
    ∃ recs', ScanInv O M L (pos + 1) (CreateIPS.body O M L pos s) recs' := by
  have hmono : ∀ r ∈ recs, EmittedOK M (pos + 1) r ∧ r.offset ≠ EOF_CODE :=
    fun r hr => ⟨(h.2.1 r hr).1.mono (by omega), (h.2.1 r hr).2⟩
  have hcnt : recs.length ≤ pos + 1 := by have := h.2.2.1; omega
  cases hb : s.record_begun with
  | false =>
    have hcov₀ : M.getD (L - 1) 0 = O.getD (L - 1) 0 → ∀ i, i < pos →
        M.getD i 0 ≠ O.getD i 0 → ∃ r ∈ recs, r.offset ≤ i ∧ i < r.offset + r.len := by
      intro hfin i hi hne
      have := (h.2.2.2.2 hfin).1 i (by rw [hb]; simpa using hi) hne
      exact this
    by_cases he : M.getD pos 0 = O.getD pos 0
    · rw [body_idle O M L pos s hb hp he]
      refine ⟨recs, h.1, hmono, hcnt, (fun hc => by rw [hb] at hc; cases hc),
        fun hfin => ⟨fun i hi hne => ?_, fun _ _ => hb⟩⟩
      rw [hb] at hi
      simp only [Bool.false_eq_true, if_false] at hi
      rcases Nat.lt_succ_iff_lt_or_eq.mp hi with h6 | h6
      · exact hcov₀ hfin i h6 hne
      · rw [h6] at hne; exact absurd he hne
    · by_cases h1 : pos = EOF_CODE
      · rw [body_start_eof O M L pos s hb hp he h1]
        have h0 : 1 ≤ pos := by unfold EOF_CODE at h1; omega
        refine ⟨recs, h.1, hmono, hcnt, fun _ => ⟨?_, by simp, by simp, ?_, ?_⟩,
          fun hfin => ⟨fun i hi hne => ?_, fun hL _ => ?_⟩⟩
        · simp only [List.length_cons, List.length_nil]; omega
        · show pos - 1 ≠ EOF_CODE
          omega
        · simp only [List.length_cons, List.length_nil]
          rw [slice_succ, slice_one]
          have : pos - 1 + 1 = pos := by omega
          simp [this]
        · simp only [if_true] at hi
          exact hcov₀ hfin i (by omega) hne
        · exfalso
          have : pos = L - 1 := by omega
          rw [← this] at hfin
          exact he hfin
      · by_cases h2 : pos = L - 1
        · rw [body_start_last O M L pos s hb he h1 h2]
          have hw : ScanInv O M L (pos + 1)
              { record_begun := false, record := [M.getD pos 0], curr_offset := pos,
                CurIpsBufSize := ensure_length (s.ips.length + 5 + 1) s.CurIpsBufSize,
                ips := write_record s.ips pos [M.getD pos 0] 1 }
              (recs ++ [Record.copy pos [M.getD pos 0]]) :=
            ScanInv_emit h pos [M.getD pos 0] _ rfl rfl
              ⟨rfl, by simp [Record.len], by simp [Record.len],
                by simp [Record.offset, Record.len],
                by simp [Record.bytes, Record.len, Record.offset, slice_one]⟩ h1
              (fun hfin _ _ _ => absurd (h2 ▸ hfin) he)
          exact ⟨_, hw⟩
        · rw [body_start O M L pos s hb he h1 h2]
          refine ⟨recs, h.1, hmono, hcnt, fun _ => ⟨by simp, by simp, by simp, h1,
            by simp [slice_one]⟩, fun hfin => ⟨fun i hi hne => ?_, fun hL _ => ?_⟩⟩
          · simp only [if_true] at hi
            exact hcov₀ hfin i hi hne
          · exfalso; omega
  | true =>
    obtain ⟨ho, hl1, hl2, hoff, hsl⟩ := h.2.2.2.1 hb
    have hcov₀ : M.getD (L - 1) 0 = O.getD (L - 1) 0 → ∀ i, i < s.curr_offset →
        M.getD i 0 ≠ O.getD i 0 → ∃ r ∈ recs, r.offset ≤ i ∧ i < r.offset + r.len := by
      intro hfin i hi hne
      exact (h.2.2.2.2 hfin).1 i (by rw [hb]; simpa using hi) hne
    have hnew : s.record ++ [M.getD pos 0] = slice M s.curr_offset (s.record.length + 1) := by
      rw [slice_succ, ← hsl, ho]
    by_cases hl : s.record.length = RECORD_LIMIT - 1
    · rw [body_cap O M L pos s hb hl]
      unfold RECORD_LIMIT at hl
      refine ⟨_, ScanInv_emit h s.curr_offset (s.record ++ [M.getD pos 0]) _ rfl rfl
        ⟨rfl, by simp [Record.len], by simp [Record.len]; omega,
          by simp [Record.offset, Record.len]; omega,
          by simp only [Record.bytes, Record.len, Record.offset, List.length_append,
               List.length_cons, List.length_nil]; exact hnew⟩ hoff ?_⟩
      intro _ i hi _
      rw [hb]
      simp only [if_true, List.length_append, List.length_cons, List.length_nil]
      omega
    · unfold RECORD_LIMIT at hl
      by_cases hc : M.getD pos 0 = O.getD pos 0 ∨ pos = L - 1
      · rw [body_close O M L pos s hb hl hp hc]
        refine ⟨_, ScanInv_emit h s.curr_offset s.record _ rfl rfl
          ⟨rfl, by simpa [Record.len] using hl1, by simp only [Record.len]; omega,
            by simp only [Record.offset, Record.len]; omega,
            by simpa only [Record.bytes, Record.len, Record.offset] using hsl⟩ hoff ?_⟩
        intro hfin i hi hne
        rw [hb]
        simp only [if_true]
        have heq : M.getD pos 0 = O.getD pos 0 := by
          rcases hc with hc | hc
          · exact hc
          · rw [hc]; exact hfin
        have hip : i ≠ pos := fun hip => hne (hip ▸ heq)
        omega
      · rw [body_continue O M L pos s hb hl (fun h => hc (Or.inl h)) (fun h => hc (Or.inr h))]
        refine ⟨recs, h.1, hmono, hcnt, fun _ => ⟨?_, by simp, ?_, hoff, ?_⟩,
          fun hfin => ⟨fun i hi hne => ?_, fun hL _ => ?_⟩⟩
        · simp only [List.length_append, List.length_cons, List.length_nil]; omega
        · simp only [List.length_append, List.length_cons, List.length_nil]; omega
        · simp only [List.length_append, List.length_cons, List.length_nil]
          exact hnew
        · rw [hb] at hi
          simp only [if_true] at hi
          exact hcov₀ hfin i hi hne
        · exfalso
          exact hc (Or.inr (by omega))

theorem loop_scan (O M : List Byte) (L : Nat) : ∀ (n pos : Nat) (s s' : Enc) (recs : List Record),
    pos + n = L → ScanInv O M L pos s recs → CreateIPS.loop O M L n pos s = some s' →
    ∃ recs', ScanInv O M L L s' recs' := by
  intro n
  induction n with
  | zero =>
    intro pos s s' recs hL h hs
    rw [CreateIPS_loop_zero] at hs
    cases hs
    have : pos = L := by omega
    subst this
    exact ⟨recs, h⟩
  | succ n ih =>
    intro pos s s' recs hL h hs
    rw [CreateIPS_loop_succ] at hs
    split_ifs at hs
    obtain ⟨recs', h'⟩ := body_scan O M L pos s recs (by omega) h
    exact ih (pos + 1) _ s' recs' (by omega) h' hs

/-- A patch returned by `CreateIPS` is the header, the records of a list that satisfies
the scan invariant at the end of the scan, and the trailer. -/
theorem CreateIPS_scan (O M : List Byte) (L : Nat) (p : List Byte)
    (h : CreateIPS O M L = some p) :
    ∃ (s : Enc) (recs : List Record), ScanInv O M L L s recs ∧
      p = PATCH ++ encodeAll recs ++ EOFMARK := by
  unfold CreateIPS at h
  cases hl : CreateIPS.loop O M L L 0 CreateIPS.init with
  | none => rw [hl] at h; cases h
  | some s =>
    rw [hl] at h
    simp only [Option.some.injEq] at h
    obtain ⟨recs, hinv⟩ := loop_scan O M L L 0 _ s [] (by omega) (ScanInv_init O M L) hl
    exact ⟨s, recs, hinv, by rw [← h, hinv.1]⟩

/-! ## The round trip -/

theorem length_slice (M : List Byte) (a n : Nat) : (slice M a n).length = n := by
  simp [slice]

theorem getElem?_slice (M : List Byte) (a n j : Nat) (h : j < n) :
    (slice M a n)[j]? = some (M.getD (a + j) 0) := by
  simp only [slice, List.getElem?_map, List.getElem?_range h, Option.map_some']

theorem getElem?_eq_some_getD (l : List Byte) (i : Nat) (h : i < l.length) :
    l[i]? = some (l.getD i 0) := by
  rw [List.getD_eq_getElem?_getD, List.getElem?_eq_getElem h, Option.getD_some]

/-- A record that overwrites and carries the bytes of `M`: the bytes it covers become
those of `M`, the others are unchanged. -/
theorem getElem?_apply (M : List Byte) (Size : Nat) (r : Record) (d : List Byte)
    (hd : Size ≤ d.length) (hM : Size ≤ M.length) (hov : r.overwrites Size = true)
    (hb : r.bytes = slice M r.offset r.len) (i : Nat) :
    (r.apply Size d)[i]? =
      if r.offset ≤ i ∧ i < r.offset + r.len then M[i]? else d[i]? := by
  have hov' := (Record.overwrites_iff r Size).mp hov
  have hlb := Record.length_bytes r
  unfold Record.apply
  rw [if_pos hov, ← hlb, ← memcpy_eq_splice r.bytes d r.offset (by omega), getElem?_memcpy]
  by_cases hc : r.offset ≤ i ∧ i < r.offset + r.bytes.length
  · rw [if_pos ⟨hc.1, hc.2, by omega⟩, if_pos hc, hb, getElem?_slice M _ _ _ (by omega),
      getElem?_eq_some_getD M i (by omega)]
    congr 2
    omega
  · rw [if_neg hc, if_neg (fun h => hc ⟨h.1, h.2.1⟩)]

/-- Records that all overwrite and carry the bytes of `M`: after processing them, a
position that lies in one of them holds the byte of `M`, any other position is unchanged. -/
theorem getElem?_applyAll (M : List Byte) (Size : Nat) (hM : Size ≤ M.length) :
    ∀ (rs : List Record) (d : List Byte), Size ≤ d.length →
      (∀ r ∈ rs, r.overwrites Size = true ∧ r.bytes = slice M r.offset r.len) → ∀ i : Nat,
      ((∃ r ∈ rs, r.offset ≤ i ∧ i < r.offset + r.len) → (applyAll Size rs d)[i]? = M[i]?) ∧
      ((¬∃ r ∈ rs, r.offset ≤ i ∧ i < r.offset + r.len) → (applyAll Size rs d)[i]? = d[i]?) := by
  intro rs
  induction rs with
  | nil =>
    intro d _ _ i
    exact ⟨fun ⟨r, hr, _⟩ => absurd hr (List.not_mem_nil r), fun _ => rfl⟩
  | cons r rs ih =>
    intro d hd h i
    obtain ⟨hov, hb⟩ := h r (List.mem_cons_self _ _)
    have hd' : Size ≤ (r.apply Size d).length := by rw [Record.length_apply r hd]; exact hd
    obtain ⟨ih1, ih2⟩ := ih (r.apply Size d) hd'
      (fun r' hr' => h r' (List.mem_cons_of_mem _ hr')) i
    have hr := getElem?_apply M Size r d hd hM hov hb i
    simp only [applyAll]
    by_cases hrs : ∃ r' ∈ rs, r'.offset ≤ i ∧ i < r'.offset + r'.len
    · refine ⟨fun _ => ih1 hrs, fun hn => ?_⟩
      obtain ⟨r', hr', hc⟩ := hrs
      exact absurd ⟨r', List.mem_cons_of_mem _ hr', hc⟩ hn
    · rw [ih2 hrs, hr]
      by_cases hc : r.offset ≤ i ∧ i < r.offset + r.len
      · refine ⟨fun _ => by rw [if_pos hc], fun hn => ?_⟩
        exact absurd ⟨r, List.mem_cons_self _ _, hc⟩ hn
      · refine ⟨fun ⟨r', hr', hc'⟩ => ?_, fun _ => by rw [if_neg hc]⟩
        rcases List.mem_cons.mp hr' with he | he
        · exact absurd (he ▸ hc') hc
        · exact absurd ⟨r', he, hc'⟩ hrs

theorem length_applyAll (Size : Nat) : ∀ (rs : List Record) (d : List Byte), Size ≤ d.length →
    (applyAll Size rs d).length = d.length := by
  intro rs
  induction rs with
  | nil => intro d _; rfl
  | cons r rs ih =>
    intro d hd
    simp only [applyAll]
    rw [ih _ (by rw [Record.length_apply r hd]; exact hd), Record.length_apply r hd]

/-- Buffers of equal length at most `0xFFFFFF` that agree in their last byte: a patch
returned by `CreateIPS` is made of records that `ApplyIPS` applies one and all, and that
turn the original buffer into the modified one. -/
theorem CreateIPS_round_trip (O M : List Byte) (L : Nat) (p : List Byte)
    (hO : O.length = L) (hM : M.length = L) (hL : L ≤ 0xFFFFFF)
    (hfin : M.getD (L - 1) 0 = O.getD (L - 1) 0) (h : CreateIPS O M L = some p) :
    ∃ recs : List Record, p = PATCH ++ encodeAll recs ++ EOFMARK ∧
      (∀ r ∈ recs, r.isCopy = true ∧ r.wf = true ∧ r.sentinel = false ∧
        r.overwrites L = true) ∧
      ApplyIPS p (some O) L = (recs.length, some M) := by
  obtain ⟨s, recs, hinv, hp⟩ := CreateIPS_scan O M L p h
  obtain ⟨_, hok, hcnt, _, hcov⟩ := hinv
  obtain ⟨hcover, hend⟩ := hcov hfin
  have hprops : ∀ r ∈ recs, r.isCopy = true ∧ r.wf = true ∧ r.sentinel = false ∧
      r.overwrites L = true := by
    intro r hr
    obtain ⟨⟨hc, h1, h2, h3, _⟩, hne⟩ := hok r hr
    refine ⟨hc, ?_, ?_, ?_⟩
    · cases r with
      | copy o q =>
        simp only [Record.offset, Record.len] at h1 h2 h3
        simp only [Record.wf, Bool.and_eq_true, decide_eq_true_eq]
        omega
      | fill o n v => cases hc
    · rw [← Bool.not_eq_true, Record.sentinel_iff]
      unfold EOF_CODE at hne
      omega
    · rw [Record.overwrites_iff]; exact ⟨h1, h3⟩
  refine ⟨recs, hp, hprops, ?_⟩
  rw [hp, ApplyIPS_records_target recs O L (fun r hr => ⟨(hprops r hr).2.1, (hprops r hr).2.2.1⟩)
    (by omega), countApplied_all L recs (fun r hr => (hprops r hr).2.2.2),
    Nat.mod_eq_of_lt (by omega)]
  congr 2
  apply List.ext_getElem?
  intro i
  obtain ⟨g1, g2⟩ := getElem?_applyAll M L (by omega) recs O (by omega)
    (fun r hr => ⟨(hprops r hr).2.2.2, (hok r hr).1.2.2.2.2⟩) i
  by_cases hi : i < L
  · by_cases hc : ∃ r ∈ recs, r.offset ≤ i ∧ i < r.offset + r.len
    · exact g1 hc
    · rw [g2 hc, getElem?_eq_some_getD O i (by omega), getElem?_eq_some_getD M i (by omega)]
      congr 1
      by_contra hne
      apply hc
      have hb : s.record_begun = false := hend rfl (by omega)
      exact hcover i (by rw [hb]; simpa using hi) (fun he => hne he.symm)
  · rw [List.getElem?_eq_none (by rw [length_applyAll L recs O (by omega)]; omega),
      List.getElem?_eq_none (by omega)]

/-- C19 (restricted round trip): for buffers `O` and `M` of equal length `L ≤ 0xFFFFFF`
whose last bytes agree (or `L = 0`), a patch returned by `CreateIPS` is a list of records
none of which `ApplyIPS` skips: applied to a copy of `O` with `Size = L` it returns the
number of records in the patch and leaves the buffer equal to `M`. -/
theorem C19_restricted_round_trip (O M : List Byte) (L : Nat) (p : List Byte)
    (hO : O.length = L) (hM : M.length = L) (hL : L ≤ 0xFFFFFF)
    (hfin : L = 0 ∨ O.getD (L - 1) 0 = M.getD (L - 1) 0) (h : CreateIPS O M L = some p) :
    ∃ recs : List Record, p = PATCH ++ encodeAll recs ++ EOFMARK ∧
      (∀ r ∈ recs, r.isCopy = true ∧ r.wf = true ∧ r.sentinel = false ∧
        r.overwrites L = true) ∧
      ApplyIPS p (some O) L = (recs.length, some M) := by
  apply CreateIPS_round_trip O M L p hO hM hL _ h
  rcases hfin with h0 | h1
  · subst h0
    rw [List.length_eq_zero.mp hO, List.length_eq_zero.mp hM]
  · exact h1.symm

/-- C19 at the concrete buffers `[0,0,0,0]` and `[0,0xFF,0xFF,0]`. -/
theorem C19_restricted_round_trip_witness :
    ∃ recs : List Record,
      ([0x50, 0x41, 0x54, 0x43, 0x48, 0, 0, 1, 0, 2, 0xFF, 0xFF, 0x45, 0x4F, 0x46] : List Byte)
        = PATCH ++ encodeAll recs ++ EOFMARK ∧
      (∀ r ∈ recs, r.isCopy = true ∧ r.wf = true ∧ r.sentinel = false ∧
        r.overwrites 4 = true) ∧
      ApplyIPS [0x50, 0x41, 0x54, 0x43, 0x48, 0, 0, 1, 0, 2, 0xFF, 0xFF, 0x45, 0x4F, 0x46]
        (some [0, 0, 0, 0]) 4 = (recs.length, some [0, 0xFF, 0xFF, 0]) :=
  C19_restricted_round_trip [0, 0, 0, 0] [0, 0xFF, 0xFF, 0] 4 _ (by decide) (by decide)
    (by decide) (Or.inr (by decide)) (by decide)

/-! ## The record cap and the `EOF_CODE` position -/

/-- Over `0xFFFF` positions where the buffers differ, starting with no open record: the
record written holds `0xFFFF` bytes. -/
theorem loop_full_record_ips (O M : List Byte) (L n pos : Nat) (s : Enc)
    (hb : s.record_begun = false) (hc : s.CurIpsBufSize ≤ FILE_LIMIT)
    (hne : ∀ i, pos ≤ i → i < pos + 0xFFFF → M.getD i 0 ≠ O.getD i 0)
    (h1 : pos ≠ EOF_CODE) (hL : pos + 0xFFFF ≤ L) :
    ∃ (s' : Enc) (payload : List Byte),
      CreateIPS.loop O M L (0xFFFF + n) pos s = CreateIPS.loop O M L n (pos + 0xFFFF) s' ∧
      s'.record_begun = false ∧ s'.ips = s.ips ++ (Record.copy pos payload).encode ∧
      payload.length = 0xFFFF := by
  suffices key : ∀ p', p' = pos + 0xFFFF →
      ∃ (s' : Enc) (payload : List Byte),
        CreateIPS.loop O M L (0xFFFF + n) pos s = CreateIPS.loop O M L n p' s' ∧
        s'.record_begun = false ∧ s'.ips = s.ips ++ (Record.copy pos payload).encode ∧
        payload.length = 0xFFFF from key _ rfl
  intro p' hp'
  have e1 : 0xFFFF + n = (0xFFFD + (n + 1)) + 1 := by omega
  rw [e1, CreateIPS_loop_step O M L _ pos s hc,
    body_start O M L pos s hb (hne pos (le_refl _) (by omega)) h1 (by omega)]
  have hone : (Enc.mk true [M.getD pos 0] s.CurIpsBufSize s.ips pos).record.length = 1 := rfl
  obtain ⟨s₁, g1, g2, g3, g4, g5, g6⟩ := loop_continue O M L 0xFFFD (n + 1) (pos + 1)
    { s with record_begun := true, record := [M.getD pos 0], curr_offset := pos } rfl hc
    (by unfold RECORD_LIMIT; rw [hone])
    (fun i h1 h2 => hne i (by omega) (by omega)) (by omega)
  rw [g1]
  have g4' : s₁.ips = s.ips := g4
  have g5' : s₁.CurIpsBufSize = s.CurIpsBufSize := g5
  have g6' : s₁.curr_offset = pos := g6
  have hc₁ : s₁.CurIpsBufSize ≤ FILE_LIMIT := by rw [g5']; exact hc
  have hl₁ : s₁.record.length = RECORD_LIMIT - 1 := by
    rw [g3, hone]; unfold RECORD_LIMIT; omega
  rw [CreateIPS_loop_step O M L _ _ s₁ hc₁, body_cap O M L _ s₁ g2 hl₁]
  have e2 : pos + 1 + 0xFFFD + 1 = p' := by omega
  rw [e2]
  refine ⟨_, s₁.record ++ [M.getD (pos + 1 + 0xFFFD) 0], rfl, rfl, ?_, ?_⟩
  · show write_record s₁.ips s₁.curr_offset (s₁.record ++ [M.getD (pos + 1 + 0xFFFD) 0])
      (s₁.record ++ [M.getD (pos + 1 + 0xFFFD) 0]).length = _
    rw [write_record_eq, g4', g6']
  · rw [List.length_append, hl₁, List.length_singleton]
    unfold RECORD_LIMIT
    omega

/-- `CreateIPS` on two buffers of `0xFFFF` bytes that differ everywhere returns one record
of `0xFFFF` bytes. -/
theorem CreateIPS_one_full_record (O M : List Byte) (L : Nat) (hL : L = 0xFFFF)
    (hne : ∀ i, i < L → M.getD i 0 ≠ O.getD i 0) :
    ∃ payload : List Byte,
      CreateIPS O M L = some (PATCH ++ encodeAll [.copy 0 payload] ++ EOFMARK) ∧
      payload.length = 0xFFFF := by
  obtain ⟨s, payload, h1, _, h3, h4⟩ := loop_full_record_ips O M L 0 0 CreateIPS.init rfl
    (by decide) (fun i _ hi => hne i (by omega)) (by decide) (by omega)
  refine ⟨payload, ?_, h4⟩
  have e : 0xFFFF + 0 = L := by omega
  rw [e, CreateIPS_loop_zero] at h1
  unfold CreateIPS
  rw [h1]
  simp only [h3, encodeAll, List.append_nil]
  rfl

/-- `CreateIPS` on two buffers of `EOF_CODE + 1` bytes that differ in their last byte only:
the record opened at position `EOF_CODE` is never written. -/
theorem CreateIPS_eof_last (O M : List Byte) (a : Nat) (ha : a = EOF_CODE)
    (heq : ∀ i, i < a → M.getD i 0 = O.getD i 0) (hne : M.getD a 0 ≠ O.getD a 0) :
    CreateIPS O M (a + 1) = some (PATCH ++ EOFMARK) := by
  unfold CreateIPS
  have hc : CreateIPS.init.CurIpsBufSize ≤ FILE_LIMIT := by decide
  rw [loop_skip_equal O M (a + 1) a 1 0 CreateIPS.init rfl hc
    (fun i _ h2 => heq i (by omega)) (by omega), Nat.zero_add,
    CreateIPS_loop_step O M _ 0 a _ hc, CreateIPS_loop_zero,
    body_start_eof O M (a + 1) a _ rfl (by omega) hne ha]
  rfl

/-- For buffers of at most `0x1000000` bytes, no record of a patch returned by `CreateIPS`
has the offset `EOF_CODE`, that is, offset bytes spelling `"EOF"`. -/
theorem CreateIPS_no_EOF_offset (O M : List Byte) (L : Nat) (p : List Byte)
    (hL : L ≤ 0x1000000) (h : CreateIPS O M L = some p) :
    ∃ recs : List Record, p = PATCH ++ encodeAll recs ++ EOFMARK ∧
      ∀ r ∈ recs, r.offset < 2 ^ 24 ∧ r.offset ≠ EOF_CODE ∧ offsetField r.offset ≠ EOFMARK := by
  obtain ⟨s, recs, hinv, hp⟩ := CreateIPS_scan O M L p h
  refine ⟨recs, hp, fun r hr => ?_⟩
  obtain ⟨⟨_, h1, _, h3, _⟩, hne⟩ := hinv.2.1 r hr
  have ho : r.offset < 2 ^ 24 := by omega
  refine ⟨ho, hne, fun hf => ?_⟩
  have h4 := hdrOffset_lowByte ho
  simp only [offsetField, EOFMARK, List.cons.injEq, and_true] at hf
  rw [hf.1, hf.2.1, hf.2.2] at h4
  have h5 : hdrOffset 0x45 0x4F 0x46 = EOF_CODE := by decide
  omega

/-- Over `0xFFFF` positions where the buffers differ, starting with no open record: the
record written holds `0xFFFF` bytes, and the capacity is what `ensure_length` makes it. -/
theorem loop_full_record_cap (O M : List Byte) (L n pos : Nat) (s : Enc)
    (hb : s.record_begun = false) (hc : s.CurIpsBufSize ≤ FILE_LIMIT)
    (hne : ∀ i, pos ≤ i → i < pos + 0xFFFF → M.getD i 0 ≠ O.getD i 0)
    (h1 : pos ≠ EOF_CODE) (hL : pos + 0xFFFF ≤ L) :
    ∃ (s' : Enc) (payload : List Byte),
      CreateIPS.loop O M L (0xFFFF + n) pos s = CreateIPS.loop O M L n (pos + 0xFFFF) s' ∧
      s'.record_begun = false ∧ s'.ips = s.ips ++ (Record.copy pos payload).encode ∧
      payload.length = 0xFFFF ∧
      s'.CurIpsBufSize = ensure_length (s.ips.length + 0x10004) s.CurIpsBufSize := by
  suffices key : ∀ p', p' = pos + 0xFFFF →
      ∃ (s' : Enc) (payload : List Byte),
        CreateIPS.loop O M L (0xFFFF + n) pos s = CreateIPS.loop O M L n p' s' ∧
        s'.record_begun = false ∧ s'.ips = s.ips ++ (Record.copy pos payload).encode ∧
        payload.length = 0xFFFF ∧
        s'.CurIpsBufSize = ensure_length (s.ips.length + 0x10004) s.CurIpsBufSize from key _ rfl
  intro p' hp'
  have e1 : 0xFFFF + n = (0xFFFD + (n + 1)) + 1 := by omega
  rw [e1, CreateIPS_loop_step O M L _ pos s hc,
    body_start O M L pos s hb (hne pos (le_refl _) (by omega)) h1 (by omega)]
  have hone : (Enc.mk true [M.getD pos 0] s.CurIpsBufSize s.ips pos).record.length = 1 := rfl
  obtain ⟨s₁, g1, g2, g3, g4, g5, g6⟩ := loop_continue O M L 0xFFFD (n + 1) (pos + 1)
    { s with record_begun := true, record := [M.getD pos 0], curr_offset := pos } rfl hc
    (by unfold RECORD_LIMIT; rw [hone])
    (fun i h1 h2 => hne i (by omega) (by omega)) (by omega)
  rw [g1]
  have g4' : s₁.ips = s.ips := g4
  have g5' : s₁.CurIpsBufSize = s.CurIpsBufSize := g5
  have g6' : s₁.curr_offset = pos := g6
  have hc₁ : s₁.CurIpsBufSize ≤ FILE_LIMIT := by rw [g5']; exact hc
  have hl₁ : s₁.record.length = RECORD_LIMIT - 1 := by
    rw [g3, hone]; unfold RECORD_LIMIT; omega
  rw [CreateIPS_loop_step O M L _ _ s₁ hc₁, body_cap O M L _ s₁ g2 hl₁]
  have e2 : pos + 1 + 0xFFFD + 1 = p' := by omega
  have e3 : s₁.ips.length + 5 + (s₁.record ++ [M.getD (pos + 1 + 0xFFFD) 0]).length
      = s.ips.length + 0x10004 := by
    rw [List.length_append, hl₁, g4', List.length_singleton]
    unfold RECORD_LIMIT
    omega
  rw [e2]
  refine ⟨_, s₁.record ++ [M.getD (pos + 1 + 0xFFFD) 0], rfl, rfl, ?_, ?_, ?_⟩
  · show write_record s₁.ips s₁.curr_offset (s₁.record ++ [M.getD (pos + 1 + 0xFFFD) 0])
      (s₁.record ++ [M.getD (pos + 1 + 0xFFFD) 0]).length = _
    rw [write_record_eq, g4', g6']
  · rw [List.length_append, hl₁, List.length_singleton]
    unfold RECORD_LIMIT
    omega
  · show ensure_length (s₁.ips.length + 5 + (s₁.record ++ [M.getD (pos + 1 + 0xFFFD) 0]).length)
      s₁.CurIpsBufSize = _
    rw [e3, g5']

/-- A run of differing bytes that starts `0xFFFF` bytes before position `EOF_CODE` and
goes on to the end of the buffers, two bytes later: the first record holds `0xFFFF` bytes
and ends at `EOF_CODE - 1`; the second record has the offset `EOF_CODE - 1` and holds the
bytes at `EOF_CODE - 1` and `EOF_CODE`. -/
theorem CreateIPS_cap_before_eof (O M : List Byte) (a E L : Nat) (hE : E = EOF_CODE)
    (ha : a + 0xFFFF = E) (hL : L = E + 2)
    (heq : ∀ i, i < a → M.getD i 0 = O.getD i 0)
    (hne : ∀ i, a ≤ i → i < L → M.getD i 0 ≠ O.getD i 0) :
    ∃ payload : List Byte,
      CreateIPS O M L = some (PATCH ++
        encodeAll [.copy a payload, .copy (E - 1) [M.getD (E - 1) 0, M.getD E 0]] ++ EOFMARK) ∧
      payload.length = 0xFFFF := by
  have hc : CreateIPS.init.CurIpsBufSize ≤ FILE_LIMIT := by decide
  have h0 := loop_skip_equal O M L a (0xFFFF + 2) 0 CreateIPS.init rfl hc
    (fun i _ h2 => heq i (by omega)) (by omega)
  have e0 : a + (0xFFFF + 2) = L := by omega
  rw [e0, Nat.zero_add] at h0
  obtain ⟨s, payload, h1, h2, h3, h4, h5⟩ := loop_full_record_cap O M L 2 a CreateIPS.init rfl hc
    (fun i g1 g2 => hne i g1 (by omega)) (by rw [← hE]; omega) (by omega)
  rw [ha] at h1
  have hcs : s.CurIpsBufSize ≤ FILE_LIMIT := by
    rw [h5]
    exact CapOK_le_limit (CapOK_ensure_length CapOK_init (by omega)) (by decide)
  refine ⟨payload, ?_, h4⟩
  unfold CreateIPS
  rw [h0, h1, CreateIPS_loop_step O M L 1 E s hcs,
    body_start_eof O M L E s h2 (by omega) (hne E (by omega) (by omega)) hE,
    CreateIPS_loop_step O M L 0 (E + 1)
      (Enc.mk true [M.getD (E - 1) 0, M.getD E 0] s.CurIpsBufSize s.ips (E - 1)) hcs,
    CreateIPS_loop_zero,
    body_close O M L (E + 1)
      (Enc.mk true [M.getD (E - 1) 0, M.getD E 0] s.CurIpsBufSize s.ips (E - 1)) rfl
      (by show 2 ≠ RECORD_LIMIT - 1; decide) (by omega) (Or.inr (by omega))]
  show some (write_record s.ips (E - 1) [M.getD (E - 1) 0, M.getD E 0]
    [M.getD (E - 1) 0, M.getD E 0].length ++ EOFMARK) = _
  rw [write_record_eq, h3]
  simp only [encodeAll, List.append_nil, List.append_assoc]
  rfl

theorem getD_replicate_append_replicate (n m i : Nat) (a b d : Byte) (h1 : n ≤ i)
    (h2 : i < n + m) : (List.replicate n a ++ List.replicate m b).getD i d = b := by
  rw [List.getD_eq_getElem?_getD,
    List.getElem?_append_right (by rw [List.length_replicate]; exact h1),
    List.length_replicate, List.getElem?_replicate, if_pos (by omega)]
  rfl

/-- C15, as stated, fails in two ways. For two buffers of `0xFFFF` bytes that differ
everywhere, the patch returned by `CreateIPS` holds one record whose payload has `0xFFFF`
bytes, one more than `RECORD_LIMIT - 1`. For two buffers of `0x454F48` bytes that differ
from position `0x444F47` on, the first record reaches the cap and ends at position
`0x454F45`, and the next record does not begin at the next byte, at `0x454F46`: it has the
offset `0x454F45` and holds the byte at `0x454F45` again. -/
theorem C15_counterexample :
    (∃ payload : List Byte,
      CreateIPS (List.replicate 0xFFFF 0) (List.replicate 0xFFFF 1) 0xFFFF =
        some (PATCH ++ encodeAll [.copy 0 payload] ++ EOFMARK) ∧
      payload.length = 0xFFFF ∧ RECORD_LIMIT - 1 < payload.length) ∧
    (∃ payload : List Byte,
      CreateIPS (List.replicate 0x454F48 0)
          (List.replicate 0x444F47 0 ++ List.replicate 0x10001 1) 0x454F48 =
        some (PATCH ++ encodeAll [.copy 0x444F47 payload, .copy 0x454F45 [1, 1]] ++ EOFMARK) ∧
      payload.length = 0xFFFF ∧ 0x444F47 + payload.length = 0x454F45 + 1) := by
  constructor
  · obtain ⟨payload, h1, h2⟩ := CreateIPS_one_full_record (List.replicate 0xFFFF 0)
      (List.replicate 0xFFFF 1) 0xFFFF rfl (fun i hi => by
        rw [getD_replicate_lt _ _ _ _ hi, getD_replicate_self]
        decide)
    refine ⟨payload, h1, h2, ?_⟩
    rw [h2]
    decide
  · obtain ⟨payload, h1, h2⟩ := CreateIPS_cap_before_eof (List.replicate 0x454F48 0)
      (List.replicate 0x444F47 0 ++ List.replicate 0x10001 1) 0x444F47 0x454F46 0x454F48 rfl
      (by decide) (by decide)
      (fun i hi => by rw [getD_replicate_append_lt _ _ _ _ _ hi, getD_replicate_self])
      (fun i g1 g2 => by
        rw [getD_replicate_append_replicate _ _ _ _ _ _ g1 (by omega), getD_replicate_self]
        decide)
    rw [getD_replicate_append_replicate _ _ _ _ _ _ (by decide) (by decide),
      getD_replicate_append_replicate _ _ _ _ _ _ (by decide) (by decide)] at h1
    refine ⟨payload, h1, h2, ?_⟩
    rw [h2]

theorem write_record_prefix (ips : List Byte) (off : Nat) (record : List Byte) (n : Nat) :
    ∃ t, write_record ips off record n = ips ++ t :=
  ⟨_, List.append_assoc _ _ _⟩

theorem body_ips_prefix (O M : List Byte) (L pos : Nat) (s : Enc) :
    ∃ t, (CreateIPS.body O M L pos s).ips = s.ips ++ t := by
  unfold CreateIPS.body
  simp only []
  split_ifs <;>
    first
      | exact ⟨[], (List.append_nil _).symm⟩
      | exact write_record_prefix _ _ _ _

theorem stateAt_succ (O M : List Byte) (L pos : Nat) :
    CreateIPS.stateAt O M L (pos + 1) = CreateIPS.body O M L pos (CreateIPS.stateAt O M L pos) :=
  rfl

/-- The output only grows along the scan. -/
theorem stateAt_ips_prefix (O M : List Byte) (L pos : Nat) : ∀ k : Nat,
    ∃ t, (CreateIPS.stateAt O M L (pos + k)).ips = (CreateIPS.stateAt O M L pos).ips ++ t := by
  intro k
  induction k with
  | zero => exact ⟨[], (List.append_nil _).symm⟩
  | succ k ih =>
    obtain ⟨t, ht⟩ := ih
    obtain ⟨u, hu⟩ := body_ips_prefix O M L (pos + k) (CreateIPS.stateAt O M L (pos + k))
    refine ⟨t ++ u, ?_⟩
    rw [← Nat.add_assoc, stateAt_succ, hu, ht, List.append_assoc]

/-- A loop that does not return `NULL` ends in the state `CreateIPS.stateAt`. -/
theorem loop_stateAt (O M : List Byte) (L : Nat) : ∀ (n pos : Nat) (s' : Enc),
    CreateIPS.loop O M L n pos (CreateIPS.stateAt O M L pos) = some s' →
    s' = CreateIPS.stateAt O M L (pos + n) := by
  intro n
  induction n with
  | zero =>
    intro pos s' h
    rw [CreateIPS_loop_zero] at h
    exact (Option.some.inj h).symm
  | succ n ih =>
    intro pos s' h
    rw [CreateIPS_loop_succ] at h
    by_cases hc : (CreateIPS.stateAt O M L pos).CurIpsBufSize > FILE_LIMIT
    · rw [if_pos hc] at h; cases h
    · rw [if_neg hc, ← stateAt_succ] at h
      have := ih (pos + 1) s' h
      rw [this]
      congr 1
      omega

/-- A patch returned by `CreateIPS` is the output of the state after the last position,
followed by the trailer. -/
theorem CreateIPS_stateAt (O M : List Byte) (L : Nat) (p : List Byte)
    (h : CreateIPS O M L = some p) : p = (CreateIPS.stateAt O M L L).ips ++ EOFMARK := by
  unfold CreateIPS at h
  cases hl : CreateIPS.loop O M L L 0 CreateIPS.init with
  | none => rw [hl] at h; cases h
  | some s =>
    rw [hl] at h
    have h1 := loop_stateAt O M L L 0 s hl
    rw [Nat.zero_add] at h1
    rw [← h1]
    exact (Option.some.inj h).symm

/-- The loop invariant holds of the states of the scan. -/
theorem stateAt_inv (O M : List Byte) (L : Nat) : ∀ pos : Nat, pos ≤ L →
    EncInv M pos (CreateIPS.stateAt O M L pos) := by
  intro pos
  induction pos with
  | zero => intro _; exact EncInv_init M
  | succ pos ih =>
    intro h
    rw [stateAt_succ]
    exact body_inv O M L pos _ (by omega) (ih (by omega))

/-- Over a run of differing bytes that starts at position 0, the state at position
`0xFFFE` holds an open record of `0xFFFE` bytes that starts at offset 0, and nothing has
been written yet. -/
theorem stateAt_run (O M : List Byte) (L k : Nat) (hk : k = 0xFFFE) (hL : k < L)
    (hne : ∀ i, i < k → M.getD i 0 ≠ O.getD i 0) :
    (CreateIPS.stateAt O M L k).record_begun = true ∧
    (CreateIPS.stateAt O M L k).record.length = RECORD_LIMIT - 1 ∧
    (CreateIPS.stateAt O M L k).ips = PATCH ∧
    (CreateIPS.stateAt O M L k).curr_offset = 0 := by
  have hc : CreateIPS.init.CurIpsBufSize ≤ FILE_LIMIT := by decide
  have hone : (Enc.mk true [M.getD 0 0] CreateIPS.init.CurIpsBufSize CreateIPS.init.ips
      0).record.length = 1 := rfl
  obtain ⟨s₁, g1, g2, g3, g4, g5, g6⟩ := loop_continue O M L 0xFFFD 0 (0 + 1)
    { CreateIPS.init with record_begun := true, record := [M.getD 0 0], curr_offset := 0 }
    rfl hc (by unfold RECORD_LIMIT; rw [hone])
    (fun i h1 h2 => hne i (by omega)) (by omega)
  have hs : CreateIPS.loop O M L k 0 (CreateIPS.stateAt O M L 0) = some s₁ := by
    have e1 : k = (0xFFFD + 0) + 1 := by omega
    rw [e1]
    show CreateIPS.loop O M L (0xFFFD + 0 + 1) 0 CreateIPS.init = some s₁
    rw [CreateIPS_loop_step O M L _ 0 _ hc,
      body_start O M L 0 _ rfl (hne 0 (by omega)) (by decide) (by omega), g1,
      CreateIPS_loop_zero]
  have h1 := loop_stateAt O M L k 0 s₁ hs
  rw [Nat.zero_add] at h1
  rw [← h1]
  refine ⟨g2, ?_, g4, g6⟩
  rw [g3, hone]
  unfold RECORD_LIMIT
  omega

/-- The buffers of `0x10001` bytes that differ everywhere: `CreateIPS` returns a patch. -/
theorem CreateIPS_two_records (O M : List Byte) (L : Nat) (hL : L = 0x10001)
    (hne : ∀ i, i < L → M.getD i 0 ≠ O.getD i 0) : ∃ p, CreateIPS O M L = some p := by
  obtain ⟨s, h1, h2, h3, h4⟩ := loop_all_differ O M L hne 1 2 (by omega) (by decide)
    (Or.inr (by decide))
  have hc : s.CurIpsBufSize ≤ FILE_LIMIT :=
    CapOK_le_limit h4 (by rw [h3]; decide)
  have e : 1 * 0xFFFF + 2 = L := by omega
  rw [e] at h1
  unfold CreateIPS
  rw [h1, CreateIPS_loop_step O M L 1 _ s hc,
    body_start O M L _ s h2 (hne _ (by omega)) (by decide) (by omega),
    CreateIPS_loop_step O M L 0 _
      (Enc.mk true [M.getD (1 * 0xFFFF) 0] s.CurIpsBufSize s.ips (1 * 0xFFFF)) hc,
    CreateIPS_loop_zero]
  exact ⟨_, rfl⟩

/-- C15 (record cap), amended: every record of a patch returned by `CreateIPS` has a
payload of at most `0xFFFF` bytes (`RECORD_LIMIT`). When the scan reaches a position `pos`
with an open record of `0xFFFE` bytes (`RECORD_LIMIT - 1`), the byte at `pos` is taken as
well, whether it differs or not: the record written holds the `0xFFFF` modified bytes
that end at `pos`, it is part of the returned patch, and no record is open afterwards.
When the byte at the next position `pos+1` differs, a new record begins there, with
offset `pos+1` and that byte first; except when `pos+1` is `0x454F46`, where the new record
has offset `pos` and holds the byte at `pos` again, followed by the byte at `pos+1`. -/
theorem C15_record_cap (O M : List Byte) (L : Nat) (p : List Byte)
    (h : CreateIPS O M L = some p) :
    (∃ recs : List Record, p = PATCH ++ encodeAll recs ++ EOFMARK ∧
      ∀ r ∈ recs, r.isCopy = true ∧ 1 ≤ r.len ∧ r.len ≤ RECORD_LIMIT) ∧
    p = (CreateIPS.stateAt O M L L).ips ++ EOFMARK ∧
    (∀ pos : Nat, pos < L →
      (CreateIPS.stateAt O M L pos).record_begun = true →
      (CreateIPS.stateAt O M L pos).record.length = RECORD_LIMIT - 1 →
      (CreateIPS.stateAt O M L pos).curr_offset + RECORD_LIMIT = pos + 1 ∧
      (CreateIPS.stateAt O M L (pos + 1)).record_begun = false ∧
      (CreateIPS.stateAt O M L (pos + 1)).ips =
        (CreateIPS.stateAt O M L pos).ips ++
          (Record.copy (CreateIPS.stateAt O M L pos).curr_offset
            (slice M (CreateIPS.stateAt O M L pos).curr_offset RECORD_LIMIT)).encode ∧
      (∃ rest, p = (CreateIPS.stateAt O M L (pos + 1)).ips ++ rest) ∧
      (pos + 1 < L → M.getD (pos + 1) 0 ≠ O.getD (pos + 1) 0 →
        (pos + 1 ≠ EOF_CODE →
          (CreateIPS.stateAt O M L (pos + 2)).curr_offset = pos + 1 ∧
          (CreateIPS.stateAt O M L (pos + 2)).record = [M.getD (pos + 1) 0]) ∧
        (pos + 1 = EOF_CODE →
          (CreateIPS.stateAt O M L (pos + 2)).curr_offset = pos ∧
          (CreateIPS.stateAt O M L (pos + 2)).record
            = [M.getD pos 0, M.getD (pos + 1) 0]))) := by
  have hp := CreateIPS_stateAt O M L p h
  refine ⟨?_, hp, ?_⟩
  · obtain ⟨recs, hp, hrecs⟩ := CreateIPS_shape O M L p h
    exact ⟨recs, hp, fun r hr => ⟨(hrecs r hr).1, (hrecs r hr).2.1, (hrecs r hr).2.2.1⟩⟩
  · intro pos hpos hb hl
    obtain ⟨_, hopen⟩ := stateAt_inv O M L pos (by omega)
    obtain ⟨ho, _, _, hrec⟩ := hopen hb
    have hlen : (CreateIPS.stateAt O M L pos).record.length + 1 = RECORD_LIMIT := by
      rw [hl]; unfold RECORD_LIMIT; omega
    have hs1 := body_cap O M L pos _ hb hl
    rw [← stateAt_succ] at hs1
    have hpay : (CreateIPS.stateAt O M L pos).record ++ [M.getD pos 0] =
        slice M (CreateIPS.stateAt O M L pos).curr_offset RECORD_LIMIT := by
      rw [← hlen, slice_succ, ← hrec, ho]
    have hb1 : (CreateIPS.stateAt O M L (pos + 1)).record_begun = false := by rw [hs1]
    refine ⟨by omega, hb1, ?_, ?_, fun hlt hne => ⟨fun h1 => ?_, fun h1 => ?_⟩⟩
    · rw [hs1]
      show write_record _ _ ((CreateIPS.stateAt O M L pos).record ++ [M.getD pos 0])
        ((CreateIPS.stateAt O M L pos).record ++ [M.getD pos 0]).length = _
      rw [write_record_eq, hpay]
    · obtain ⟨t, ht⟩ := stateAt_ips_prefix O M L (pos + 1) (L - (pos + 1))
      have e : pos + 1 + (L - (pos + 1)) = L := by omega
      rw [e] at ht
      exact ⟨t ++ EOFMARK, by rw [hp, ht, List.append_assoc]⟩
    · have e : pos + 2 = (pos + 1) + 1 := rfl
      rw [e, stateAt_succ]
      by_cases h2 : pos + 1 = L - 1
      · rw [body_start_last O M L (pos + 1) _ hb1 hne h1 h2]
        exact ⟨rfl, rfl⟩
      · rw [body_start O M L (pos + 1) _ hb1 hne h1 h2]
        exact ⟨rfl, rfl⟩
    · have e : pos + 2 = (pos + 1) + 1 := rfl
      rw [e, stateAt_succ, body_start_eof O M L (pos + 1) _ hb1 hlt hne h1]
      exact ⟨rfl, rfl⟩

/-- C15 at the cap: for two buffers of `0x10001` bytes that differ everywhere, the scan
reaches position `0xFFFE` with an open record of `0xFFFE` bytes; the record written there
starts at offset 0 and holds the first `0xFFFF` modified bytes, it is part of the returned
patch, and the next record begins at position `0xFFFF` with the byte found there. -/
theorem C15_record_cap_witness :
    ∃ p, CreateIPS (List.replicate 0x10001 0) (List.replicate 0x10001 1) 0x10001 = some p ∧
      (CreateIPS.stateAt (List.replicate 0x10001 0) (List.replicate 0x10001 1) 0x10001
        0xFFFE).record.length = RECORD_LIMIT - 1 ∧
      (CreateIPS.stateAt (List.replicate 0x10001 0) (List.replicate 0x10001 1) 0x10001
        (0xFFFE + 1)).record_begun = false ∧
      (CreateIPS.stateAt (List.replicate 0x10001 0) (List.replicate 0x10001 1) 0x10001
        (0xFFFE + 1)).ips =
          PATCH ++ (Record.copy 0 (slice (List.replicate 0x10001 1) 0 RECORD_LIMIT)).encode ∧
      (∃ rest, p = (CreateIPS.stateAt (List.replicate 0x10001 0) (List.replicate 0x10001 1)
        0x10001 (0xFFFE + 1)).ips ++ rest) ∧
      (CreateIPS.stateAt (List.replicate 0x10001 0) (List.replicate 0x10001 1) 0x10001
        (0xFFFE + 2)).curr_offset = 0xFFFE + 1 ∧
      (CreateIPS.stateAt (List.replicate 0x10001 0) (List.replicate 0x10001 1) 0x10001
        (0xFFFE + 2)).record = [1] := by
  have hne : ∀ i, i < 0x10001 →
      (List.replicate 0x10001 (1 : Byte)).getD i 0 ≠ (List.replicate 0x10001 (0 : Byte)).getD i 0 := by
    intro i hi
    rw [getD_replicate_lt _ _ _ _ hi, getD_replicate_self]
    decide
  obtain ⟨p, hp⟩ := CreateIPS_two_records (List.replicate 0x10001 0) (List.replicate 0x10001 1)
    0x10001 rfl hne
  obtain ⟨hb, hl, hi, ho⟩ := stateAt_run (List.replicate 0x10001 0) (List.replicate 0x10001 1)
    0x10001 0xFFFE rfl (by decide) (fun i h => hne i (by omega))
  obtain ⟨_, h1, h2, h3, h4⟩ :=
    (C15_record_cap (List.replicate 0x10001 0) (List.replicate 0x10001 1) 0x10001 p hp).2.2
      0xFFFE (by decide) hb hl
  rw [hi, ho] at h2
  obtain ⟨h5, h6⟩ := (h4 (by decide) (hne _ (by decide))).1 (by decide)
  rw [getD_replicate_lt _ _ _ _ (by decide)] at h6
  exact ⟨p, hp, hl, h1, h2, h3, h5, h6⟩

/-- C16 (EOF-offset collision) at the failing input of two buffers of `0x454F47` bytes
that differ in their last byte only, at position `0x454F46`: `CreateIPS` returns
`"PATCH"` `"EOF"` with no record at all, although a run of differing bytes starts at
position `0x454F46`. -/
theorem C16_failing_input :
    (List.replicate 0x454F47 (0 : Byte)).length = (List.replicate 0x454F46 (0 : Byte) ++ [1]).length ∧
    (List.replicate 0x454F46 (0 : Byte) ++ [1]).getD 0x454F46 0
      ≠ (List.replicate 0x454F47 (0 : Byte)).getD 0x454F46 0 ∧
    CreateIPS (List.replicate 0x454F47 0) (List.replicate 0x454F46 0 ++ [1]) 0x454F47 =
      some (PATCH ++ encodeAll [] ++ EOFMARK) := by
  refine ⟨?_, ?_, ?_⟩
  · rw [List.length_append, List.length_replicate, List.length_replicate]
    rfl
  · rw [getD_replicate_append_self, getD_replicate_self]; decide
  · exact CreateIPS_eof_last (List.replicate 0x454F47 0) (List.replicate 0x454F46 0 ++ [1])
      0x454F46 rfl
      (fun i hi => by rw [getD_replicate_append_lt _ _ _ _ _ hi, getD_replicate_self])
      (by rw [getD_replicate_append_self, getD_replicate_self]; decide)

end IPS
